import Mathlib

/-!
# go_jsoncfg: typed accessors and expression expansion

A shallow embedding of `jsoncfgo.go` (the `Obj` accessor layer) and `eval.go`
(the recursive loader and the `_env` / `_fileobj` expanders).

Conventions of the embedding.

* The content of a Go `map[string]interface{}` that is not nil is an
  association list with one entry per key.  `range` visits the entries in
  list order: Go leaves the order unspecified, so every order of the list is
  an order the runtime may pick.
* A value of type `Obj` may also be the nil map (the zero value of the type,
  and what `ReadFile` returns for a file that holds `null`).  A method is
  called on a `Receiver`: the nil map, or a map with its content.  Reading the
  nil map finds no key and assigning to it panics, so the nil map differs
  from the empty map `[]` in every method that writes; the walk of the
  loader, which assigns only to the keys it ranges over, treats both alike.
* `Obj` keeps its bookkeeping in the map itself, under the keys
  `_knownkeys` (a `map[string]bool`) and `_errors` (a `[]error`), exactly
  as the source does; `Value` therefore has a constructor for each.
* A run-time panic of an accessor is the result `none`; in the loader it is
  `Outcome.panic`.
* A JSON number is a `float64`; its finite values are rationals.
-/

namespace Jsoncfgo

/-! ## Values -/

/-- The dynamic values an `interface{}` of this package can hold: the six
shapes produced by `encoding/json`, plus the two bookkeeping values that
`noteKnownKey` and `appendError` store inside an `Obj`. -/
inductive Value where
  | null
  | bool (b : Bool)
  | number (x : Rat)
  | str (s : String)
  | list (xs : List Value)
  | object (m : List (String × Value))
  | knownKeys (ks : List String)
  | errors (es : List String)

/-- Obj is a JSON configuration map (`type Obj map[string]interface{}`): the
content of a map that is not nil, `[]` being the empty map.  The nil map is
the receiver `Receiver.nil`. -/
abbrev Obj := List (String × Value)

/-- Map assignment `m[k] = v`: overwrite the entry of `k`, or add one. -/
def store (k : String) (v : Value) : Obj → Obj
  | [] => [(k, v)]
  | (k', v') :: rest => if k' = k then (k, v) :: rest else (k', v') :: store k v rest

/-- The keys of a map, in iteration order. -/
def keys (m : Obj) : List String := m.map Prod.fst

/-- The verb `%T`: the dynamic type of a value. -/
def typeName : Value → String
  | .null => "<nil>"
  | .bool _ => "bool"
  | .number _ => "float64"
  | .str _ => "string"
  | .list _ => "[]interface {}"
  | .object _ => "map[string]interface {}"
  | .knownKeys _ => "map[string]bool"
  | .errors _ => "[]error"

/-- The function `strconv.ParseBool`: the twelve accepted literals. -/
def ParseBool (s : String) : Option Bool :=
  if s = "1" ∨ s = "t" ∨ s = "T" ∨ s = "TRUE" ∨ s = "true" ∨ s = "True" then some true
  else if s = "0" ∨ s = "f" ∨ s = "F" ∨ s = "FALSE" ∨ s = "false" ∨ s = "False" then some false
  else none

/-- The function `strings.HasPrefix(k, "_")`. -/
def hasUnderscorePrefix (k : String) : Bool :=
  match k.data with
  | c :: _ => c == '_'
  | [] => false

/-- Byte-wise string order, as used by `sort.Strings`. -/
def strLe (a b : String) : Prop := a.data ≤ b.data

instance : DecidableRel strLe := fun a b => inferInstanceAs (Decidable (a.data ≤ b.data))

/-- The function `sort.Strings`. -/
def sortStrings (l : List String) : List String := l.insertionSort strLe

/-- The function `strings.Join`. -/
def Join : List String → String → String
  | [], _ => ""
  | [a], _ => a
  | a :: b :: rest, sep => a ++ sep ++ Join (b :: rest) sep

/-! ## The Go runtime and library -/

/-- What the Go implementation and its standard library contribute and this
package does not define.

* `intBits`: the width of `int` and `uint`.
* `outOfRange signed bits x`: the result of converting the `float64` `x` to an
  integer type that cannot represent its truncation (left to the
  implementation by the language specification).
* `quote`: the verb `%q` on a string (`strconv.Quote`).
* `sprintf`: `fmt.Sprintf(format)` without operands, consulted only for
  a format that contains `%`.
* `goSyntax`: the verb `%#v`.
* `windows`: whether `runtime.GOOS` is `"windows"`. -/
structure GoRuntime where
  intBits : Nat
  outOfRange : Bool → Nat → Rat → Int
  quote : String → String
  sprintf : String → String
  goSyntax : Value → String
  windows : Bool

/-- The call `fmt.Errorf(format)` without operands: a format without `%` is the
message itself, any other is interpreted by `fmt`. -/
def errorfNoOperands (rt : GoRuntime) (format : String) : String :=
  if '%' ∈ format.data then rt.sprintf format else format

/-- Discard the fraction of a number: truncation toward zero. -/
def truncate (x : Rat) : Int := Int.tdiv x.num x.den

/-- Conversion of a `float64` to a signed integer type of `bits` bits. -/
def toSigned (rt : GoRuntime) (bits : Nat) (x : Rat) : Int :=
  if -(2 ^ (bits - 1) : Int) ≤ truncate x ∧ truncate x < 2 ^ (bits - 1) then truncate x
  else rt.outOfRange true bits x

/-- Conversion of a `float64` to an unsigned integer type of `bits` bits. -/
def toUnsigned (rt : GoRuntime) (bits : Nat) (x : Rat) : Int :=
  if 0 ≤ truncate x ∧ truncate x < 2 ^ bits then truncate x
  else rt.outOfRange false bits x

/-! ## The accessor layer (`jsoncfgo.go`) -/

/-- An argument of a variadic accessor (`args ...interface{}`), by dynamic
type.  A slice argument may be the nil slice. -/
inductive Arg where
  | str (s : String)
  | bool (b : Bool)
  | int (i : Int)
  | uint (u : Int)
  | int64 (i : Int)
  | strings (l : Option (List String))
  | int64s (l : Option (List Int))
  | other

/-- The variadic arguments of one call. -/
abbrev Args := List Arg

/-- The method `noteKnownKey` on a map that is not nil (`Receiver.noteKnownKey`
is the method on any receiver): record `key` in the set kept under
`_knownkeys`, creating the set on first use.  The type assertion on the stored
value panics when the entry holds anything but a `map[string]bool`. -/
def Obj.noteKnownKey (jc : Obj) (key : String) : Option Obj :=
  let jc1 := match jc.lookup "_knownkeys" with
    | none => store "_knownkeys" (.knownKeys []) jc
    | some _ => jc
  match jc1.lookup "_knownkeys" with
  | some (.knownKeys ks) =>
    some (store "_knownkeys" (.knownKeys (if key ∈ ks then ks else ks ++ [key])) jc1)
  | _ => none

/-- The method `appendError` on a map that is not nil: append `err` to the list
kept under `_errors`, creating the list on first use.  The type assertion
panics when the entry holds anything but `[]error`. -/
def Obj.appendError (jc : Obj) (err : String) : Option Obj :=
  match jc.lookup "_errors" with
  | some (.errors es) => some (store "_errors" (.errors (es ++ [err])) jc)
  | some _ => none
  | none => some (store "_errors" (.errors [err]) jc)

/-- The known-key set an `Obj` carries (empty before the first accessor call). -/
def Obj.knownSet (jc : Obj) : List String :=
  match jc.lookup "_knownkeys" with
  | some (.knownKeys ks) => ks
  | _ => []

/-- The error log an `Obj` carries (empty before the first recorded error). -/
def Obj.errorLog (jc : Obj) : List String :=
  match jc.lookup "_errors" with
  | some (.errors es) => es
  | _ => []

/-- The bookkeeping entries are as `noteKnownKey` and `appendError` leave them:
`_knownkeys` is absent or a key set, `_errors` is absent or a non-empty list
of errors. -/
def Obj.wellFormed (jc : Obj) : Bool :=
  (match jc.lookup "_knownkeys" with
    | none => true
    | some (.knownKeys _) => true
    | some _ => false) &&
  (match jc.lookup "_errors" with
    | none => true
    | some (.errors es) => !es.isEmpty
    | some _ => false)

/-- The helper behind `RequiredObject`, `OptionalObject` and `Object`. -/
def Obj.obj (rt : GoRuntime) (jc : Obj) (key : String) (optional : Bool) : Option (Obj × Obj) :=
  match jc.noteKnownKey key with
  | none => none
  | some jc1 =>
    match jc1.lookup key with
    | none =>
      if optional then some (jc1, [])
      else (jc1.appendError
        ("Missing required config key " ++ rt.quote key ++ " (object)")).map fun jc2 => (jc2, [])
    | some (.object m) => some (jc1, m)
    | some ei =>
      (jc1.appendError ("Expected config key " ++ rt.quote key ++ " to be an object, not "
        ++ typeName ei)).map fun jc2 => (jc2, [])

def Obj.RequiredObject (rt : GoRuntime) (jc : Obj) (key : String) : Option (Obj × Obj) :=
  jc.obj rt key false

def Obj.OptionalObject (rt : GoRuntime) (jc : Obj) (key : String) : Option (Obj × Obj) :=
  jc.obj rt key true

/-- Object is an OptionalObject. -/
def Obj.Object (rt : GoRuntime) (jc : Obj) (key : String) : Option (Obj × Obj) :=
  jc.obj rt key true

/-- The helper behind the string accessors; `d` is the `*string` default,
`none` being the nil pointer. -/
def Obj.string (rt : GoRuntime) (jc : Obj) (key : String) (d : Option String) :
    Option (Obj × String) :=
  match jc.noteKnownKey key with
  | none => none
  | some jc1 =>
    match jc1.lookup key with
    | none =>
      match d with
      | some dv => some (jc1, dv)
      | none => (jc1.appendError
          ("Missing required config key " ++ rt.quote key ++ " (string)")).map
            fun jc2 => (jc2, "")
    | some (.str s) => some (jc1, s)
    | some _ =>
      (jc1.appendError ("Expected config key " ++ rt.quote key ++ " to be a string")).map
        fun jc2 => (jc2, "")

def Obj.RequiredString (rt : GoRuntime) (jc : Obj) (key : String) : Option (Obj × String) :=
  jc.string rt key none

def Obj.OptionalString (rt : GoRuntime) (jc : Obj) (key d : String) : Option (Obj × String) :=
  jc.string rt key (some d)

/-- The helper behind the string-or-object accessors.  The result is the
stored value, `nil` (here `Value.null`) or the empty string. -/
def Obj.stringOrObject (rt : GoRuntime) (jc : Obj) (key : String) (required : Bool) :
    Option (Obj × Value) :=
  match jc.noteKnownKey key with
  | none => none
  | some jc1 =>
    match jc1.lookup key with
    | none =>
      if !required then some (jc1, .null)
      else (jc1.appendError ("Missing required config key " ++ rt.quote key
        ++ " (string or object)")).map fun jc2 => (jc2, .str "")
    | some (.object m) => some (jc1, .object m)
    | some (.str s) => some (jc1, .str s)
    | some _ =>
      (jc1.appendError ("Expected config key " ++ rt.quote key
        ++ " to be a string or object")).map fun jc2 => (jc2, .str "")

def Obj.RequiredStringOrObject (rt : GoRuntime) (jc : Obj) (key : String) :
    Option (Obj × Value) :=
  jc.stringOrObject rt key true

def Obj.OptionalStringOrObject (rt : GoRuntime) (jc : Obj) (key : String) :
    Option (Obj × Value) :=
  jc.stringOrObject rt key false

/-- StringOrObject is an OptionalStringOrObject. -/
def Obj.StringOrObject (rt : GoRuntime) (jc : Obj) (key : String) : Option (Obj × Value) :=
  jc.stringOrObject rt key false

/-- The helper behind the boolean accessors. -/
def Obj.bool (rt : GoRuntime) (jc : Obj) (key : String) (d : Option Bool) :
    Option (Obj × Bool) :=
  match jc.noteKnownKey key with
  | none => none
  | some jc1 =>
    match jc1.lookup key with
    | none =>
      match d with
      | some dv => some (jc1, dv)
      | none => (jc1.appendError
          ("Missing required config key " ++ rt.quote key ++ " (boolean)")).map
            fun jc2 => (jc2, false)
    | some (.bool v) => some (jc1, v)
    | some (.str v) =>
      match ParseBool v with
      | some b => some (jc1, b)
      | none => (jc1.appendError ("Config key " ++ rt.quote key ++ " has bad boolean format "
          ++ rt.quote v)).map fun jc2 => (jc2, false)
    | some _ =>
      (jc1.appendError ("Expected config key " ++ rt.quote key ++ " to be a boolean")).map
        fun jc2 => (jc2, false)

def Obj.RequiredBool (rt : GoRuntime) (jc : Obj) (key : String) : Option (Obj × Bool) :=
  jc.bool rt key none

def Obj.OptionalBool (rt : GoRuntime) (jc : Obj) (key : String) (d : Bool) :
    Option (Obj × Bool) :=
  jc.bool rt key (some d)

/-- The helper behind the `int` accessors; the result is `int(b)`. -/
def Obj.int (rt : GoRuntime) (jc : Obj) (key : String) (d : Option Int) : Option (Obj × Int) :=
  match jc.noteKnownKey key with
  | none => none
  | some jc1 =>
    match jc1.lookup key with
    | none =>
      match d with
      | some dv => some (jc1, dv)
      | none => (jc1.appendError
          ("Missing required config key " ++ rt.quote key ++ " (integer)")).map
            fun jc2 => (jc2, 0)
    | some (.number b) => some (jc1, toSigned rt rt.intBits b)
    | some _ =>
      (jc1.appendError ("Expected config key " ++ rt.quote key ++ " to be a number")).map
        fun jc2 => (jc2, 0)

def Obj.RequiredInt (rt : GoRuntime) (jc : Obj) (key : String) : Option (Obj × Int) :=
  jc.int rt key none

def Obj.OptionalInt (rt : GoRuntime) (jc : Obj) (key : String) (d : Int) : Option (Obj × Int) :=
  jc.int rt key (some d)

/-- The helper behind the `uint` accessors; the result is `uint(b)`. -/
def Obj.uint (rt : GoRuntime) (jc : Obj) (key : String) (d : Option Int) : Option (Obj × Int) :=
  match jc.noteKnownKey key with
  | none => none
  | some jc1 =>
    match jc1.lookup key with
    | none =>
      match d with
      | some dv => some (jc1, dv)
      | none => (jc1.appendError
          ("Missing required config key " ++ rt.quote key ++ " (integer)")).map
            fun jc2 => (jc2, 0)
    | some (.number b) => some (jc1, toUnsigned rt rt.intBits b)
    | some _ =>
      (jc1.appendError ("Expected config key " ++ rt.quote key ++ " to be a number")).map
        fun jc2 => (jc2, 0)

def Obj.RequiredUint (rt : GoRuntime) (jc : Obj) (key : String) : Option (Obj × Int) :=
  jc.uint rt key none

def Obj.OptionalUint (rt : GoRuntime) (jc : Obj) (key : String) (d : Int) : Option (Obj × Int) :=
  jc.uint rt key (some d)

/-- The helper behind the `int64` accessors; the result is `int64(b)`. -/
def Obj.int64 (rt : GoRuntime) (jc : Obj) (key : String) (d : Option Int) :
    Option (Obj × Int) :=
  match jc.noteKnownKey key with
  | none => none
  | some jc1 =>
    match jc1.lookup key with
    | none =>
      match d with
      | some dv => some (jc1, dv)
      | none => (jc1.appendError
          ("Missing required config key " ++ rt.quote key ++ " (integer)")).map
            fun jc2 => (jc2, 0)
    | some (.number b) => some (jc1, toSigned rt 64 b)
    | some _ =>
      (jc1.appendError ("Expected config key " ++ rt.quote key ++ " to be a number")).map
        fun jc2 => (jc2, 0)

def Obj.RequiredInt64 (rt : GoRuntime) (jc : Obj) (key : String) : Option (Obj × Int) :=
  jc.int64 rt key none

def Obj.OptionalInt64 (rt : GoRuntime) (jc : Obj) (key : String) (d : Int) :
    Option (Obj × Int) :=
  jc.int64 rt key (some d)

/-- The loop of `requiredList` from index `i` on: the strings of the list, or
the index and value of the first element that is not a string. -/
def stringsFrom (i : Nat) : List Value → Sum (Nat × Value) (List String)
  | [] => .inr []
  | .str s :: rest =>
    match stringsFrom (i + 1) rest with
    | .inr sl => .inr (s :: sl)
    | .inl bad => .inl bad
  | ei :: _ => .inl (i, ei)

/-- The helper behind the string-list accessors.  The inner `none` is the nil
slice. -/
def Obj.requiredList (rt : GoRuntime) (jc : Obj) (key : String) (required : Bool) :
    Option (Obj × Option (List String)) :=
  match jc.noteKnownKey key with
  | none => none
  | some jc1 =>
    match jc1.lookup key with
    | none =>
      if required then
        (jc1.appendError ("Missing required config key " ++ rt.quote key
          ++ " (list of strings)")).map fun jc2 => (jc2, none)
      else some (jc1, none)
    | some (.list eil) =>
      match stringsFrom 0 eil with
      | .inr sl => some (jc1, some sl)
      | .inl (i, ei) =>
        (jc1.appendError ("Expected config key " ++ rt.quote key ++ " index " ++ toString i
          ++ " to be a string, not " ++ typeName ei)).map fun jc2 => (jc2, none)
    | some ei =>
      (jc1.appendError ("Expected config key " ++ rt.quote key ++ " to be a list, not "
        ++ typeName ei)).map fun jc2 => (jc2, none)

def Obj.RequiredList (rt : GoRuntime) (jc : Obj) (key : String) :
    Option (Obj × Option (List String)) :=
  jc.requiredList rt key true

def Obj.OptionalList (rt : GoRuntime) (jc : Obj) (key : String) :
    Option (Obj × Option (List String)) :=
  jc.requiredList rt key false

/-- The loop of `requiredIntList`: `int64(ei.(float64))` for every element; the
type assertion panics on an element that is not a number. -/
def int64sOf (rt : GoRuntime) : List Value → Option (List Int)
  | [] => some []
  | .number x :: rest => (int64sOf rt rest).map fun sl => toSigned rt 64 x :: sl
  | _ :: _ => none

/-- The helper behind `IntList`. -/
def Obj.requiredIntList (rt : GoRuntime) (jc : Obj) (key : String) (required : Bool) :
    Option (Obj × Option (List Int)) :=
  match jc.noteKnownKey key with
  | none => none
  | some jc1 =>
    match jc1.lookup key with
    | none =>
      if required then
        (jc1.appendError ("Missing required config key " ++ rt.quote key
          ++ " (list of ints)")).map fun jc2 => (jc2, none)
      else some (jc1, none)
    | some (.list eil) => (int64sOf rt eil).map fun sl => (jc1, some sl)
    | some ei =>
      (jc1.appendError ("Expected config key " ++ rt.quote key ++ " to be a list, not "
        ++ typeName ei)).map fun jc2 => (jc2, none)

/-- IntList accepts an optional parameter of type `[]int64`: when the list read
is nil the result is `args[0].([]int64)`, which panics without a first
argument of that type. -/
def Obj.IntList (rt : GoRuntime) (jc : Obj) (key : String) (args : Args) :
    Option (Obj × Option (List Int)) :=
  match jc.requiredIntList rt key true with
  | none => none
  | some (jc1, some ret) => some (jc1, some ret)
  | some (jc1, none) =>
    match args with
    | .int64s l :: _ => some (jc1, l)
    | _ => none

/-- UnknownKeys returns the keys from the config that have not yet been
discovered by one of the RequiredT or OptionalT calls. -/
def Obj.UnknownKeys (jc : Obj) : Option (List String) :=
  match jc.lookup "_knownkeys" with
  | some (.knownKeys known) =>
    some (sortStrings ((keys jc).filter fun k => !(decide (k ∈ known)) && !hasUnderscorePrefix k))
  | some _ => none
  | none => some (sortStrings ((keys jc).filter fun k => !hasUnderscorePrefix k))

/-- Validate appends one error per unknown key to the error log and reports
the log: `none` is the nil error. -/
def Obj.Validate (rt : GoRuntime) (jc : Obj) : Option (Obj × Option String) :=
  match jc.UnknownKeys with
  | none => none
  | some unknown =>
    match unknown.foldlM (fun o k => Obj.appendError o ("Unknown key " ++ rt.quote k)) jc with
    | none => none
    | some jc1 =>
      match jc1.lookup "_errors" with
      | none => some (jc1, none)
      | some (.errors errList) =>
        match errList with
        | [e] => some (jc1, some e)
        | _ => some (jc1, some (errorfNoOperands rt
            ("Multiple errors: " ++ Join errList ", ")))
      | some _ => none

/-- The loop over the variadic arguments of `Bool`: the last argument is
the default, and an argument that is not a `bool` panics. -/
def boolDefault : Args → Bool → Option Bool
  | [], d => some d
  | .bool t :: rest, _ => boolDefault rest t
  | _ :: _, _ => none

/-- The loop over the variadic arguments of `Int`. -/
def intDefault : Args → Int → Option Int
  | [], d => some d
  | .int t :: rest, _ => intDefault rest t
  | _ :: _, _ => none

/-- The loop over the variadic arguments of `Uint`: an `int` argument is
converted with `uint(t)`. -/
def uintDefault (rt : GoRuntime) : Args → Int → Option Int
  | [], d => some d
  | .int t :: rest, _ => uintDefault rt rest (t % 2 ^ rt.intBits)
  | .uint t :: rest, _ => uintDefault rt rest t
  | _ :: _, _ => none

/-- The loop over the variadic arguments of `Int64`. -/
def int64Default : Args → Int → Option Int
  | [], d => some d
  | .int t :: rest, _ => int64Default rest t
  | .int64 t :: rest, _ => int64Default rest t
  | _ :: _, _ => none

/-- The loop over the variadic arguments of `String`. -/
def stringDefault : Args → String → Option String
  | [], d => some d
  | .str t :: rest, _ => stringDefault rest t
  | _ :: _, _ => none

/-- Uint is an Optional Uint. -/
def Obj.Uint (rt : GoRuntime) (jc : Obj) (key : String) (args : Args) : Option (Obj × Int) :=
  match uintDefault rt args 0 with
  | none => none
  | some d => jc.uint rt key (some d)

/-- Int64 is an Optional Int64. -/
def Obj.Int64 (rt : GoRuntime) (jc : Obj) (key : String) (args : Args) : Option (Obj × Int) :=
  match int64Default args 0 with
  | none => none
  | some d => jc.int64 rt key (some d)

/-- Bool is an OptionalBool. -/
def Obj.Bool (rt : GoRuntime) (jc : Obj) (key : String) (args : Args) : Option (Obj × Bool) :=
  match boolDefault args false with
  | none => none
  | some d => jc.bool rt key (some d)

/-- Int is an OptionalInt. -/
def Obj.Int (rt : GoRuntime) (jc : Obj) (key : String) (args : Args) : Option (Obj × Int) :=
  match intDefault args 0 with
  | none => none
  | some d => jc.int rt key (some d)

/-- List accepts an optional parameter of type `[]string`: when the list read
is nil the result is `args[0].([]string)`, which panics without a first
argument of that type. -/
def Obj.List (rt : GoRuntime) (jc : Obj) (key : String) (args : Args) :
    Option (Obj × Option (List String)) :=
  match jc.requiredList rt key true with
  | none => none
  | some (jc1, some ret) => some (jc1, some ret)
  | some (jc1, none) =>
    match args with
    | .strings l :: _ => some (jc1, l)
    | _ => none

/-- String is an OptionalString and accepts an optional string parameter. -/
def Obj.String (rt : GoRuntime) (jc : Obj) (key : String) (args : Args) :
    Option (Obj × String) :=
  match stringDefault args "" with
  | none => none
  | some d => jc.string rt key (some d)

/-! ## Receivers that may be nil -/

/-- A value of type `Obj` as the receiver of a method call: the nil map, or a
map with its content. -/
inductive Receiver where
  | nil
  | map (jc : Obj)

/-- The method `noteKnownKey` on any receiver.  On the nil map the test
`_, ok := jc["_knownkeys"]` finds nothing and the assignment
`jc["_knownkeys"] = make(map[string]bool)` panics. -/
def Receiver.noteKnownKey : Receiver → String → Option Obj
  | .nil, _ => none
  | .map jc, key => jc.noteKnownKey key

/-- The method `appendError` on any receiver.  On the nil map the lookup of
`_errors` finds nothing and the assignment `jc["_errors"] = []error{err}`
panics. -/
def Receiver.appendError : Receiver → String → Option Obj
  | .nil, _ => none
  | .map jc, err => jc.appendError err

/-- The helper `obj` on any receiver.  Its first statement is
`jc.noteKnownKey(key)`, which panics on the nil map. -/
def Receiver.obj (rt : GoRuntime) : Receiver → String → Bool → Option (Obj × Obj)
  | .nil, _, _ => none
  | .map jc, key, optional => jc.obj rt key optional

/-- The helper `string` on any receiver; it starts with `jc.noteKnownKey(key)`. -/
def Receiver.string (rt : GoRuntime) : Receiver → String → Option String → Option (Obj × String)
  | .nil, _, _ => none
  | .map jc, key, d => jc.string rt key d

/-- The helper `bool` on any receiver; it starts with `jc.noteKnownKey(key)`. -/
def Receiver.bool (rt : GoRuntime) : Receiver → String → Option Bool → Option (Obj × Bool)
  | .nil, _, _ => none
  | .map jc, key, d => jc.bool rt key d

/-- The helper `int` on any receiver; it starts with `jc.noteKnownKey(key)`. -/
def Receiver.int (rt : GoRuntime) : Receiver → String → Option Int → Option (Obj × Int)
  | .nil, _, _ => none
  | .map jc, key, d => jc.int rt key d

/-- The helper `uint` on any receiver; it starts with `jc.noteKnownKey(key)`. -/
def Receiver.uint (rt : GoRuntime) : Receiver → String → Option Int → Option (Obj × Int)
  | .nil, _, _ => none
  | .map jc, key, d => jc.uint rt key d

/-- The helper `int64` on any receiver; it starts with `jc.noteKnownKey(key)`. -/
def Receiver.int64 (rt : GoRuntime) : Receiver → String → Option Int → Option (Obj × Int)
  | .nil, _, _ => none
  | .map jc, key, d => jc.int64 rt key d

/-- The helper `requiredList` on any receiver; it starts with
`jc.noteKnownKey(key)`. -/
def Receiver.requiredList (rt : GoRuntime) :
    Receiver → String → Bool → Option (Obj × Option (List String))
  | .nil, _, _ => none
  | .map jc, key, required => jc.requiredList rt key required

def Receiver.RequiredObject (rt : GoRuntime) (jc : Receiver) (key : String) :
    Option (Obj × Obj) :=
  jc.obj rt key false

def Receiver.RequiredString (rt : GoRuntime) (jc : Receiver) (key : String) :
    Option (Obj × String) :=
  jc.string rt key none

def Receiver.OptionalString (rt : GoRuntime) (jc : Receiver) (key d : String) :
    Option (Obj × String) :=
  jc.string rt key (some d)

def Receiver.RequiredBool (rt : GoRuntime) (jc : Receiver) (key : String) :
    Option (Obj × Bool) :=
  jc.bool rt key none

def Receiver.OptionalBool (rt : GoRuntime) (jc : Receiver) (key : String) (d : Bool) :
    Option (Obj × Bool) :=
  jc.bool rt key (some d)

def Receiver.RequiredInt (rt : GoRuntime) (jc : Receiver) (key : String) : Option (Obj × Int) :=
  jc.int rt key none

def Receiver.OptionalInt (rt : GoRuntime) (jc : Receiver) (key : String) (d : Int) :
    Option (Obj × Int) :=
  jc.int rt key (some d)

def Receiver.RequiredUint (rt : GoRuntime) (jc : Receiver) (key : String) :
    Option (Obj × Int) :=
  jc.uint rt key none

def Receiver.OptionalUint (rt : GoRuntime) (jc : Receiver) (key : String) (d : Int) :
    Option (Obj × Int) :=
  jc.uint rt key (some d)

def Receiver.RequiredInt64 (rt : GoRuntime) (jc : Receiver) (key : String) :
    Option (Obj × Int) :=
  jc.int64 rt key none

def Receiver.OptionalInt64 (rt : GoRuntime) (jc : Receiver) (key : String) (d : Int) :
    Option (Obj × Int) :=
  jc.int64 rt key (some d)

def Receiver.RequiredList (rt : GoRuntime) (jc : Receiver) (key : String) :
    Option (Obj × Option (List String)) :=
  jc.requiredList rt key true

/-- Uint is an Optional Uint.  The loop over the arguments runs before the
helper is called. -/
def Receiver.Uint (rt : GoRuntime) (jc : Receiver) (key : String) (args : Args) :
    Option (Obj × Int) :=
  match uintDefault rt args 0 with
  | none => none
  | some d => jc.uint rt key (some d)

/-- Int64 is an Optional Int64. -/
def Receiver.Int64 (rt : GoRuntime) (jc : Receiver) (key : String) (args : Args) :
    Option (Obj × Int) :=
  match int64Default args 0 with
  | none => none
  | some d => jc.int64 rt key (some d)

/-- Bool is an OptionalBool. -/
def Receiver.Bool (rt : GoRuntime) (jc : Receiver) (key : String) (args : Args) :
    Option (Obj × Bool) :=
  match boolDefault args false with
  | none => none
  | some d => jc.bool rt key (some d)

/-- Int is an OptionalInt. -/
def Receiver.Int (rt : GoRuntime) (jc : Receiver) (key : String) (args : Args) :
    Option (Obj × Int) :=
  match intDefault args 0 with
  | none => none
  | some d => jc.int rt key (some d)

/-- String is an OptionalString and accepts an optional string parameter. -/
def Receiver.String (rt : GoRuntime) (jc : Receiver) (key : String) (args : Args) :
    Option (Obj × String) :=
  match stringDefault args "" with
  | none => none
  | some d => jc.string rt key (some d)
/-! ## The loader (`eval.go`) -/

/-- How a call of the loader ends: with a value, with an `error`, with a
run-time panic, or with the recursion budget of the embedding used up. -/
inductive Outcome (α : Type) where
  | ok (a : α)
  | error (msg : String)
  | panic (msg : String)
  | outOfFuel

/-- What opening and decoding a file yields: the decoder's error (with the
position text added by `errorutil.HighlightBytePosition`), or the decoded
object.  A file that holds `null` decodes to the nil map; the walk reads it
as it reads the empty object, without an entry, so `document []` stands for
both, and only a method called on the result tells them apart
(`Receiver.nil`). -/
inductive FileContent where
  | undecodable (extra err : String)
  | document (m : Obj)

/-- The world outside the parser: the files `c.open` can open, the message
of a failed open, `filepath.Abs`, `osutil.FindCamliInclude` and the
environment variables. -/
structure World where
  files : List (String × FileContent)
  openError : String → String
  abs : String → Option String
  findInclude : String → Option String
  env : String → Option String

/-- ConfigParser specifies the environment for parsing a config file and
evaluating expressions.  `touchedFiles` is `none` for the nil map of a
parser that has not read a file yet.  `includeStack` is the `stringVector`:
`Push` appends a path, `Pop` drops the last one, `Last` reads it. -/
structure ConfigParser where
  touchedFiles : Option (List String)
  includeStack : List String

/-- The recursive loader, as `expandFile` calls it. -/
abbrev Reader := String → ConfigParser → ConfigParser × Outcome Obj

/-- The function `os.Getenv`: the value, empty if the variable is not set. -/
def Getenv (w : World) (name : String) : String := (w.env name).getD ""

/-- One character of a variable name: `[A-Za-z0-9_]`. -/
def isNameChar (c : Char) : Bool := c.isAlphanum || c == '_'

/-- The match of `envPattern` that starts at the head of the text, if any:
`${`, one or more name characters, `}`. -/
def matchAt : List Char → Option (List Char)
  | '$' :: '{' :: rest =>
    match rest.dropWhile isNameChar with
    | '}' :: _ =>
      if (rest.takeWhile isNameChar).isEmpty then none
      else some ('$' :: '{' :: (rest.takeWhile isNameChar ++ ['}']))
    | _ => none
  | _ => none

/-- The closure `expandEnv` hands to `ReplaceAllStringFunc`: the replacement
of one match, and the variable `err` after the call. -/
def replaceMatch (rt : GoRuntime) (w : World) (hasDefault : Bool) (d : String)
    (m : List Char) (err : Option String) : String × Option String :=
  let envVar := String.mk ((m.drop 2).dropLast)
  let val := Getenv w envVar
  let val := if val = "" ∧ envVar = "USER" ∧ rt.windows = true then Getenv w "USERNAME" else val
  if val = "" then
    if hasDefault then (d, err)
    else (val, some ("couldn't expand environment variable " ++ rt.quote envVar))
  else (val, err)

/-- The call `envPattern.ReplaceAllStringFunc`: the leftmost matches, left to
right, without overlap.  `skip` counts the characters of the current match
that are still to be passed over. -/
def replaceAll (rt : GoRuntime) (w : World) (hasDefault : Bool) (d : String) :
    Nat → List Char → Option String → List Char × Option String
  | _, [], err => ([], err)
  | skip + 1, _ :: rest, err => replaceAll rt w hasDefault d skip rest err
  | 0, c :: rest, err =>
    match matchAt (c :: rest) with
    | some m =>
      let r := replaceMatch rt w hasDefault d m err
      let t := replaceAll rt w hasDefault d (m.length - 1) rest r.2
      (r.1.data ++ t.1, t.2)
    | none =>
      let t := replaceAll rt w hasDefault d 0 rest err
      (c :: t.1, t.2)

/-- The message of the error `strconv.ParseBool` returns. -/
def parseBoolError (rt : GoRuntime) (s : String) : String :=
  "strconv.ParseBool: parsing " ++ rt.quote s ++ ": invalid syntax"

/-- Permit either `["_env", "VARIABLE"]` (required to be set) or
`["_env", "VARIABLE", "default_value"]`. -/
def ConfigParser.expandEnv (rt : GoRuntime) (w : World) (v : List Value) : Outcome Value :=
  if v.length < 1 ∨ v.length > 2 then
    .error ("_env expansion expected 1 or 2 args, got " ++ toString v.length)
  else
    match v with
    | .str s :: rest =>
      match rest with
      | [] =>
        match replaceAll rt w false "" 0 s.data none with
        | (expanded, none) => .ok (.str (String.mk expanded))
        | (_, some err) => .error err
      | .str d :: _ =>
        match replaceAll rt w true d 0 s.data none with
        | (expanded, none) => .ok (.str (String.mk expanded))
        | (_, some err) => .error err
      | .bool boolDefault :: _ =>
        let expanded := String.mk (replaceAll rt w true "" 0 s.data none).1
        if expanded = "" then .ok (.bool boolDefault)
        else
          match ParseBool expanded with
          | some b => .ok (.bool b)
          | none => .error (parseBoolError rt expanded)
      | v1 :: _ =>
        .error ("Expected default value in " ++ rt.quote s ++ " _env expansion; got "
          ++ rt.goSyntax v1)
    | v0 :: _ => .error ("Expected a string after _env expansion; got " ++ rt.goSyntax v0)
    | [] => .error ("_env expansion expected 1 or 2 args, got " ++ toString v.length)

/-- The expander `_fileobj`: load the named file and put its object in place of
the expression.  The type assertion on the argument panics when it is not a
string. -/
def ConfigParser.expandFile (w : World) (rd : Reader) (v : List Value) (c : ConfigParser) :
    ConfigParser × Outcome Value :=
  if v.length ≠ 1 then
    (c, .error ("_file expansion expected 1 arg, got " ++ toString v.length))
  else
    match v with
    | .str s :: _ =>
      match w.findInclude s with
      | none => (c, .error ("Included config does not exist: " ++ s))
      | some incPath =>
        match rd incPath c with
        | (c1, .ok exp) => (c1, .ok (.object exp))
        | (c1, .error e) =>
          match c1.includeStack.getLast? with
          | some top => (c1, .error ("In file included from " ++ top ++ ":\n" ++ e))
          | none => (c1, .panic "index out of range")
        | (c1, .panic p) => (c1, .panic p)
        | (c1, .outOfFuel) => (c1, .outOfFuel)
    | _ => (c, .panic "interface conversion: interface {} is not string")

/-- The two expanders. -/
inductive Expander where
  | env
  | file

def namedExpander (name : String) : Option Expander :=
  if name = "_env" then some .env
  else if name = "_fileobj" then some .file
  else none

/-- The expander named by the first element of an array, if it is a string
that names one. -/
def expanderOf : Value → Option Expander
  | .str name => namedExpander name
  | _ => none

mutual
/-- The function `evalValue`.  The result carries the parser, the argument as
the call leaves it (a slice is rewritten in place) and the returned value. -/
def ConfigParser.evalValue (rt : GoRuntime) (w : World) (rd : Reader) :
    Value → ConfigParser → ConfigParser × Value × Outcome Value
  | .list [], c => (c, .list [], .panic "index out of range")
  | .list (first :: more), c =>
    match expanderOf first with
    | some .env => (c, .list (first :: more), ConfigParser.expandEnv rt w more)
    | some .file =>
      let r := ConfigParser.expandFile w rd more c
      (r.1, .list (first :: more), r.2)
    | none =>
      match ConfigParser.evalElems rt w rd (first :: more) c with
      | (c1, sl, .ok _) => (c1, .list sl, .ok (.list sl))
      | (c1, sl, .error e) => (c1, .list sl, .error e)
      | (c1, sl, .panic p) => (c1, .list sl, .panic p)
      | (c1, sl, .outOfFuel) => (c1, .list sl, .outOfFuel)
  | v, c => (c, v, .ok v)
/-- The loop `for i, oldval := range sl` of `evalValue`. -/
def ConfigParser.evalElems (rt : GoRuntime) (w : World) (rd : Reader) :
    List Value → ConfigParser → ConfigParser × List Value × Outcome Unit
  | [], c => (c, [], .ok ())
  | oldval :: rest, c =>
    match ConfigParser.evalValue rt w rd oldval c with
    | (c1, _, .ok newval) =>
      let r := ConfigParser.evalElems rt w rd rest c1
      (r.1, newval :: r.2.1, r.2.2)
    | (c1, old, .error e) => (c1, old :: rest, .error e)
    | (c1, old, .panic p) => (c1, old :: rest, .panic p)
    | (c1, old, .outOfFuel) => (c1, old :: rest, .outOfFuel)
end

mutual
/-- The body of the loop of `evaluateExpressions`, for the entry `k`: the
`switch` on the dynamic type of the value.  The result carries the parser, the
value `m[k]` holds when the body is left, and the error if it returns one. -/
def ConfigParser.evaluateEntry (rt : GoRuntime) (w : World) (rd : Reader) (testOnly : Bool) :
    Value → String → List String → ConfigParser → ConfigParser × Value × Outcome Unit
  | .str s, _, _, c => (c, .str s, .ok ())
  | .bool b, _, _, c => (c, .bool b, .ok ())
  | .number x, _, _, c => (c, .number x, .ok ())
  | .list [], _, _, c => (c, .list [], .ok ())
  | .list (x :: xs), k, seenKeys, c =>
    match ConfigParser.evalValue rt w rd (.list (x :: xs)) c with
    | (c1, inPlace, .ok evaled) => (c1, if testOnly then inPlace else evaled, .ok ())
    | (c1, inPlace, .error err) =>
      (c1, inPlace, .error (Join (seenKeys ++ [k]) "." ++ ": value error " ++ err))
    | (c1, inPlace, .panic p) => (c1, inPlace, .panic p)
    | (c1, inPlace, .outOfFuel) => (c1, inPlace, .outOfFuel)
  | .object subval, k, seenKeys, c =>
    match ConfigParser.evaluateExpressions rt w rd testOnly subval (seenKeys ++ [k]) c with
    | (c1, sub, out) => (c1, .object sub, out)
  | ei, k, seenKeys, c =>
    (c, ei, .error (Join (seenKeys ++ [k]) "." ++ ": unhandled type " ++ typeName ei))
/-- The function `evaluateExpressions` parses recursively `m`, populating it
with the values that are found, unless `testOnly` is true.  The result carries
the parser, the map as the call leaves it and the returned error. -/
def ConfigParser.evaluateExpressions (rt : GoRuntime) (w : World) (rd : Reader)
    (testOnly : Bool) : Obj → List String → ConfigParser → ConfigParser × Obj × Outcome Unit
  | [], _, c => (c, [], .ok ())
  | (k, ei) :: rest, seenKeys, c =>
    match ConfigParser.evaluateEntry rt w rd testOnly ei k seenKeys c with
    | (c1, v, .ok _) =>
      let r := ConfigParser.evaluateExpressions rt w rd testOnly rest seenKeys c1
      (r.1, (k, v) :: r.2.1, r.2.2)
    | (c1, v, .error err) => (c1, (k, v) :: rest, .error err)
    | (c1, v, .panic p) => (c1, (k, v) :: rest, .panic p)
    | (c1, v, .outOfFuel) => (c1, (k, v) :: rest, .outOfFuel)
end

/-- Decodes and evaluates a json config file, watching for include cycles.
The first argument bounds the depth of nested inclusions. -/
def ConfigParser.recursiveReadJSON (rt : GoRuntime) (w : World) :
    Nat → String → ConfigParser → ConfigParser × Outcome Obj
  | 0, _, c => (c, .outOfFuel)
  | fuel + 1, configPath, c =>
    match w.abs configPath with
    | none => (c, .error ("Failed to expand absolute path for " ++ configPath))
    | some absConfigPath =>
      match c.touchedFiles with
      | none => (c, .panic "assignment to entry in nil map")
      | some touched =>
        if absConfigPath ∈ touched then
          (c, .error ("ConfigParser include cycle detected reading config: " ++ absConfigPath))
        else
          let c1 : ConfigParser :=
            { touchedFiles := some (absConfigPath :: touched),
              includeStack := c.includeStack ++ [absConfigPath] }
          let r : ConfigParser × Outcome Obj :=
            match w.files.lookup configPath with
            | none => (c1, .error ("Failed to open config: " ++ w.openError configPath))
            | some (.undecodable extra err) =>
              (c1, .error ("error parsing JSON object in config file " ++ configPath ++ extra
                ++ "\n" ++ err))
            | some (.document decodedObject) =>
              match ConfigParser.evaluateExpressions rt w
                (ConfigParser.recursiveReadJSON rt w fuel) false decodedObject [] c1 with
              | (c2, m, .ok _) => (c2, .ok m)
              | (c2, _, .error err) =>
                (c2, .error ("error expanding JSON config expressions in " ++ configPath
                  ++ ":\n" ++ err))
              | (c2, _, .panic p) => (c2, .panic p)
              | (c2, _, .outOfFuel) => (c2, .outOfFuel)
          ({ r.1 with includeStack := r.1.includeStack.dropLast }, r.2)

/-- The method `ReadFile`: a fresh set of touched files, then the recursive
load.  `fuel` bounds the depth of nested inclusions. -/
def ConfigParser.ReadFile (rt : GoRuntime) (w : World) (fuel : Nat) (c : ConfigParser)
    (path : String) : ConfigParser × Outcome Obj :=
  ConfigParser.recursiveReadJSON rt w fuel path { c with touchedFiles := some [] }

/-- CheckTypes parses `m` and returns an error if it encounters a type or value
that is not supported by this package. -/
def ConfigParser.CheckTypes (rt : GoRuntime) (w : World) (fuel : Nat) (c : ConfigParser)
    (m : Obj) : ConfigParser × Obj × Outcome Unit :=
  ConfigParser.evaluateExpressions rt w (ConfigParser.recursiveReadJSON rt w fuel) true m [] c

/-- Reads json config data from the specified file, expanding all
expressions, with a new parser.  A chain of nested inclusions without a
repeated file is no longer than the number of files, which is the bound
given to the recursion. -/
def ReadFile (rt : GoRuntime) (w : World) (configPath : String) : Outcome Obj :=
  (ConfigParser.ReadFile rt w (w.files.length + 1) ⟨none, []⟩ configPath).2

/-! ## A runtime for the examples -/

/-- One hexadecimal digit, lower case. -/
def hexDigit (n : Nat) : Char :=
  if n < 10 then Char.ofNat (48 + n) else Char.ofNat (87 + n)

/-- The escape `strconv.Quote` writes for one ASCII character; other
characters are written as they are. -/
def quoteChar (c : Char) : List Char :=
  if c = '"' then ['\\', '"']
  else if c = '\\' then ['\\', '\\']
  else if c = Char.ofNat 7 then ['\\', 'a']
  else if c = Char.ofNat 8 then ['\\', 'b']
  else if c = Char.ofNat 12 then ['\\', 'f']
  else if c = '\n' then ['\\', 'n']
  else if c = '\r' then ['\\', 'r']
  else if c = '\t' then ['\\', 't']
  else if c = Char.ofNat 11 then ['\\', 'v']
  else if c.toNat < 32 ∨ c.toNat = 127 then
    ['\\', 'x', hexDigit (c.toNat / 16), hexDigit (c.toNat % 16)]
  else [c]

/-- The function `strconv.Quote` on a string of printable characters and
ASCII control characters. -/
def quoteString (s : String) : String :=
  String.mk ('"' :: (s.data.flatMap quoteChar ++ ['"']))

/-- The function `fmt.Sprintf(format)` without operands, on a format whose
verbs carry no flag, width, precision or argument index: `%%` is a percent
sign, and any other verb has no operand to print. -/
def sprintfChars : List Char → List Char
  | [] => []
  | '%' :: '%' :: rest => '%' :: sprintfChars rest
  | '%' :: verb :: rest => ['%', '!', verb] ++ "(MISSING)".data ++ sprintfChars rest
  | ['%'] => "%!(NOVERB)".data
  | c :: rest => c :: sprintfChars rest

/-- A 64-bit runtime other than Windows, for the examples.  The examples
convert no number out of range and print no value with `%#v`; the values
given for these two fields are placeholders. -/
def linux64 : GoRuntime where
  intBits := 64
  outOfRange := fun _ _ _ => 0
  quote := quoteString
  sprintf := fun format => String.mk (sprintfChars format.data)
  goSyntax := typeName
  windows := false

/-- The same runtime on Windows. -/
def windows64 : GoRuntime := { linux64 with windows := true }

/-! ## Vocabulary of the statements -/

def Value.isStr : Value → Bool
  | .str _ => true
  | _ => false

def Value.isBool : Value → Bool
  | .bool _ => true
  | _ => false

def Value.isNumber : Value → Bool
  | .number _ => true
  | _ => false

def Value.isList : Value → Bool
  | .list _ => true
  | _ => false

def Value.isObject : Value → Bool
  | .object _ => true
  | _ => false

/-- The key is absent from the object, or present with a value of a dynamic
type the accessor does not accept (`accepts` tells the accepted ones). -/
def lacks (jc : Obj) (key : String) (accepts : Value → Bool) : Prop :=
  jc.lookup key = none ∨ ∃ v, jc.lookup key = some v ∧ accepts v = false

/-- One call of an accessor, with its arguments other than the object. -/
inductive Call where
  | RequiredObject (key : String)
  | OptionalObject (key : String)
  | Object (key : String)
  | RequiredString (key : String)
  | OptionalString (key d : String)
  | String (key : String) (args : Args)
  | RequiredStringOrObject (key : String)
  | OptionalStringOrObject (key : String)
  | StringOrObject (key : String)
  | RequiredBool (key : String)
  | OptionalBool (key : String) (d : Bool)
  | Bool (key : String) (args : Args)
  | RequiredInt (key : String)
  | OptionalInt (key : String) (d : Int)
  | Int (key : String) (args : Args)
  | RequiredUint (key : String)
  | OptionalUint (key : String) (d : Int)
  | Uint (key : String) (args : Args)
  | RequiredInt64 (key : String)
  | OptionalInt64 (key : String) (d : Int)
  | Int64 (key : String) (args : Args)
  | RequiredList (key : String)
  | OptionalList (key : String)
  | List (key : String) (args : Args)
  | IntList (key : String) (args : Args)

/-- The key a call reads. -/
def callKey : Call → String
  | .RequiredObject key | .OptionalObject key | .Object key | .RequiredString key
  | .OptionalString key _ | .String key _ | .RequiredStringOrObject key
  | .OptionalStringOrObject key | .StringOrObject key | .RequiredBool key
  | .OptionalBool key _ | .Bool key _ | .RequiredInt key | .OptionalInt key _ | .Int key _
  | .RequiredUint key | .OptionalUint key _ | .Uint key _ | .RequiredInt64 key
  | .OptionalInt64 key _ | .Int64 key _ | .RequiredList key | .OptionalList key
  | .List key _ | .IntList key _ => key

/-- The object after a call, when the call returns. -/
def callState (rt : GoRuntime) (jc : Obj) : Call → Option Obj
  | .RequiredObject key => (Obj.RequiredObject rt jc key).map Prod.fst
  | .OptionalObject key => (Obj.OptionalObject rt jc key).map Prod.fst
  | .Object key => (Obj.Object rt jc key).map Prod.fst
  | .RequiredString key => (Obj.RequiredString rt jc key).map Prod.fst
  | .OptionalString key d => (Obj.OptionalString rt jc key d).map Prod.fst
  | .String key args => (Obj.String rt jc key args).map Prod.fst
  | .RequiredStringOrObject key => (Obj.RequiredStringOrObject rt jc key).map Prod.fst
  | .OptionalStringOrObject key => (Obj.OptionalStringOrObject rt jc key).map Prod.fst
  | .StringOrObject key => (Obj.StringOrObject rt jc key).map Prod.fst
  | .RequiredBool key => (Obj.RequiredBool rt jc key).map Prod.fst
  | .OptionalBool key d => (Obj.OptionalBool rt jc key d).map Prod.fst
  | .Bool key args => (Obj.Bool rt jc key args).map Prod.fst
  | .RequiredInt key => (Obj.RequiredInt rt jc key).map Prod.fst
  | .OptionalInt key d => (Obj.OptionalInt rt jc key d).map Prod.fst
  | .Int key args => (Obj.Int rt jc key args).map Prod.fst
  | .RequiredUint key => (Obj.RequiredUint rt jc key).map Prod.fst
  | .OptionalUint key d => (Obj.OptionalUint rt jc key d).map Prod.fst
  | .Uint key args => (Obj.Uint rt jc key args).map Prod.fst
  | .RequiredInt64 key => (Obj.RequiredInt64 rt jc key).map Prod.fst
  | .OptionalInt64 key d => (Obj.OptionalInt64 rt jc key d).map Prod.fst
  | .Int64 key args => (Obj.Int64 rt jc key args).map Prod.fst
  | .RequiredList key => (Obj.RequiredList rt jc key).map Prod.fst
  | .OptionalList key => (Obj.OptionalList rt jc key).map Prod.fst
  | .List key args => (Obj.List rt jc key args).map Prod.fst
  | .IntList key args => (Obj.IntList rt jc key args).map Prod.fst

/-- A variable name: one or more characters of `[A-Za-z0-9_]`. -/
def isName (n : List Char) : Prop := n ≠ [] ∧ ∀ c ∈ n, isNameChar c = true

/-- The placeholder of the variable `n`: `${n}`. -/
def placeholder (n : List Char) : List Char := '$' :: '{' :: (n ++ ['}'])

/-- The text contains no placeholder. -/
def NoPlaceholder (t : List Char) : Prop :=
  ∀ pre n post, isName n → t ≠ pre ++ (placeholder n ++ post)

/-- A pattern written in pieces: the literal text `t0`, then for each pair
`(n, t)` the placeholder of `n` followed by the literal text `t`. -/
def assemble (t0 : List Char) (ps : List (List Char × List Char)) : List Char :=
  t0 ++ ps.flatMap fun p => placeholder p.1 ++ p.2

/-- The same pieces with each placeholder replaced by `val` of its name. -/
def substitute (val : String → String) (t0 : List Char) (ps : List (List Char × List Char)) :
    List Char :=
  t0 ++ ps.flatMap fun p => (val (String.mk p.1)).data ++ p.2

/-- The value `expandEnv` takes for the variable `name`: its value in the
environment, empty if it is not set; on Windows an empty `USER` takes the
value of `USERNAME`. -/
def placeholderValue (rt : GoRuntime) (w : World) (name : String) : String :=
  if Getenv w name = "" ∧ name = "USER" ∧ rt.windows = true then Getenv w "USERNAME"
  else Getenv w name

/-! ## Vocabulary of the statements about the loader -/

/-- Whether a call ended with a value. -/
def Outcome.isOk {α : Type} : Outcome α → Bool
  | .ok _ => true
  | _ => false

/-- The file a `_fileobj` expression with the arguments `args` loads: the
include path of its single string argument. -/
def targetOf (w : World) : List Value → Option String
  | [.str s] => w.findInclude s
  | _ => none

mutual
/-- The files that the `_fileobj` expressions met by `evalValue` load, in the
order of the walk: the expression itself, or the expressions among the
elements of an array that is not an expression. -/
def includesValue (w : World) : Value → List String
  | .list (first :: more) =>
    match expanderOf first with
    | some .file => (targetOf w more).toList
    | some .env => []
    | none => includesElems w (first :: more)
  | _ => []
/-- The files loaded from the elements of an array. -/
def includesElems (w : World) : List Value → List String
  | [] => []
  | v :: rest => includesValue w v ++ includesElems w rest
end

mutual
/-- The files loaded from one entry of an object: from a non-empty array, or
from the entries of a nested object. -/
def includesEntry (w : World) : Value → List String
  | .list (x :: xs) => includesValue w (.list (x :: xs))
  | .object subval => includesFields w subval
  | _ => []
/-- The files that `evaluateExpressions` loads from an object, in the order of
the walk. -/
def includesFields (w : World) : Obj → List String
  | [] => []
  | (_, ei) :: rest => includesEntry w ei ++ includesFields w rest
end

/-- The file `p` holds a document whose walk loads the file `q`. -/
def Includes (w : World) (p q : String) : Prop :=
  ∃ m, w.files.lookup p = some (.document m) ∧ q ∈ includesFields w m

/-- Loading the files of a list one after the other, as long as each load
returns a document. -/
def loadAll (rd : Reader) : List String → ConfigParser → Option ConfigParser
  | [], c => some c
  | q :: rest, c =>
    match rd q c with
    | (c1, .ok _) => loadAll rd rest c1
    | _ => none

/-- The number of files whose absolute path is not among the touched ones. -/
def untouched (w : World) (touched : List String) : Nat :=
  w.files.countP fun f =>
    match w.abs f.1 with
    | some a => !(decide (a ∈ touched))
    | none => false

/-- The text `hay` contains the text `needle`. -/
def Mentions (needle hay : String) : Prop :=
  ∃ pre post : String, hay = pre ++ needle ++ post

/-- Whether opening and decoding a file yields a document. -/
def isDocument : Option FileContent → Bool
  | some (.document _) => true
  | _ => false

/-- The call ended with a value, or with an error that mentions an include
cycle (or the recursion budget of the embedding was used up). -/
def Outcome.cycleOnly {α : Type} : Outcome α → Prop
  | .ok _ => True
  | .error e => Mentions "include cycle detected" e
  | .panic _ => False
  | .outOfFuel => True

mutual
/-- The walk of `evalValue` over this value meets nothing that fails by
itself: no empty array, no `_env` expression that fails, and no `_fileobj`
expression other than one that names a file holding a document. -/
def cleanValue (rt : GoRuntime) (w : World) : Value → Bool
  | .list [] => false
  | .list (first :: more) =>
    match expanderOf first with
    | some .env => (ConfigParser.expandEnv rt w more).isOk
    | some .file =>
      match targetOf w more with
      | some q => isDocument (w.files.lookup q)
      | none => false
    | none => cleanElems rt w (first :: more)
  | _ => true
/-- The same for the elements of an array. -/
def cleanElems (rt : GoRuntime) (w : World) : List Value → Bool
  | [] => true
  | v :: rest => cleanValue rt w v && cleanElems rt w rest
end

mutual
/-- The walk of `evaluateExpressions` over this entry meets nothing that fails
by itself: in addition, no value of an unhandled type. -/
def cleanEntry (rt : GoRuntime) (w : World) : Value → Bool
  | .str _ => true
  | .bool _ => true
  | .number _ => true
  | .list [] => true
  | .list (x :: xs) => cleanValue rt w (.list (x :: xs))
  | .object subval => cleanFields rt w subval
  | _ => false
/-- The same for the entries of an object. -/
def cleanFields (rt : GoRuntime) (w : World) : Obj → Bool
  | [] => true
  | (_, ei) :: rest => cleanEntry rt w ei && cleanFields rt w rest
end

/-- Every file holds a document whose walk meets nothing that fails by itself:
the only failure left to a load is the refusal of a touched file. -/
def CleanWorld (rt : GoRuntime) (w : World) : Prop :=
  ∀ p fc, w.files.lookup p = some fc → ∃ doc, fc = .document doc ∧ cleanFields rt w doc = true

/-! ## Worlds for the examples -/

/-- Two files that include each other, as `testdata/loop1.json` and
`testdata/loop2.json`. -/
def loopWorld : World where
  files := [("loop1.json", .document [("obj", .list [.str "_fileobj", .str "loop2.json"])]),
    ("loop2.json", .document [("obj", .list [.str "_fileobj", .str "loop1.json"])])]
  openError := fun p => "open " ++ p ++ ": no such file or directory"
  abs := some
  findInclude := some
  env := fun _ => none

/-- A file that includes itself, after an `_env` expression whose variable is
not set.  The two expressions are the elements of one array, so the walk
meets them in this order. -/
def envFirstWorld : World where
  files := [("r.json", .document [("k", .list [.list [.str "_env", .str "${X}"],
    .list [.str "_fileobj", .str "r.json"]])])]
  openError := fun p => "open " ++ p ++ ": no such file or directory"
  abs := some
  findInclude := some
  env := fun _ => none

/-- A root that includes two files, each of which includes the same third
file, which includes nothing. -/
def diamondWorld : World where
  files := [("root.json", .document [("one", .list [.str "_fileobj", .str "a.json"]),
      ("two", .list [.str "_fileobj", .str "b.json"])]),
    ("a.json", .document [("shared", .list [.str "_fileobj", .str "c.json"])]),
    ("b.json", .document [("shared", .list [.str "_fileobj", .str "c.json"])]),
    ("c.json", .document [("key", .str "value")])]
  openError := fun p => "open " ++ p ++ ": no such file or directory"
  abs := some
  findInclude := some
  env := fun _ => none


/-! ## Vocabulary of the statements about the combined accessors -/

/-- The dynamic type of an argument is `string`. -/
def Arg.isStr : Arg → Bool
  | .str _ => true
  | _ => false

/-- The dynamic type of an argument is `bool`. -/
def Arg.isBool : Arg → Bool
  | .bool _ => true
  | _ => false

/-- The dynamic type of an argument is `int`. -/
def Arg.isInt : Arg → Bool
  | .int _ => true
  | _ => false

/-- The dynamic type of an argument is `uint`. -/
def Arg.isUint : Arg → Bool
  | .uint _ => true
  | _ => false

/-- The dynamic type of an argument is `int64`. -/
def Arg.isInt64 : Arg → Bool
  | .int64 _ => true
  | _ => false

/-! ## Vocabulary of the statements about expression arrays -/

/-- The array is an expression array: its first element is a string that
names an expander. -/
def isExpression : List Value → Bool
  | first :: _ => (expanderOf first).isSome
  | [] => false

/-- The value is an expression array tagged `_env`. -/
def isEnvExpression : Value → Bool
  | .list (first :: _) =>
    match expanderOf first with
    | some .env => true
    | _ => false
  | _ => false

mutual
/-- The tree of this value contains no expression array, at any depth and in
any nesting context. -/
def noExpression : Value → Bool
  | .list xs => !isExpression xs && noExpressionElems xs
  | .object m => noExpressionFields m
  | _ => true
/-- The same for the elements of an array. -/
def noExpressionElems : List Value → Bool
  | [] => true
  | v :: rest => noExpression v && noExpressionElems rest
/-- The same for the entries of an object. -/
def noExpressionFields : List (String × Value) → Bool
  | [] => true
  | (_, v) :: rest => noExpression v && noExpressionFields rest
end

mutual
/-- What the walk of `evalValue` over this value asks of a document whose
expansion is to leave no expression array: an object that is an element of an
array holds no expression array (the walk does not enter it), and an array
that is not an expression array does not start with an `_env` expression
(whose value, a string, would become the first element). -/
def tameValue : Value → Bool
  | .list [] => true
  | .list (first :: more) =>
    match expanderOf first with
    | some _ => true
    | none => !isEnvExpression first && tameElems (first :: more)
  | .object m => noExpressionFields m
  | _ => true
/-- The same for the elements of an array. -/
def tameElems : List Value → Bool
  | [] => true
  | v :: rest => tameValue v && tameElems rest
end

mutual
/-- The same for one entry of an object, as `evaluateExpressions` walks it. -/
def tameEntry : Value → Bool
  | .list xs => tameValue (.list xs)
  | .object subval => tameFields subval
  | _ => true
/-- The same for the entries of an object. -/
def tameFields : List (String × Value) → Bool
  | [] => true
  | (_, ei) :: rest => tameEntry ei && tameFields rest
end

/-- Every document of the world is tame. -/
def TameWorld (w : World) : Prop :=
  ∀ p doc, w.files.lookup p = some (.document doc) → tameFields doc = true

mutual
/-- The walk of `evalValue` over this value meets no expression array and no
empty array. -/
def plainValue : Value → Bool
  | .list [] => false
  | .list (first :: more) => (expanderOf first).isNone && plainElems (first :: more)
  | _ => true
/-- The same for the elements of an array. -/
def plainElems : List Value → Bool
  | [] => true
  | v :: rest => plainValue v && plainElems rest
end

mutual
/-- The walk of `evaluateExpressions` over this entry meets only strings,
booleans, numbers, arrays and objects, no expression array, and no empty
array inside an array. -/
def plainEntry : Value → Bool
  | .str _ => true
  | .bool _ => true
  | .number _ => true
  | .list [] => true
  | .list (x :: xs) => plainValue (.list (x :: xs))
  | .object subval => plainFields subval
  | _ => false
/-- The same for the entries of an object. -/
def plainFields : List (String × Value) → Bool
  | [] => true
  | (_, ei) :: rest => plainEntry ei && plainFields rest
end

/-! ## Worlds for the examples of the walk -/

/-- An environment with the variable `TEST_BAR` set to `bar`, and six
documents: an expression array inside an object that is an element of an
array; an array that starts with an `_env` expression whose value is `_env`;
an empty array inside an array; a key whose value is null; a `_fileobj`
expression whose argument is a number; and the list of the test
`TestListExpansion`. -/
def walkWorld : World where
  files := [("inner.json", .document [("k", .list [.object [("x",
      .list [.str "_env", .str "${TEST_BAR}"])]])]),
    ("first.json", .document [("k", .list [.list [.str "_env", .str "_env"], .str "x"])]),
    ("empty.json", .document [("top", .list []), ("k", .list [.list []])]),
    ("null.json", .document [("k", .null)]),
    ("number.json", .document [("k", .list [.str "_fileobj", .number 1])]),
    ("list.json", .document [("k", .list [.str "foo",
      .list [.str "_env", .str "${TEST_BAR}", .str ""]])])]
  openError := fun p => "open " ++ p ++ ": no such file or directory"
  abs := some
  findInclude := some
  env := fun n => if n = "TEST_BAR" then some "bar" else none

/-- A root document with the list of the test `TestListExpansion` and an
inclusion, and the included document, in the same environment. -/
def includeWorld : World where
  files := [("root.json", .document [("k", .list [.str "foo",
        .list [.str "_env", .str "${TEST_BAR}", .str ""]]),
      ("sub", .list [.str "_fileobj", .str "leaf.json"])]),
    ("leaf.json", .document [("v", .list [.str "_env", .str "${TEST_BAR}"])])]
  openError := fun p => "open " ++ p ++ ": no such file or directory"
  abs := some
  findInclude := some
  env := fun n => if n = "TEST_BAR" then some "bar" else none

/-! ## Vocabulary of the statements about `CheckTypes` -/

mutual
/-- The walk of `evalValue` over this value meets no expression array. -/
def unexpandedValue : Value → Bool
  | .list xs => !isExpression xs && unexpandedElems xs
  | _ => true
/-- The same for the elements of an array. -/
def unexpandedElems : List Value → Bool
  | [] => true
  | v :: rest => unexpandedValue v && unexpandedElems rest
end

mutual
/-- The expression arrays the walk of `evaluateExpressions` meets in this entry
are values of object keys: an array is an expression array, or the walk over
its elements meets none. -/
def shallowEntry : Value → Bool
  | .list xs => isExpression xs || unexpandedElems xs
  | .object subval => shallowFields subval
  | _ => true
/-- The same for the entries of an object. -/
def shallowFields : List (String × Value) → Bool
  | [] => true
  | (_, ei) :: rest => shallowEntry ei && shallowFields rest
end

mutual
/-- The entry, or an entry of an object reached from it through the values of
object keys, has a value that is no string, boolean, number, array or object:
a value the `switch` of `evaluateExpressions` does not handle. -/
def hasUnhandledEntry : Value → Bool
  | .str _ => false
  | .bool _ => false
  | .number _ => false
  | .list _ => false
  | .object subval => hasUnhandledFields subval
  | _ => true
/-- The same for the entries of an object. -/
def hasUnhandledFields : List (String × Value) → Bool
  | [] => false
  | (_, ei) :: rest => hasUnhandledEntry ei || hasUnhandledFields rest
end

mutual
/-- The walk of `evaluateExpressions` over this entry meets no expression array
and no empty array inside an array. -/
def quietEntry : Value → Bool
  | .list [] => true
  | .list (x :: xs) => plainValue (.list (x :: xs))
  | .object subval => quietFields subval
  | _ => true
/-- The same for the entries of an object. -/
def quietFields : List (String × Value) → Bool
  | [] => true
  | (_, ei) :: rest => quietEntry ei && quietFields rest
end

/-! ## Maps -/

theorem lookup_store_self (k : String) (v : Value) (m : Obj) :
    (store k v m).lookup k = some v := by
  induction m with
  | nil => simp [store, List.lookup]
  | cons kv rest ih =>
    obtain ⟨k', v'⟩ := kv
    by_cases h : k' = k
    · simp [store, h, List.lookup]
    · have h' : (k == k') = false := by simpa using fun e => h e.symm
      simp [store, h, List.lookup, h', ih]

theorem lookup_store_ne {k k' : String} (h : k' ≠ k) (v : Value) (m : Obj) :
    (store k v m).lookup k' = m.lookup k' := by
  induction m with
  | nil =>
    have h' : (k' == k) = false := by simpa using h
    simp [store, List.lookup, h']
  | cons kv rest ih =>
    obtain ⟨k₁, v₁⟩ := kv
    by_cases h₁ : k₁ = k
    · subst h₁
      have h' : (k' == k₁) = false := by simpa using h
      simp [store, List.lookup, h']
    · by_cases h₂ : k' = k₁
      · subst h₂
        simp [store, h₁, List.lookup]
      · have h' : (k' == k₁) = false := by simpa using h₂
        simp [store, h₁, List.lookup, h', ih]

/-! ## Bookkeeping -/

theorem knownSet_of_lookup {jc : Obj} {ks : List String}
    (h : jc.lookup "_knownkeys" = some (.knownKeys ks)) : jc.knownSet = ks := by
  simp [Obj.knownSet, h]

theorem errorLog_of_lookup {jc : Obj} {es : List String}
    (h : jc.lookup "_errors" = some (.errors es)) : jc.errorLog = es := by
  simp [Obj.errorLog, h]

theorem errorLog_of_lookup_none {jc : Obj} (h : jc.lookup "_errors" = none) :
    jc.errorLog = [] := by
  simp [Obj.errorLog, h]

theorem errorLog_congr {jc jc' : Obj} (h : jc'.lookup "_errors" = jc.lookup "_errors") :
    jc'.errorLog = jc.errorLog := by
  simp [Obj.errorLog, h]

theorem knownSet_congr {jc jc' : Obj} (h : jc'.lookup "_knownkeys" = jc.lookup "_knownkeys") :
    jc'.knownSet = jc.knownSet := by
  simp [Obj.knownSet, h]

theorem wellFormed_congr {jc jc' : Obj}
    (hk : jc'.lookup "_knownkeys" = jc.lookup "_knownkeys")
    (he : jc'.lookup "_errors" = jc.lookup "_errors") :
    jc'.wellFormed = jc.wellFormed := by
  simp [Obj.wellFormed, hk, he]

/-- What `noteKnownKey` does when it returns: the set under `_knownkeys` gains
`key`, and no other entry changes. -/
theorem noteKnownKey_some {jc jc1 : Obj} {key : String} (h : jc.noteKnownKey key = some jc1) :
    jc1.lookup "_knownkeys" = some (.knownKeys
      (if key ∈ jc.knownSet then jc.knownSet else jc.knownSet ++ [key])) ∧
    ∀ k, k ≠ "_knownkeys" → jc1.lookup k = jc.lookup k := by
  unfold Obj.noteKnownKey at h
  cases hk : jc.lookup "_knownkeys" with
  | none =>
    simp only [hk, lookup_store_self] at h
    have hs : jc.knownSet = [] := by simp [Obj.knownSet, hk]
    injection h with h
    subst h
    refine ⟨by simp [lookup_store_self, hs], fun k hne => ?_⟩
    rw [lookup_store_ne hne, lookup_store_ne hne]
  | some v =>
    simp only [hk] at h
    cases v <;> simp at h
    rename_i ks
    have hs : jc.knownSet = ks := knownSet_of_lookup hk
    subst h
    refine ⟨by simp [lookup_store_self, hs], fun k hne => ?_⟩
    rw [lookup_store_ne hne]

theorem noteKnownKey_isSome {jc : Obj} (hwf : jc.wellFormed = true) (key : String) :
    ∃ jc1, jc.noteKnownKey key = some jc1 := by
  unfold Obj.noteKnownKey
  cases hk : jc.lookup "_knownkeys" with
  | none => simp [lookup_store_self]
  | some v =>
    cases v <;> simp [Obj.wellFormed, hk] at hwf ⊢

theorem noteKnownKey_errorLog {jc jc1 : Obj} {key : String}
    (h : jc.noteKnownKey key = some jc1) : jc1.errorLog = jc.errorLog :=
  errorLog_congr ((noteKnownKey_some h).2 _ (by decide))

theorem noteKnownKey_wellFormed {jc jc1 : Obj} {key : String}
    (h : jc.noteKnownKey key = some jc1) (hwf : jc.wellFormed = true) :
    jc1.wellFormed = true := by
  have h1 := (noteKnownKey_some h).1
  have h2 := (noteKnownKey_some h).2 "_errors" (by decide)
  simp only [Obj.wellFormed, h1, h2, Bool.true_and]
  simpa [Obj.wellFormed] using (Bool.and_eq_true _ _ ▸ hwf).2

/-- What `appendError` does when it returns: the list under `_errors` gains
`err` at its end, and no other entry changes. -/
theorem appendError_some {jc jc2 : Obj} {err : String} (h : jc.appendError err = some jc2) :
    jc2.lookup "_errors" = some (.errors (jc.errorLog ++ [err])) ∧
    ∀ k, k ≠ "_errors" → jc2.lookup k = jc.lookup k := by
  unfold Obj.appendError at h
  cases he : jc.lookup "_errors" with
  | none =>
    simp only [he] at h
    injection h with h
    subst h
    refine ⟨by simp [lookup_store_self, Obj.errorLog, he], fun k hne => lookup_store_ne hne _ _⟩
  | some v =>
    simp only [he] at h
    cases v <;> simp at h
    subst h
    refine ⟨by simp [lookup_store_self, Obj.errorLog, he], fun k hne => lookup_store_ne hne _ _⟩

theorem appendError_isSome {jc : Obj} (hwf : jc.wellFormed = true) (err : String) :
    ∃ jc2, jc.appendError err = some jc2 := by
  unfold Obj.appendError
  cases he : jc.lookup "_errors" with
  | none => simp
  | some v =>
    have := (Bool.and_eq_true _ _ ▸ hwf).2
    cases v <;> simp [he] at this ⊢

theorem appendError_errorLog {jc jc2 : Obj} {err : String}
    (h : jc.appendError err = some jc2) : jc2.errorLog = jc.errorLog ++ [err] :=
  errorLog_of_lookup (appendError_some h).1

theorem appendError_knownSet {jc jc2 : Obj} {err : String}
    (h : jc.appendError err = some jc2) : jc2.knownSet = jc.knownSet :=
  knownSet_congr ((appendError_some h).2 _ (by decide))

theorem appendError_wellFormed {jc jc2 : Obj} {err : String}
    (h : jc.appendError err = some jc2) (hwf : jc.wellFormed = true) :
    jc2.wellFormed = true := by
  have h1 := (appendError_some h).1
  have h2 := (appendError_some h).2 "_knownkeys" (by decide)
  have := (Bool.and_eq_true _ _ ▸ hwf).1
  simp only [Obj.wellFormed, h1, h2]
  simp [this]


/-! ## Required accessors on a missing or ill-typed key -/

theorem lacks_after_note {jc jc1 : Obj} {key : String} {accepts : Value → Bool}
    (h : jc.noteKnownKey key = some jc1) (hacc : ∀ ks, accepts (.knownKeys ks) = false)
    (hl : lacks jc key accepts) : ∀ v, jc1.lookup key = some v → accepts v = false := by
  intro v hv
  by_cases hk : key = "_knownkeys"
  · subst hk
    rw [(noteKnownKey_some h).1] at hv
    injection hv with hv
    subst hv
    exact hacc _
  · rw [(noteKnownKey_some h).2 key hk] at hv
    rcases hl with hl | ⟨v', hv', ha⟩
    · rw [hl] at hv; cases hv
    · rw [hv'] at hv
      injection hv with hv
      subst hv
      exact ha

theorem record_after_note {α : Type} {jc jc1 : Obj} {key : String}
    (h : jc.noteKnownKey key = some jc1) (hwf : jc.wellFormed = true) (msg : String) (z : α) :
    ∃ jc' e, (jc1.appendError msg).map (fun jc2 => (jc2, z)) = some (jc', z) ∧
      jc'.errorLog = jc.errorLog ++ [e] := by
  obtain ⟨jc2, h2⟩ := appendError_isSome (noteKnownKey_wellFormed h hwf) msg
  exact ⟨jc2, msg, by simp [h2], by rw [appendError_errorLog h2, noteKnownKey_errorLog h]⟩

theorem string_lacks (rt : GoRuntime) {jc : Obj} {key : String} (hwf : jc.wellFormed = true)
    (hl : lacks jc key Value.isStr) :
    ∃ jc' e, jc.string rt key none = some (jc', "") ∧ jc'.errorLog = jc.errorLog ++ [e] := by
  obtain ⟨jc1, h1⟩ := noteKnownKey_isSome hwf key
  have hv := lacks_after_note h1 (fun _ => rfl) hl
  unfold Obj.string
  simp only [h1]
  cases hlk : jc1.lookup key with
  | none => exact record_after_note h1 hwf _ _
  | some v =>
    have := hv v hlk
    cases v <;> first | (simp [Value.isStr] at this; done) | exact record_after_note h1 hwf _ _

theorem bool_lacks (rt : GoRuntime) {jc : Obj} {key : String} (hwf : jc.wellFormed = true)
    (hl : lacks jc key fun v => v.isBool || v.isStr) :
    ∃ jc' e, jc.bool rt key none = some (jc', false) ∧ jc'.errorLog = jc.errorLog ++ [e] := by
  obtain ⟨jc1, h1⟩ := noteKnownKey_isSome hwf key
  have hv := lacks_after_note h1 (fun _ => rfl) hl
  unfold Obj.bool
  simp only [h1]
  cases hlk : jc1.lookup key with
  | none => exact record_after_note h1 hwf _ _
  | some v =>
    have := hv v hlk
    cases v <;> first
      | (simp [Value.isStr, Value.isBool] at this; done)
      | exact record_after_note h1 hwf _ _

theorem int_lacks (rt : GoRuntime) {jc : Obj} {key : String} (hwf : jc.wellFormed = true)
    (hl : lacks jc key Value.isNumber) :
    ∃ jc' e, jc.int rt key none = some (jc', 0) ∧ jc'.errorLog = jc.errorLog ++ [e] := by
  obtain ⟨jc1, h1⟩ := noteKnownKey_isSome hwf key
  have hv := lacks_after_note h1 (fun _ => rfl) hl
  unfold Obj.int
  simp only [h1]
  cases hlk : jc1.lookup key with
  | none => exact record_after_note h1 hwf _ _
  | some v =>
    have := hv v hlk
    cases v <;> first | (simp [Value.isNumber] at this; done) | exact record_after_note h1 hwf _ _

theorem uint_lacks (rt : GoRuntime) {jc : Obj} {key : String} (hwf : jc.wellFormed = true)
    (hl : lacks jc key Value.isNumber) :
    ∃ jc' e, jc.uint rt key none = some (jc', 0) ∧ jc'.errorLog = jc.errorLog ++ [e] := by
  obtain ⟨jc1, h1⟩ := noteKnownKey_isSome hwf key
  have hv := lacks_after_note h1 (fun _ => rfl) hl
  unfold Obj.uint
  simp only [h1]
  cases hlk : jc1.lookup key with
  | none => exact record_after_note h1 hwf _ _
  | some v =>
    have := hv v hlk
    cases v <;> first | (simp [Value.isNumber] at this; done) | exact record_after_note h1 hwf _ _

theorem int64_lacks (rt : GoRuntime) {jc : Obj} {key : String} (hwf : jc.wellFormed = true)
    (hl : lacks jc key Value.isNumber) :
    ∃ jc' e, jc.int64 rt key none = some (jc', 0) ∧ jc'.errorLog = jc.errorLog ++ [e] := by
  obtain ⟨jc1, h1⟩ := noteKnownKey_isSome hwf key
  have hv := lacks_after_note h1 (fun _ => rfl) hl
  unfold Obj.int64
  simp only [h1]
  cases hlk : jc1.lookup key with
  | none => exact record_after_note h1 hwf _ _
  | some v =>
    have := hv v hlk
    cases v <;> first | (simp [Value.isNumber] at this; done) | exact record_after_note h1 hwf _ _

theorem obj_lacks (rt : GoRuntime) {jc : Obj} {key : String} (hwf : jc.wellFormed = true)
    (hl : lacks jc key Value.isObject) :
    ∃ jc' e, jc.obj rt key false = some (jc', []) ∧ jc'.errorLog = jc.errorLog ++ [e] := by
  obtain ⟨jc1, h1⟩ := noteKnownKey_isSome hwf key
  have hv := lacks_after_note h1 (fun _ => rfl) hl
  unfold Obj.obj
  simp only [h1]
  cases hlk : jc1.lookup key with
  | none => exact record_after_note h1 hwf _ _
  | some v =>
    have := hv v hlk
    cases v <;> first | (simp [Value.isObject] at this; done) | exact record_after_note h1 hwf _ _

theorem requiredList_lacks (rt : GoRuntime) {jc : Obj} {key : String}
    (hwf : jc.wellFormed = true) (hl : lacks jc key Value.isList) :
    ∃ jc' e, jc.requiredList rt key true = some (jc', none) ∧
      jc'.errorLog = jc.errorLog ++ [e] := by
  obtain ⟨jc1, h1⟩ := noteKnownKey_isSome hwf key
  have hv := lacks_after_note h1 (fun _ => rfl) hl
  unfold Obj.requiredList
  simp only [h1]
  cases hlk : jc1.lookup key with
  | none => exact record_after_note h1 hwf _ _
  | some v =>
    have := hv v hlk
    cases v <;> first | (simp [Value.isList] at this; done) | exact record_after_note h1 hwf _ _

/-- C3, as the code has it.  On an object that is not nil and whose
bookkeeping entries are well formed, each Required accessor called on a key
that is absent, or present with a value of the wrong type, returns the zero
value of its type (the empty string, `false`, `0`, an empty object, no list)
and appends exactly one error to the error log. -/
theorem required_missing_or_illtyped (rt : GoRuntime) (jc : Obj) (key : String)
    (hwf : jc.wellFormed = true) :
    (lacks jc key Value.isStr → ∃ jc' e,
      (Receiver.map jc).RequiredString rt key = some (jc', "") ∧
      jc'.errorLog = jc.errorLog ++ [e]) ∧
    (lacks jc key (fun v => v.isBool || v.isStr) → ∃ jc' e,
      (Receiver.map jc).RequiredBool rt key = some (jc', false) ∧
      jc'.errorLog = jc.errorLog ++ [e]) ∧
    (lacks jc key Value.isNumber → ∃ jc' e,
      (Receiver.map jc).RequiredInt rt key = some (jc', 0) ∧
      jc'.errorLog = jc.errorLog ++ [e]) ∧
    (lacks jc key Value.isNumber → ∃ jc' e,
      (Receiver.map jc).RequiredUint rt key = some (jc', 0) ∧
      jc'.errorLog = jc.errorLog ++ [e]) ∧
    (lacks jc key Value.isNumber → ∃ jc' e,
      (Receiver.map jc).RequiredInt64 rt key = some (jc', 0) ∧
      jc'.errorLog = jc.errorLog ++ [e]) ∧
    (lacks jc key Value.isObject → ∃ jc' e,
      (Receiver.map jc).RequiredObject rt key = some (jc', []) ∧
      jc'.errorLog = jc.errorLog ++ [e]) ∧
    (lacks jc key Value.isList → ∃ jc' e,
      (Receiver.map jc).RequiredList rt key = some (jc', none) ∧
      jc'.errorLog = jc.errorLog ++ [e]) :=
  ⟨string_lacks rt hwf, bool_lacks rt hwf, int_lacks rt hwf, uint_lacks rt hwf,
    int64_lacks rt hwf, obj_lacks rt hwf, requiredList_lacks rt hwf⟩

/-- C3 fails as stated.  A document with the key `_knownkeys` is an `Obj` on
which `RequiredString` of an absent key panics in `noteKnownKey`.  And on the
nil `Obj`, where every key is absent, each Required accessor panics in
`noteKnownKey`, which assigns to the nil map. -/
theorem required_missing_counterexample :
    ([("_knownkeys", Value.str "x")] : Obj).lookup "a" = none ∧
    (Receiver.map [("_knownkeys", Value.str "x")]).RequiredString linux64 "a" = none ∧
    Receiver.nil.noteKnownKey "a" = none ∧
    Receiver.nil.RequiredString linux64 "a" = none ∧
    Receiver.nil.RequiredBool linux64 "a" = none ∧
    Receiver.nil.RequiredInt linux64 "a" = none ∧
    Receiver.nil.RequiredUint linux64 "a" = none ∧
    Receiver.nil.RequiredInt64 linux64 "a" = none ∧
    Receiver.nil.RequiredObject linux64 "a" = none ∧
    Receiver.nil.RequiredList linux64 "a" = none :=
  ⟨rfl, rfl, rfl, rfl, rfl, rfl, rfl, rfl, rfl, rfl⟩

theorem required_missing_or_illtyped_witness :
    Obj.wellFormed [("a", Value.number 1)] = true ∧
    lacks [("a", Value.number 1)] "a" Value.isStr ∧
    (∃ jc' e, (Receiver.map [("a", Value.number 1)]).RequiredString linux64 "a" =
        some (jc', "") ∧
      jc'.errorLog = Obj.errorLog [("a", Value.number 1)] ++ [e]) ∧
    Obj.wellFormed [] = true ∧
    lacks [] "a" Value.isNumber ∧
    (∃ jc' e, (Receiver.map []).RequiredInt linux64 "a" = some (jc', 0) ∧
      jc'.errorLog = Obj.errorLog [] ++ [e]) :=
  ⟨rfl, Or.inr ⟨_, rfl, rfl⟩,
    (required_missing_or_illtyped linux64 [("a", Value.number 1)] "a" rfl).1
      (Or.inr ⟨_, rfl, rfl⟩),
    rfl, Or.inl rfl,
    (required_missing_or_illtyped linux64 [] "a" rfl).2.2.1 (Or.inl rfl)⟩


/-! ## Optional accessors -/

theorem absent_after_note {jc jc1 : Obj} {key : String}
    (h : jc.noteKnownKey key = some jc1) (hk : key ≠ "_knownkeys")
    (hn : jc.lookup key = none) : jc1.lookup key = none := by
  rw [(noteKnownKey_some h).2 key hk, hn]

theorem illtyped_after_note {jc jc1 : Obj} {key : String} {accepts : Value → Bool}
    (h : jc.noteKnownKey key = some jc1) (hacc : ∀ ks, accepts (.knownKeys ks) = false)
    (hl : (∃ v, jc.lookup key = some v ∧ accepts v = false) ∨ key = "_knownkeys") :
    ∃ v, jc1.lookup key = some v ∧ accepts v = false := by
  by_cases hk : key = "_knownkeys"
  · subst hk
    exact ⟨_, (noteKnownKey_some h).1, hacc _⟩
  · rcases hl with ⟨v, hv, ha⟩ | hl
    · exact ⟨v, by rw [(noteKnownKey_some h).2 key hk, hv], ha⟩
    · exact absurd hl hk

theorem string_default (rt : GoRuntime) {jc : Obj} {key : String} (d : String)
    (hwf : jc.wellFormed = true) (hk : key ≠ "_knownkeys") (hn : jc.lookup key = none) :
    ∃ jc', jc.string rt key (some d) = some (jc', d) ∧ jc'.errorLog = jc.errorLog := by
  obtain ⟨jc1, h1⟩ := noteKnownKey_isSome hwf key
  refine ⟨jc1, ?_, noteKnownKey_errorLog h1⟩
  unfold Obj.string
  simp only [h1, absent_after_note h1 hk hn]

theorem bool_default (rt : GoRuntime) {jc : Obj} {key : String} (d : Bool)
    (hwf : jc.wellFormed = true) (hk : key ≠ "_knownkeys") (hn : jc.lookup key = none) :
    ∃ jc', jc.bool rt key (some d) = some (jc', d) ∧ jc'.errorLog = jc.errorLog := by
  obtain ⟨jc1, h1⟩ := noteKnownKey_isSome hwf key
  refine ⟨jc1, ?_, noteKnownKey_errorLog h1⟩
  unfold Obj.bool
  simp only [h1, absent_after_note h1 hk hn]

theorem int_default (rt : GoRuntime) {jc : Obj} {key : String} (d : Int)
    (hwf : jc.wellFormed = true) (hk : key ≠ "_knownkeys") (hn : jc.lookup key = none) :
    ∃ jc', jc.int rt key (some d) = some (jc', d) ∧ jc'.errorLog = jc.errorLog := by
  obtain ⟨jc1, h1⟩ := noteKnownKey_isSome hwf key
  refine ⟨jc1, ?_, noteKnownKey_errorLog h1⟩
  unfold Obj.int
  simp only [h1, absent_after_note h1 hk hn]

theorem uint_default (rt : GoRuntime) {jc : Obj} {key : String} (d : Int)
    (hwf : jc.wellFormed = true) (hk : key ≠ "_knownkeys") (hn : jc.lookup key = none) :
    ∃ jc', jc.uint rt key (some d) = some (jc', d) ∧ jc'.errorLog = jc.errorLog := by
  obtain ⟨jc1, h1⟩ := noteKnownKey_isSome hwf key
  refine ⟨jc1, ?_, noteKnownKey_errorLog h1⟩
  unfold Obj.uint
  simp only [h1, absent_after_note h1 hk hn]

theorem int64_default (rt : GoRuntime) {jc : Obj} {key : String} (d : Int)
    (hwf : jc.wellFormed = true) (hk : key ≠ "_knownkeys") (hn : jc.lookup key = none) :
    ∃ jc', jc.int64 rt key (some d) = some (jc', d) ∧ jc'.errorLog = jc.errorLog := by
  obtain ⟨jc1, h1⟩ := noteKnownKey_isSome hwf key
  refine ⟨jc1, ?_, noteKnownKey_errorLog h1⟩
  unfold Obj.int64
  simp only [h1, absent_after_note h1 hk hn]

theorem string_illtyped (rt : GoRuntime) {jc : Obj} {key : String} (d : Option String)
    (hwf : jc.wellFormed = true)
    (hl : (∃ v, jc.lookup key = some v ∧ v.isStr = false) ∨ key = "_knownkeys") :
    ∃ jc' e, jc.string rt key d = some (jc', "") ∧ jc'.errorLog = jc.errorLog ++ [e] := by
  obtain ⟨jc1, h1⟩ := noteKnownKey_isSome hwf key
  obtain ⟨v, hv, ha⟩ := illtyped_after_note h1 (fun _ => rfl) hl
  unfold Obj.string
  simp only [h1, hv]
  cases v <;> first | (simp [Value.isStr] at ha; done) | exact record_after_note h1 hwf _ _

theorem bool_illtyped (rt : GoRuntime) {jc : Obj} {key : String} (d : Option Bool)
    (hwf : jc.wellFormed = true)
    (hl : (∃ v, jc.lookup key = some v ∧ (v.isBool || v.isStr) = false) ∨ key = "_knownkeys") :
    ∃ jc' e, jc.bool rt key d = some (jc', false) ∧ jc'.errorLog = jc.errorLog ++ [e] := by
  obtain ⟨jc1, h1⟩ := noteKnownKey_isSome hwf key
  obtain ⟨v, hv, ha⟩ := @illtyped_after_note jc jc1 key (fun v => v.isBool || v.isStr) h1
    (fun _ => rfl) hl
  unfold Obj.bool
  simp only [h1, hv]
  cases v <;> first
    | (simp [Value.isStr, Value.isBool] at ha; done)
    | exact record_after_note h1 hwf _ _

theorem int_illtyped (rt : GoRuntime) {jc : Obj} {key : String} (d : Option Int)
    (hwf : jc.wellFormed = true)
    (hl : (∃ v, jc.lookup key = some v ∧ v.isNumber = false) ∨ key = "_knownkeys") :
    ∃ jc' e, jc.int rt key d = some (jc', 0) ∧ jc'.errorLog = jc.errorLog ++ [e] := by
  obtain ⟨jc1, h1⟩ := noteKnownKey_isSome hwf key
  obtain ⟨v, hv, ha⟩ := illtyped_after_note h1 (fun _ => rfl) hl
  unfold Obj.int
  simp only [h1, hv]
  cases v <;> first | (simp [Value.isNumber] at ha; done) | exact record_after_note h1 hwf _ _

theorem uint_illtyped (rt : GoRuntime) {jc : Obj} {key : String} (d : Option Int)
    (hwf : jc.wellFormed = true)
    (hl : (∃ v, jc.lookup key = some v ∧ v.isNumber = false) ∨ key = "_knownkeys") :
    ∃ jc' e, jc.uint rt key d = some (jc', 0) ∧ jc'.errorLog = jc.errorLog ++ [e] := by
  obtain ⟨jc1, h1⟩ := noteKnownKey_isSome hwf key
  obtain ⟨v, hv, ha⟩ := illtyped_after_note h1 (fun _ => rfl) hl
  unfold Obj.uint
  simp only [h1, hv]
  cases v <;> first | (simp [Value.isNumber] at ha; done) | exact record_after_note h1 hwf _ _

theorem int64_illtyped (rt : GoRuntime) {jc : Obj} {key : String} (d : Option Int)
    (hwf : jc.wellFormed = true)
    (hl : (∃ v, jc.lookup key = some v ∧ v.isNumber = false) ∨ key = "_knownkeys") :
    ∃ jc' e, jc.int64 rt key d = some (jc', 0) ∧ jc'.errorLog = jc.errorLog ++ [e] := by
  obtain ⟨jc1, h1⟩ := noteKnownKey_isSome hwf key
  obtain ⟨v, hv, ha⟩ := illtyped_after_note h1 (fun _ => rfl) hl
  unfold Obj.int64
  simp only [h1, hv]
  cases v <;> first | (simp [Value.isNumber] at ha; done) | exact record_after_note h1 hwf _ _

/-- C4, as the code has it.  On an object that is not nil and whose
bookkeeping entries are well formed, each Optional accessor with a default `d`
returns `d` and leaves the error log unchanged when the key is absent and is
not the reserved key `_knownkeys`; when the key is present with a value of the
wrong type, or is `_knownkeys` itself, it returns the zero value of its type
and appends exactly one error to the error log. -/
theorem optional_default_or_illtyped (rt : GoRuntime) (jc : Obj) (key : String)
    (hwf : jc.wellFormed = true) :
    (key ≠ "_knownkeys" → jc.lookup key = none →
      (∀ d, ∃ jc', (Receiver.map jc).OptionalString rt key d = some (jc', d) ∧
        jc'.errorLog = jc.errorLog) ∧
      (∀ d, ∃ jc', (Receiver.map jc).OptionalBool rt key d = some (jc', d) ∧
        jc'.errorLog = jc.errorLog) ∧
      (∀ d, ∃ jc', (Receiver.map jc).OptionalInt rt key d = some (jc', d) ∧
        jc'.errorLog = jc.errorLog) ∧
      (∀ d, ∃ jc', (Receiver.map jc).OptionalUint rt key d = some (jc', d) ∧
        jc'.errorLog = jc.errorLog) ∧
      (∀ d, ∃ jc', (Receiver.map jc).OptionalInt64 rt key d = some (jc', d) ∧
        jc'.errorLog = jc.errorLog)) ∧
    (((∃ v, jc.lookup key = some v ∧ v.isStr = false) ∨ key = "_knownkeys") →
      ∀ d, ∃ jc' e, (Receiver.map jc).OptionalString rt key d = some (jc', "") ∧
        jc'.errorLog = jc.errorLog ++ [e]) ∧
    (((∃ v, jc.lookup key = some v ∧ (v.isBool || v.isStr) = false) ∨ key = "_knownkeys") →
      ∀ d, ∃ jc' e, (Receiver.map jc).OptionalBool rt key d = some (jc', false) ∧
        jc'.errorLog = jc.errorLog ++ [e]) ∧
    (((∃ v, jc.lookup key = some v ∧ v.isNumber = false) ∨ key = "_knownkeys") →
      (∀ d, ∃ jc' e, (Receiver.map jc).OptionalInt rt key d = some (jc', 0) ∧
        jc'.errorLog = jc.errorLog ++ [e]) ∧
      (∀ d, ∃ jc' e, (Receiver.map jc).OptionalUint rt key d = some (jc', 0) ∧
        jc'.errorLog = jc.errorLog ++ [e]) ∧
      (∀ d, ∃ jc' e, (Receiver.map jc).OptionalInt64 rt key d = some (jc', 0) ∧
        jc'.errorLog = jc.errorLog ++ [e])) :=
  ⟨fun hk hn => ⟨fun d => string_default rt d hwf hk hn, fun d => bool_default rt d hwf hk hn,
      fun d => int_default rt d hwf hk hn, fun d => uint_default rt d hwf hk hn,
      fun d => int64_default rt d hwf hk hn⟩,
    fun hl d => string_illtyped rt (some d) hwf hl,
    fun hl d => bool_illtyped rt (some d) hwf hl,
    fun hl => ⟨fun d => int_illtyped rt (some d) hwf hl, fun d => uint_illtyped rt (some d) hwf hl,
      fun d => int64_illtyped rt (some d) hwf hl⟩⟩

/-- C4 fails as stated.  On the empty object the key `_knownkeys` is absent, yet
`OptionalString` with the default `"d"` returns the empty string and records
an error, because `noteKnownKey` has stored the key set under that key by the
time the key is looked up.  And on the nil `Obj`, where every key is absent,
each Optional accessor panics in `noteKnownKey` and returns no default. -/
theorem optional_default_counterexample :
    ([] : Obj).lookup "_knownkeys" = none ∧
    ((Receiver.map []).OptionalString linux64 "_knownkeys" "d").map Prod.snd = some "" ∧
    (((Receiver.map []).OptionalString linux64 "_knownkeys" "d").map fun r => r.1.errorLog) =
      some ["Expected config key \"_knownkeys\" to be a string"] ∧
    Receiver.nil.noteKnownKey "a" = none ∧
    Receiver.nil.OptionalString linux64 "a" "d" = none ∧
    Receiver.nil.OptionalBool linux64 "a" true = none ∧
    Receiver.nil.OptionalInt linux64 "a" 1 = none ∧
    Receiver.nil.OptionalUint linux64 "a" 1 = none ∧
    Receiver.nil.OptionalInt64 linux64 "a" 1 = none :=
  ⟨rfl, rfl, by decide, rfl, rfl, rfl, rfl, rfl, rfl⟩

theorem optional_default_or_illtyped_witness :
    Obj.wellFormed [("a", Value.number 1)] = true ∧
    (∀ d, ∃ jc', (Receiver.map [("a", Value.number 1)]).OptionalString linux64 "b" d =
        some (jc', d) ∧
      jc'.errorLog = Obj.errorLog [("a", Value.number 1)]) ∧
    (∀ d, ∃ jc' e, (Receiver.map [("a", Value.number 1)]).OptionalString linux64 "a" d =
        some (jc', "") ∧
      jc'.errorLog = Obj.errorLog [("a", Value.number 1)] ++ [e]) :=
  ⟨rfl,
    ((optional_default_or_illtyped linux64 [("a", Value.number 1)] "b" rfl).1
      (by decide) rfl).1,
    (optional_default_or_illtyped linux64 [("a", Value.number 1)] "a" rfl).2.1
      (Or.inl ⟨_, rfl, rfl⟩)⟩


/-! ## What an accessor call changes -/

theorem frame_leaf_same {α : Type} {jc1 jc' : Obj} {x r : α}
    (h : some (jc1, x) = some (jc', r)) :
    jc' = jc1 ∨ ∃ msg, jc1.appendError msg = some jc' := by
  injection h with h
  injection h with h1 _
  exact Or.inl h1.symm

theorem frame_leaf_err {α : Type} {jc1 jc' : Obj} {msg : String} {z r : α}
    (h : (jc1.appendError msg).map (fun jc2 => (jc2, z)) = some (jc', r)) :
    jc' = jc1 ∨ ∃ msg, jc1.appendError msg = some jc' := by
  cases h2 : jc1.appendError msg with
  | none => simp [h2] at h
  | some jc2 =>
    simp only [h2, Option.map_some'] at h
    injection h with h
    injection h with h3 _
    exact Or.inr ⟨msg, by rw [h2, h3]⟩

theorem frame_leaf_map {α β : Type} {jc1 jc' : Obj} {o : Option β} {f : β → α} {r : α}
    (h : o.map (fun sl => (jc1, f sl)) = some (jc', r)) :
    jc' = jc1 ∨ ∃ msg, jc1.appendError msg = some jc' := by
  cases o with
  | none => simp at h
  | some b =>
    simp only [Option.map_some'] at h
    exact frame_leaf_same h

theorem string_frame {rt : GoRuntime} {jc jc' : Obj} {key : String} {d : Option String}
    {r : String} (h : jc.string rt key d = some (jc', r)) :
    ∃ jc1, jc.noteKnownKey key = some jc1 ∧
      (jc' = jc1 ∨ ∃ msg, jc1.appendError msg = some jc') := by
  unfold Obj.string at h
  cases h1 : jc.noteKnownKey key with
  | none => simp [h1] at h
  | some jc1 =>
    simp only [h1] at h
    refine ⟨jc1, rfl, ?_⟩
    repeat' (first
      | exact frame_leaf_same h
      | exact frame_leaf_err h
      | exact frame_leaf_map h
      | split at h)

theorem obj_frame {rt : GoRuntime} {jc jc' : Obj} {key : String} {optional : Bool}
    {r : Obj} (h : jc.obj rt key optional = some (jc', r)) :
    ∃ jc1, jc.noteKnownKey key = some jc1 ∧
      (jc' = jc1 ∨ ∃ msg, jc1.appendError msg = some jc') := by
  unfold Obj.obj at h
  cases h1 : jc.noteKnownKey key with
  | none => simp [h1] at h
  | some jc1 =>
    simp only [h1] at h
    refine ⟨jc1, rfl, ?_⟩
    repeat' (first
      | exact frame_leaf_same h
      | exact frame_leaf_err h
      | exact frame_leaf_map h
      | split at h)

theorem stringOrObject_frame {rt : GoRuntime} {jc jc' : Obj} {key : String} {required : Bool}
    {r : Value} (h : jc.stringOrObject rt key required = some (jc', r)) :
    ∃ jc1, jc.noteKnownKey key = some jc1 ∧
      (jc' = jc1 ∨ ∃ msg, jc1.appendError msg = some jc') := by
  unfold Obj.stringOrObject at h
  cases h1 : jc.noteKnownKey key with
  | none => simp [h1] at h
  | some jc1 =>
    simp only [h1] at h
    refine ⟨jc1, rfl, ?_⟩
    repeat' (first
      | exact frame_leaf_same h
      | exact frame_leaf_err h
      | exact frame_leaf_map h
      | split at h)

theorem bool_frame {rt : GoRuntime} {jc jc' : Obj} {key : String} {d : Option Bool}
    {r : Bool} (h : jc.bool rt key d = some (jc', r)) :
    ∃ jc1, jc.noteKnownKey key = some jc1 ∧
      (jc' = jc1 ∨ ∃ msg, jc1.appendError msg = some jc') := by
  unfold Obj.bool at h
  cases h1 : jc.noteKnownKey key with
  | none => simp [h1] at h
  | some jc1 =>
    simp only [h1] at h
    refine ⟨jc1, rfl, ?_⟩
    repeat' (first
      | exact frame_leaf_same h
      | exact frame_leaf_err h
      | exact frame_leaf_map h
      | split at h)

theorem int_frame {rt : GoRuntime} {jc jc' : Obj} {key : String} {d : Option Int}
    {r : Int} (h : jc.int rt key d = some (jc', r)) :
    ∃ jc1, jc.noteKnownKey key = some jc1 ∧
      (jc' = jc1 ∨ ∃ msg, jc1.appendError msg = some jc') := by
  unfold Obj.int at h
  cases h1 : jc.noteKnownKey key with
  | none => simp [h1] at h
  | some jc1 =>
    simp only [h1] at h
    refine ⟨jc1, rfl, ?_⟩
    repeat' (first
      | exact frame_leaf_same h
      | exact frame_leaf_err h
      | exact frame_leaf_map h
      | split at h)

theorem uint_frame {rt : GoRuntime} {jc jc' : Obj} {key : String} {d : Option Int}
    {r : Int} (h : jc.uint rt key d = some (jc', r)) :
    ∃ jc1, jc.noteKnownKey key = some jc1 ∧
      (jc' = jc1 ∨ ∃ msg, jc1.appendError msg = some jc') := by
  unfold Obj.uint at h
  cases h1 : jc.noteKnownKey key with
  | none => simp [h1] at h
  | some jc1 =>
    simp only [h1] at h
    refine ⟨jc1, rfl, ?_⟩
    repeat' (first
      | exact frame_leaf_same h
      | exact frame_leaf_err h
      | exact frame_leaf_map h
      | split at h)

theorem int64_frame {rt : GoRuntime} {jc jc' : Obj} {key : String} {d : Option Int}
    {r : Int} (h : jc.int64 rt key d = some (jc', r)) :
    ∃ jc1, jc.noteKnownKey key = some jc1 ∧
      (jc' = jc1 ∨ ∃ msg, jc1.appendError msg = some jc') := by
  unfold Obj.int64 at h
  cases h1 : jc.noteKnownKey key with
  | none => simp [h1] at h
  | some jc1 =>
    simp only [h1] at h
    refine ⟨jc1, rfl, ?_⟩
    repeat' (first
      | exact frame_leaf_same h
      | exact frame_leaf_err h
      | exact frame_leaf_map h
      | split at h)

theorem requiredList_frame {rt : GoRuntime} {jc jc' : Obj} {key : String} {required : Bool}
    {r : Option (List String)} (h : jc.requiredList rt key required = some (jc', r)) :
    ∃ jc1, jc.noteKnownKey key = some jc1 ∧
      (jc' = jc1 ∨ ∃ msg, jc1.appendError msg = some jc') := by
  unfold Obj.requiredList at h
  cases h1 : jc.noteKnownKey key with
  | none => simp [h1] at h
  | some jc1 =>
    simp only [h1] at h
    refine ⟨jc1, rfl, ?_⟩
    repeat' (first
      | exact frame_leaf_same h
      | exact frame_leaf_err h
      | exact frame_leaf_map h
      | split at h)

theorem requiredIntList_frame {rt : GoRuntime} {jc jc' : Obj} {key : String} {required : Bool}
    {r : Option (List Int)} (h : jc.requiredIntList rt key required = some (jc', r)) :
    ∃ jc1, jc.noteKnownKey key = some jc1 ∧
      (jc' = jc1 ∨ ∃ msg, jc1.appendError msg = some jc') := by
  unfold Obj.requiredIntList at h
  cases h1 : jc.noteKnownKey key with
  | none => simp [h1] at h
  | some jc1 =>
    simp only [h1] at h
    refine ⟨jc1, rfl, ?_⟩
    repeat' (first
      | exact frame_leaf_same h
      | exact frame_leaf_err h
      | exact frame_leaf_map h
      | split at h)

theorem List_frame {rt : GoRuntime} {jc jc' : Obj} {key : String} {args : Args}
    {r : Option (List String)} (h : Obj.List rt jc key args = some (jc', r)) :
    ∃ jc1, jc.noteKnownKey key = some jc1 ∧
      (jc' = jc1 ∨ ∃ msg, jc1.appendError msg = some jc') := by
  unfold Obj.List at h
  cases h1 : jc.requiredList rt key true with
  | none => simp [h1] at h
  | some p =>
    obtain ⟨jc2, ret⟩ := p
    have hs := requiredList_frame h1
    suffices he : jc' = jc2 by rw [he]; exact hs
    simp only [h1] at h
    cases ret with
    | some l => simp at h; exact h.1.symm
    | none =>
      simp only at h
      split at h
      · simp at h; exact h.1.symm
      · simp at h

theorem IntList_frame {rt : GoRuntime} {jc jc' : Obj} {key : String} {args : Args}
    {r : Option (List Int)} (h : Obj.IntList rt jc key args = some (jc', r)) :
    ∃ jc1, jc.noteKnownKey key = some jc1 ∧
      (jc' = jc1 ∨ ∃ msg, jc1.appendError msg = some jc') := by
  unfold Obj.IntList at h
  cases h1 : jc.requiredIntList rt key true with
  | none => simp [h1] at h
  | some p =>
    obtain ⟨jc2, ret⟩ := p
    have hs := requiredIntList_frame h1
    suffices he : jc' = jc2 by rw [he]; exact hs
    simp only [h1] at h
    cases ret with
    | some l => simp at h; exact h.1.symm
    | none =>
      simp only at h
      split at h
      · simp at h; exact h.1.symm
      · simp at h

/-- Every accessor call that returns has noted its key and, apart from that,
appended at most one error. -/
theorem call_frame {rt : GoRuntime} {jc jc' : Obj} {call : Call}
    (h : callState rt jc call = some jc') :
    ∃ jc1, jc.noteKnownKey (callKey call) = some jc1 ∧
      (jc' = jc1 ∨ ∃ msg, jc1.appendError msg = some jc') := by
  cases call <;> simp only [callState, callKey, Option.map_eq_some', Prod.exists,
    exists_and_right, exists_eq_right] at h ⊢ <;> obtain ⟨r, h⟩ := h
  case RequiredObject => exact obj_frame h
  case OptionalObject => exact obj_frame h
  case Object => exact obj_frame h
  case RequiredString => exact string_frame h
  case OptionalString => exact string_frame h
  case String =>
    unfold Obj.String at h
    split at h
    · simp at h
    · exact string_frame h
  case RequiredStringOrObject => exact stringOrObject_frame h
  case OptionalStringOrObject => exact stringOrObject_frame h
  case StringOrObject => exact stringOrObject_frame h
  case RequiredBool => exact bool_frame h
  case OptionalBool => exact bool_frame h
  case Bool =>
    unfold Obj.Bool at h
    split at h
    · simp at h
    · exact bool_frame h
  case RequiredInt => exact int_frame h
  case OptionalInt => exact int_frame h
  case Int =>
    unfold Obj.Int at h
    split at h
    · simp at h
    · exact int_frame h
  case RequiredUint => exact uint_frame h
  case OptionalUint => exact uint_frame h
  case Uint =>
    unfold Obj.Uint at h
    split at h
    · simp at h
    · exact uint_frame h
  case RequiredInt64 => exact int64_frame h
  case OptionalInt64 => exact int64_frame h
  case Int64 =>
    unfold Obj.Int64 at h
    split at h
    · simp at h
    · exact int64_frame h
  case RequiredList => exact requiredList_frame h
  case OptionalList => exact requiredList_frame h
  case List => exact List_frame h
  case IntList => exact IntList_frame h

theorem knownSet_after_note {jc jc1 : Obj} {key : String}
    (h : jc.noteKnownKey key = some jc1) (x : String) :
    x ∈ jc1.knownSet ↔ x = key ∨ x ∈ jc.knownSet := by
  rw [knownSet_of_lookup (noteKnownKey_some h).1]
  by_cases hm : key ∈ jc.knownSet
  · simp only [hm, if_true]
    constructor
    · exact Or.inr
    · rintro (rfl | hx)
      · exact hm
      · exact hx
  · simp only [hm, if_false, List.mem_append, List.mem_singleton]
    tauto

theorem call_knownSet {rt : GoRuntime} {jc jc' : Obj} {call : Call}
    (h : callState rt jc call = some jc') (x : String) :
    x ∈ jc'.knownSet ↔ x = callKey call ∨ x ∈ jc.knownSet := by
  obtain ⟨jc1, h1, rfl | ⟨msg, h2⟩⟩ := call_frame h
  · exact knownSet_after_note h1 x
  · rw [appendError_knownSet h2]
    exact knownSet_after_note h1 x

/-! ## The known-key set -/

/-- Appending a list of messages one by one: the error log gains them in
order and nothing else changes. -/
theorem appendAll_some {α : Type} (f : α → String) :
    ∀ (l : List α) {jc jc1 : Obj},
      l.foldlM (fun o k => Obj.appendError o (f k)) jc = some jc1 →
      jc1.errorLog = jc.errorLog ++ l.map f ∧
      ∀ k, k ≠ "_errors" → jc1.lookup k = jc.lookup k
  | [], jc, jc1, h => by
    simp only [List.foldlM_nil, Option.pure_def, Option.some.injEq] at h
    subst h
    simp
  | a :: l, jc, jc1, h => by
    simp only [List.foldlM_cons, Option.bind_eq_bind] at h
    cases h2 : jc.appendError (f a) with
    | none => simp [h2] at h
    | some jc2 =>
      simp only [h2, Option.some_bind] at h
      obtain ⟨ih1, ih2⟩ := appendAll_some f l h
      refine ⟨?_, fun k hk => ?_⟩
      · rw [ih1, appendError_errorLog h2]; simp
      · rw [ih2 k hk, (appendError_some h2).2 k hk]

theorem Validate_knownSet {rt : GoRuntime} {jc jc' : Obj} {r : Option String}
    (h : jc.Validate rt = some (jc', r)) : jc'.knownSet = jc.knownSet := by
  unfold Obj.Validate at h
  cases hu : jc.UnknownKeys with
  | none => simp [hu] at h
  | some unknown =>
    simp only [hu] at h
    cases hf : unknown.foldlM (fun o k => Obj.appendError o ("Unknown key " ++ rt.quote k)) jc with
    | none => simp [hf] at h
    | some jc1 =>
      simp only [hf] at h
      have hk := knownSet_congr ((appendAll_some _ unknown hf).2 "_knownkeys" (by decide))
      suffices he : jc' = jc1 by rw [he]; exact hk
      repeat' (first | (simp at h; done) | (simp at h; exact h.1.symm) | split at h)

/-- C9.  Whenever a call of an accessor returns, whatever its kind and whether
it found the value, returned a default or recorded an error, the known-key set
afterwards is the previous set with the key of the call added; and `Validate`
leaves the known-key set as it is.  So no call removes a key. -/
theorem known_keys_grow (rt : GoRuntime) (jc : Obj) :
    (∀ (call : Call) (jc' : Obj), callState rt jc call = some jc' →
      ∀ x, x ∈ jc'.knownSet ↔ x = callKey call ∨ x ∈ jc.knownSet) ∧
    (∀ (jc' : Obj) (r : Option String), jc.Validate rt = some (jc', r) →
      jc'.knownSet = jc.knownSet) :=
  ⟨fun _ _ h x => call_knownSet h x, fun _ _ h => Validate_knownSet h⟩

theorem known_keys_grow_witness :
    callState linux64 [("a", Value.str "v")] (Call.RequiredString "b") =
      some [("a", Value.str "v"), ("_knownkeys", Value.knownKeys ["b"]),
        ("_errors", Value.errors ["Missing required config key \"b\" (string)"])] ∧
    ∀ x, x ∈ Obj.knownSet [("a", Value.str "v"), ("_knownkeys", Value.knownKeys ["b"]),
        ("_errors", Value.errors ["Missing required config key \"b\" (string)"])] ↔
      x = callKey (Call.RequiredString "b") ∨ x ∈ Obj.knownSet [("a", Value.str "v")] :=
  ⟨rfl, (known_keys_grow linux64 [("a", Value.str "v")]).1 (Call.RequiredString "b") _ rfl⟩


/-! ## Lists of strings -/

theorem stringsFrom_strs (i : Nat) (ss : List String) :
    stringsFrom i (ss.map Value.str) = .inr ss := by
  induction ss generalizing i with
  | nil => rfl
  | cons s ss ih => simp [stringsFrom, ih]

theorem stringsFrom_bad (i : Nat) (pre : List String) (ei : Value) (post : List Value)
    (hei : ei.isStr = false) :
    stringsFrom i (pre.map Value.str ++ ei :: post) = .inl (i + pre.length, ei) := by
  induction pre generalizing i with
  | nil => cases ei <;> simp [stringsFrom, Value.isStr] at hei ⊢
  | cons s pre ih =>
    have h := ih (i + 1)
    simp only [List.map_cons, List.cons_append, stringsFrom, List.length_cons]
    rw [show (List.map Value.str pre).append (ei :: post) = List.map Value.str pre ++ ei :: post
      from rfl, h, show i + 1 + pre.length = i + (pre.length + 1) by omega]

theorem list_key_not_reserved {jc : Obj} {key : String} {eil : List Value}
    (hwf : jc.wellFormed = true) (hl : jc.lookup key = some (.list eil)) :
    key ≠ "_knownkeys" := by
  rintro rfl
  have := (Bool.and_eq_true _ _ ▸ hwf).1
  simp [hl] at this

/-- C10, as the code has it.  On an object whose bookkeeping entries are well
formed and a key whose value is an array: if every element is a string,
`RequiredList` returns exactly those strings in the same order and leaves the
error log as it is; if some element is not a string, it returns no list at all
and appends exactly one error, which names the index of the first element that
is not a string. -/
theorem required_list_all_or_nothing (rt : GoRuntime) (jc : Obj) (key : String)
    (hwf : jc.wellFormed = true) :
    (∀ ss : List String, jc.lookup key = some (.list (ss.map Value.str)) →
      ∃ jc', jc.RequiredList rt key = some (jc', some ss) ∧ jc'.errorLog = jc.errorLog) ∧
    (∀ (pre : List String) (ei : Value) (post : List Value), ei.isStr = false →
      jc.lookup key = some (.list (pre.map Value.str ++ ei :: post)) →
      ∃ jc', jc.RequiredList rt key = some (jc', none) ∧
        jc'.errorLog = jc.errorLog ++ ["Expected config key " ++ rt.quote key ++ " index "
          ++ toString pre.length ++ " to be a string, not " ++ typeName ei]) := by
  obtain ⟨jc1, h1⟩ := noteKnownKey_isSome hwf key
  constructor
  · intro ss hl
    have hk := list_key_not_reserved hwf hl
    refine ⟨jc1, ?_, noteKnownKey_errorLog h1⟩
    unfold Obj.RequiredList Obj.requiredList
    simp only [h1, (noteKnownKey_some h1).2 key hk, hl, stringsFrom_strs]
  · intro pre ei post hei hl
    have hk := list_key_not_reserved hwf hl
    obtain ⟨jc2, h2⟩ := appendError_isSome (noteKnownKey_wellFormed h1 hwf)
      ("Expected config key " ++ rt.quote key ++ " index "
          ++ toString pre.length ++ " to be a string, not " ++ typeName ei)
    refine ⟨jc2, ?_, by rw [appendError_errorLog h2, noteKnownKey_errorLog h1]⟩
    unfold Obj.RequiredList Obj.requiredList
    simp only [h1, (noteKnownKey_some h1).2 key hk, hl, stringsFrom_bad 0 pre ei post hei,
      Nat.zero_add, h2, Option.map_some']

/-- C10 fails as stated: on a document that has the key `_knownkeys`, reading a
list of strings panics in `noteKnownKey` instead of returning the strings. -/
theorem required_list_counterexample :
    ([("_knownkeys", Value.str "x"), ("l", Value.list [Value.str "foo"])] : Obj).lookup "l" =
      some (Value.list [Value.str "foo"]) ∧
    Obj.RequiredList linux64
      [("_knownkeys", Value.str "x"), ("l", Value.list [Value.str "foo"])] "l" = none :=
  ⟨rfl, rfl⟩

theorem required_list_all_or_nothing_witness :
    Obj.wellFormed [("l", Value.list [Value.str "foo", Value.str "bar"])] = true ∧
    (∃ jc', Obj.RequiredList linux64 [("l", Value.list [Value.str "foo", Value.str "bar"])] "l" =
        some (jc', some ["foo", "bar"]) ∧
      jc'.errorLog = Obj.errorLog [("l", Value.list [Value.str "foo", Value.str "bar"])]) :=
  ⟨rfl, (required_list_all_or_nothing linux64
    [("l", Value.list [Value.str "foo", Value.str "bar"])] "l" rfl).1 ["foo", "bar"] rfl⟩


/-! ## Unknown keys -/

theorem strLe_iff (a b : String) : strLe a b ↔ a ≤ b := by
  unfold strLe
  exact String.le_iff_toList_le.symm

theorem sortStrings_sorted (l : List String) : (sortStrings l).Sorted (· ≤ ·) := by
  have h := @List.sorted_insertionSort String strLe _
    ⟨fun a b => by simp only [strLe_iff]; exact le_total a b⟩
    ⟨fun a b c => by simp only [strLe_iff]; exact le_trans⟩ l
  exact List.Pairwise.imp (fun {a b} hab => (strLe_iff a b).1 hab) h

theorem sortStrings_perm (l : List String) : (sortStrings l).Perm l :=
  List.perm_insertionSort strLe l

theorem mem_keys_iff (m : Obj) (k : String) : k ∈ keys m ↔ m.lookup k ≠ none := by
  induction m with
  | nil => simp [keys, List.lookup]
  | cons kv rest ih =>
    obtain ⟨k', v'⟩ := kv
    by_cases h : k = k'
    · subst h; simp [keys, List.lookup]
    · have h' : (k == k') = false := by simpa using h
      simp only [keys, List.map_cons, List.mem_cons, h, false_or, List.lookup, h']
      exact ih

theorem keys_store (k : String) (v : Value) (m : Obj) :
    keys (store k v m) = if k ∈ keys m then keys m else keys m ++ [k] := by
  induction m with
  | nil => simp [keys, store]
  | cons kv rest ih =>
    obtain ⟨k', v'⟩ := kv
    by_cases h : k' = k
    · subst h; simp [keys, store]
    · have h' : ¬ k = k' := fun e => h e.symm
      simp only [keys] at ih
      by_cases hm : k ∈ List.map Prod.fst rest
      · simp [keys, store, h, h', hm, ih]
      · simp [keys, store, h, h', hm, ih]

/-- Storing under a key that begins with an underscore leaves the keys that
do not begin with one as they are. -/
theorem plainKeys_store {k : String} (hk : hasUnderscorePrefix k = true) (v : Value) (m : Obj)
    (p : String → Bool) :
    (keys (store k v m)).filter (fun x => p x && !hasUnderscorePrefix x) =
      (keys m).filter (fun x => p x && !hasUnderscorePrefix x) := by
  rw [keys_store]
  split
  · rfl
  · simp [List.filter_append, hk]

theorem plainKeys_note {jc jc1 : Obj} {key : String} (h : jc.noteKnownKey key = some jc1)
    (p : String → Bool) :
    (keys jc1).filter (fun x => p x && !hasUnderscorePrefix x) =
      (keys jc).filter (fun x => p x && !hasUnderscorePrefix x) := by
  unfold Obj.noteKnownKey at h
  cases hk : jc.lookup "_knownkeys" with
  | none =>
    simp only [hk, lookup_store_self] at h
    injection h with h
    subst h
    rw [plainKeys_store (by decide), plainKeys_store (by decide)]
  | some v =>
    simp only [hk] at h
    cases v <;> simp at h
    subst h
    rw [plainKeys_store (by decide)]

theorem plainKeys_appendError {jc jc2 : Obj} {msg : String}
    (h : jc.appendError msg = some jc2) (p : String → Bool) :
    (keys jc2).filter (fun x => p x && !hasUnderscorePrefix x) =
      (keys jc).filter (fun x => p x && !hasUnderscorePrefix x) := by
  unfold Obj.appendError at h
  cases he : jc.lookup "_errors" with
  | none =>
    simp only [he] at h
    injection h with h
    subst h
    rw [plainKeys_store (by decide)]
  | some v =>
    simp only [he] at h
    cases v <;> simp at h
    subst h
    rw [plainKeys_store (by decide)]

/-- The result of `UnknownKeys` in terms of the known-key set. -/
theorem UnknownKeys_eq {jc : Obj}
    (hk : jc.lookup "_knownkeys" = none ∨ ∃ ks, jc.lookup "_knownkeys" = some (.knownKeys ks)) :
    jc.UnknownKeys = some (sortStrings ((keys jc).filter
      fun k => !(decide (k ∈ jc.knownSet)) && !hasUnderscorePrefix k)) := by
  unfold Obj.UnknownKeys Obj.knownSet
  rcases hk with hk | ⟨ks, hk⟩
  · simp [hk]
  · simp [hk]

theorem UnknownKeys_after_call {rt : GoRuntime} {va vb vc : Value} {call : Call} {jc1 : Obj}
    (hkey : callKey call = "a")
    (h : callState rt [("a", va), ("b", vb), ("_comment", vc)] call = some jc1) :
    jc1.UnknownKeys = some ["b"] := by
  obtain ⟨jc0, h0, hf⟩ := call_frame h
  have hks : ∀ x, x ∈ jc1.knownSet ↔ x = "a" := by
    intro x
    rw [call_knownSet h x, hkey]
    simp [Obj.knownSet, List.lookup]
  have hl : jc1.lookup "_knownkeys" = some (.knownKeys jc1.knownSet) := by
    rcases hf with rfl | ⟨msg, h2⟩
    · rw [(noteKnownKey_some h0).1, knownSet_of_lookup (noteKnownKey_some h0).1]
    · rw [appendError_knownSet h2, (appendError_some h2).2 _ (by decide),
        (noteKnownKey_some h0).1, knownSet_of_lookup (noteKnownKey_some h0).1]
  have hp : (keys jc1).filter (fun k => !(decide (k ∈ jc1.knownSet)) && !hasUnderscorePrefix k)
      = (keys [("a", va), ("b", vb), ("_comment", vc)]).filter
        (fun k => !(decide (k ∈ jc1.knownSet)) && !hasUnderscorePrefix k) := by
    rcases hf with rfl | ⟨msg, h2⟩
    · exact plainKeys_note h0 _
    · rw [plainKeys_appendError h2, plainKeys_note h0]
  rw [UnknownKeys_eq (Or.inr ⟨_, hl⟩), hp]
  have ha : decide ("a" ∈ jc1.knownSet) = true := by simpa using (hks "a").2 rfl
  have hb : decide ("b" ∈ jc1.knownSet) = false := by
    simpa using fun hm => absurd ((hks "b").1 hm) (by decide)
  have hu : hasUnderscorePrefix "_comment" = true := by decide
  have hnb : hasUnderscorePrefix "b" = false := by decide
  simp [keys, List.filter, ha, hb, hu, hnb, sortStrings]

/-- C2, as the code has it.  On an object whose entry `_knownkeys` is absent or a
key set, `UnknownKeys` returns exactly the keys that are present in the
mapping, absent from the known-key set and do not begin with an underscore,
each exactly once and in ascending order.  In particular, on a mapping with
the keys `a`, `b` and `_comment` on which one accessor call has read `a`, the
result is exactly `[b]`. -/
theorem unknown_keys_exact (rt : GoRuntime) (jc : Obj)
    (hk : jc.lookup "_knownkeys" = none ∨ ∃ ks, jc.lookup "_knownkeys" = some (.knownKeys ks))
    (hnd : (keys jc).Nodup) :
    (∃ unknown, jc.UnknownKeys = some unknown ∧
      (∀ k, k ∈ unknown ↔ k ∈ keys jc ∧ k ∉ jc.knownSet ∧ hasUnderscorePrefix k = false) ∧
      unknown.Nodup ∧ unknown.Sorted (· < ·)) ∧
    (∀ (va vb vc : Value) (call : Call) (jc1 : Obj), callKey call = "a" →
      callState rt [("a", va), ("b", vb), ("_comment", vc)] call = some jc1 →
      jc1.UnknownKeys = some ["b"]) := by
  refine ⟨⟨_, UnknownKeys_eq hk, fun k => ?_, ?_, ?_⟩,
    fun va vb vc call jc1 hkey h => UnknownKeys_after_call hkey h⟩
  · rw [(sortStrings_perm _).mem_iff]
    simp
  · exact (sortStrings_perm _).nodup_iff.2 (hnd.filter _)
  · exact (sortStrings_sorted _).lt_of_le ((sortStrings_perm _).nodup_iff.2 (hnd.filter _))

/-- C2 fails as stated: on a document that has the key `_knownkeys`, the type
assertion in `UnknownKeys` panics and no keys are returned. -/
theorem unknown_keys_counterexample :
    Obj.UnknownKeys [("_knownkeys", Value.str "x"), ("b", Value.number 2)] = none :=
  rfl

theorem unknown_keys_exact_witness :
    (keys [("a", Value.number 1), ("b", Value.number 2), ("_comment", Value.str "c")]).Nodup ∧
    Obj.UnknownKeys [("a", Value.number 1), ("b", Value.number 2),
      ("_comment", Value.str "c")] = some ["a", "b"] ∧
    ∃ unknown, Obj.UnknownKeys [("a", Value.number 1), ("b", Value.number 2),
        ("_comment", Value.str "c")] = some unknown ∧
      (∀ k, k ∈ unknown ↔
        k ∈ keys [("a", Value.number 1), ("b", Value.number 2), ("_comment", Value.str "c")] ∧
        k ∉ Obj.knownSet [("a", Value.number 1), ("b", Value.number 2),
          ("_comment", Value.str "c")] ∧
        hasUnderscorePrefix k = false) ∧
      unknown.Nodup ∧ unknown.Sorted (· < ·) :=
  ⟨by decide, by decide,
    (unknown_keys_exact linux64
      [("a", Value.number 1), ("b", Value.number 2), ("_comment", Value.str "c")]
      (Or.inl rfl) (by decide)).1⟩


/-! ## Validate -/

theorem appendAll_isSome {α : Type} (f : α → String) :
    ∀ (l : List α) {jc : Obj}, jc.wellFormed = true →
      ∃ jc1, l.foldlM (fun o k => Obj.appendError o (f k)) jc = some jc1 ∧
        jc1.wellFormed = true
  | [], jc, hwf => ⟨jc, rfl, hwf⟩
  | a :: l, jc, hwf => by
    obtain ⟨jc2, h2⟩ := appendError_isSome hwf (f a)
    obtain ⟨jc1, h1, hwf1⟩ := appendAll_isSome f l (appendError_wellFormed h2 hwf)
    exact ⟨jc1, by simp [List.foldlM_cons, h2, h1], hwf1⟩

theorem wellFormed_errors {jc : Obj} (hwf : jc.wellFormed = true) :
    (jc.lookup "_errors" = none ∧ jc.errorLog = []) ∨
    (jc.lookup "_errors" = some (.errors jc.errorLog) ∧ jc.errorLog ≠ []) := by
  have h := (Bool.and_eq_true _ _ ▸ hwf).2
  cases he : jc.lookup "_errors" with
  | none => exact Or.inl ⟨rfl, errorLog_of_lookup_none he⟩
  | some v =>
    cases v <;> simp [he] at h
    rename_i es
    refine Or.inr ⟨by rw [errorLog_of_lookup he], ?_⟩
    rw [errorLog_of_lookup he]
    exact h

theorem wellFormed_known {jc : Obj} (hwf : jc.wellFormed = true) :
    jc.lookup "_knownkeys" = none ∨ ∃ ks, jc.lookup "_knownkeys" = some (.knownKeys ks) := by
  have h := (Bool.and_eq_true _ _ ▸ hwf).1
  cases hk : jc.lookup "_knownkeys" with
  | none => exact Or.inl rfl
  | some v => cases v <;> simp [hk] at h ⊢

theorem mem_Join_data (sep : String) (c : Char) :
    ∀ l : List String, c ∈ (Join l sep).data → c ∈ sep.data ∨ ∃ m ∈ l, c ∈ m.data
  | [], h => by simp [Join] at h
  | [a], h => Or.inr ⟨a, by simp, by simpa [Join] using h⟩
  | a :: b :: rest, h => by
    simp only [Join, String.data_append, List.mem_append] at h
    rcases h with (h | h) | h
    · exact Or.inr ⟨a, by simp, h⟩
    · exact Or.inl h
    · rcases mem_Join_data sep c (b :: rest) h with h | ⟨m, hm, hc⟩
      · exact Or.inl h
      · exact Or.inr ⟨m, List.mem_cons_of_mem _ hm, hc⟩

theorem errorfNoOperands_plain (rt : GoRuntime) (msgs : List String)
    (hp : ∀ m ∈ msgs, '%' ∉ m.data) :
    errorfNoOperands rt ("Multiple errors: " ++ Join msgs ", ") =
      "Multiple errors: " ++ Join msgs ", " := by
  unfold errorfNoOperands
  rw [if_neg]
  simp only [String.data_append, List.mem_append, not_or]
  refine ⟨by decide, fun h => ?_⟩
  rcases mem_Join_data _ _ _ h with h | ⟨m, hm, hc⟩
  · exact absurd h (by decide)
  · exact hp m hm hc

/-- C1, as the code has it.  On an object whose bookkeeping entries are well
formed, take the deferred errors in the order they were recorded, followed by
one `Unknown key` error per unknown key (a key of the mapping that is not in the
known-key set and does not begin with an underscore) in ascending order.
`Validate` returns success when there are none, returns that one error
itself when there is exactly one, and when there are two or more and no
message contains a percent sign it returns a single error whose message is
`Multiple errors: ` followed by the messages joined by `, `. -/
theorem validate_reports (rt : GoRuntime) (jc : Obj) (hwf : jc.wellFormed = true) :
    ∃ unknown jc' r, jc.UnknownKeys = some unknown ∧ unknown.Sorted (· ≤ ·) ∧
      (∀ k, k ∈ unknown ↔ k ∈ keys jc ∧ k ∉ jc.knownSet ∧ hasUnderscorePrefix k = false) ∧
      jc.Validate rt = some (jc', r) ∧
      ∀ msgs, msgs = jc.errorLog ++ unknown.map (fun k => "Unknown key " ++ rt.quote k) →
        (msgs = [] → r = none) ∧
        (∀ e, msgs = [e] → r = some e) ∧
        (2 ≤ msgs.length → (∀ m ∈ msgs, '%' ∉ m.data) →
          r = some ("Multiple errors: " ++ Join msgs ", ")) := by
  have hu := UnknownKeys_eq (wellFormed_known hwf)
  obtain ⟨jc1, hf, hwf1⟩ := appendAll_isSome (fun k => "Unknown key " ++ rt.quote k)
    (sortStrings ((keys jc).filter
      fun k => !(decide (k ∈ jc.knownSet)) && !hasUnderscorePrefix k)) hwf
  have hlog := (appendAll_some _ _ hf).1
  have hsorted := sortStrings_sorted ((keys jc).filter
      fun k => !(decide (k ∈ jc.knownSet)) && !hasUnderscorePrefix k)
  have hmem : ∀ k, k ∈ sortStrings ((keys jc).filter
      fun k => !(decide (k ∈ jc.knownSet)) && !hasUnderscorePrefix k) ↔
      k ∈ keys jc ∧ k ∉ jc.knownSet ∧ hasUnderscorePrefix k = false := by
    intro k
    rw [(sortStrings_perm _).mem_iff]
    simp
  rcases wellFormed_errors hwf1 with ⟨hn, he⟩ | ⟨hs, he⟩
  · refine ⟨_, jc1, none, hu, hsorted, hmem, ?_, ?_⟩
    · unfold Obj.Validate
      simp only [hu, hf, hn]
    · rintro msgs rfl
      rw [← hlog, he]
      simp
  · cases hl : jc1.errorLog with
    | nil => exact absurd hl he
    | cons e rest =>
      cases rest with
      | nil =>
        refine ⟨_, jc1, some e, hu, hsorted, hmem, ?_, ?_⟩
        · unfold Obj.Validate
          simp only [hu, hf, hs, hl]
        · rintro msgs rfl
          rw [← hlog, hl]
          simp
      | cons e2 rest =>
        refine ⟨_, jc1, some (errorfNoOperands rt
          ("Multiple errors: " ++ Join (e :: e2 :: rest) ", ")), hu, hsorted, hmem, ?_, ?_⟩
        · unfold Obj.Validate
          simp only [hu, hf, hs, hl]
        · rintro msgs rfl
          rw [← hlog, hl]
          refine ⟨by simp, by simp, fun _ hp => ?_⟩
          rw [errorfNoOperands_plain rt _ hp]

/-- C1 fails as stated.  A document that has the key `_errors` has no deferred
error and no unknown key, yet `Validate` panics on it instead of returning
success.  And with two unknown keys of which one contains a verb, the message
is not the joined messages: `fmt.Errorf` is given the joined text as its
format. -/
theorem validate_counterexample :
    Obj.errorLog [("_errors", Value.number 1)] = [] ∧
    Obj.UnknownKeys [("_errors", Value.number 1)] = some [] ∧
    Obj.Validate linux64 [("_errors", Value.number 1)] = none ∧
    (Obj.Validate linux64 [("a%d", Value.number 1), ("b", Value.number 2)]).map Prod.snd =
      some (some "Multiple errors: Unknown key \"a%!d(MISSING)\", Unknown key \"b\"") :=
  ⟨rfl, rfl, rfl, by decide⟩

theorem validate_reports_witness :
    Obj.wellFormed [("a", Value.number 1), ("b", Value.number 2)] = true ∧
    ∃ unknown jc' r,
      Obj.UnknownKeys [("a", Value.number 1), ("b", Value.number 2)] = some unknown ∧
      unknown.Sorted (· ≤ ·) ∧
      (∀ k, k ∈ unknown ↔ k ∈ keys [("a", Value.number 1), ("b", Value.number 2)] ∧
        k ∉ Obj.knownSet [("a", Value.number 1), ("b", Value.number 2)] ∧
        hasUnderscorePrefix k = false) ∧
      Obj.Validate linux64 [("a", Value.number 1), ("b", Value.number 2)] = some (jc', r) ∧
      ∀ msgs, msgs = Obj.errorLog [("a", Value.number 1), ("b", Value.number 2)] ++
          unknown.map (fun k => "Unknown key " ++ linux64.quote k) →
        (msgs = [] → r = none) ∧
        (∀ e, msgs = [e] → r = some e) ∧
        (2 ≤ msgs.length → (∀ m ∈ msgs, '%' ∉ m.data) →
          r = some ("Multiple errors: " ++ Join msgs ", ")) :=
  ⟨rfl, validate_reports linux64 [("a", Value.number 1), ("b", Value.number 2)] rfl⟩


/-! ## The pattern of `_env` -/

theorem isNameChar_dollar : isNameChar '$' = false := by decide

theorem isNameChar_close : isNameChar '}' = false := by decide

theorem isNameChar_open : isNameChar '{' = false := by decide

theorem takeWhile_name {n : List Char} (hn : ∀ c ∈ n, isNameChar c = true) (post : List Char) :
    (n ++ '}' :: post).takeWhile isNameChar = n := by
  rw [List.takeWhile_append_of_pos hn]
  simp [List.takeWhile, isNameChar_close]

theorem dropWhile_name {n : List Char} (hn : ∀ c ∈ n, isNameChar c = true) (post : List Char) :
    (n ++ '}' :: post).dropWhile isNameChar = '}' :: post := by
  rw [List.dropWhile_append_of_pos hn]
  simp [List.dropWhile, isNameChar_close]

theorem matchAt_placeholder {n : List Char} (hn : isName n) (post : List Char) :
    matchAt (placeholder n ++ post) = some (placeholder n) := by
  have h : placeholder n ++ post = '$' :: '{' :: (n ++ '}' :: post) := by
    simp [placeholder]
  rw [h]
  unfold matchAt
  simp only [takeWhile_name hn.2, dropWhile_name hn.2]
  have : n.isEmpty = false := by
    cases n with
    | nil => exact absurd rfl hn.1
    | cons _ _ => rfl
  simp [this, placeholder]

theorem matchAt_some {l m : List Char} (h : matchAt l = some m) :
    ∃ n post, isName n ∧ l = placeholder n ++ post ∧ m = placeholder n := by
  unfold matchAt at h
  split at h
  · rename_i rest
    split at h
    · rename_i post hd
      split at h
      · cases h
      · rename_i hne
        injection h with h
        refine ⟨rest.takeWhile isNameChar, post, ⟨?_, ?_⟩, ?_, h.symm⟩
        · intro he
          rw [he] at hne
          exact hne rfl
        · intro c hc
          exact (List.mem_takeWhile_imp hc)
        · have := List.takeWhile_append_dropWhile isNameChar rest
          rw [hd] at this
          simp [placeholder, this]
    · cases h
  · cases h

theorem replaceAll_skip (rt : GoRuntime) (w : World) (hasDefault : Bool) (d : String) :
    ∀ (l1 l2 : List Char) (err : Option String),
      replaceAll rt w hasDefault d l1.length (l1 ++ l2) err =
        replaceAll rt w hasDefault d 0 l2 err
  | [], l2, err => by
    cases l2 <;> rfl
  | c :: l1, l2, err => by
    simp only [List.length_cons, List.cons_append, replaceAll]
    exact replaceAll_skip rt w hasDefault d l1 l2 err

theorem replaceAll_placeholder (rt : GoRuntime) (w : World) (hasDefault : Bool) (d : String)
    {n : List Char} (hn : isName n) (rest : List Char) (err : Option String) :
    replaceAll rt w hasDefault d 0 (placeholder n ++ rest) err =
      ((replaceMatch rt w hasDefault d (placeholder n) err).1.data ++
        (replaceAll rt w hasDefault d 0 rest
          (replaceMatch rt w hasDefault d (placeholder n) err).2).1,
       (replaceAll rt w hasDefault d 0 rest
          (replaceMatch rt w hasDefault d (placeholder n) err).2).2) := by
  have hm := matchAt_placeholder hn rest
  have hc : placeholder n ++ rest = '$' :: (('{' :: (n ++ ['}'])) ++ rest) := by
    simp [placeholder]
  rw [hc] at hm ⊢
  rw [replaceAll]
  simp only [hm]
  have hlen : (placeholder n).length - 1 = ('{' :: (n ++ ['}'])).length := by
    simp [placeholder]
  rw [hlen, replaceAll_skip]

theorem NoPlaceholder_tail {c : Char} {t : List Char} (h : NoPlaceholder (c :: t)) :
    NoPlaceholder t := by
  intro pre n post hn he
  exact h (c :: pre) n post hn (by rw [he]; rfl)

theorem matchAt_text {t : List Char} (ht : NoPlaceholder t) (hne : t ≠ [])
    {R : List Char} (hR : R = [] ∨ ∃ x, R = '$' :: x) : matchAt (t ++ R) = none := by
  cases hm : matchAt (t ++ R) with
  | none => rfl
  | some m =>
    exfalso
    obtain ⟨n, post, hn, hl, -⟩ := matchAt_some hm
    rcases List.append_eq_append_iff.1 hl with ⟨a', h1, h2⟩ | ⟨c', h1, h2⟩
    · -- the placeholder reaches into `R`
      rcases hR with rfl | ⟨x, rfl⟩
      · have ha : a' = [] := by
          cases a' with
          | nil => rfl
          | cons _ _ => simp at h2
        subst ha
        exact ht [] n [] hn (by simpa using h1.symm)
      · cases a' with
        | nil => exact ht [] n [] hn (by simpa using h1.symm)
        | cons a0 a' =>
          have hmem : '$' ∈ a0 :: a' := by
            simp only [List.cons_append, List.cons.injEq] at h2
            rw [← h2.1]
            exact List.mem_cons_self _ _
          cases t with
          | nil => exact hne rfl
          | cons t0 t' =>
            have h1' : placeholder n = t0 :: (t' ++ (a0 :: a')) := by simpa using h1
            simp only [placeholder, List.cons.injEq] at h1'
            have hmem2 : '$' ∈ t' ++ a0 :: a' := List.mem_append_right _ hmem
            rw [← h1'.2] at hmem2
            simp only [List.mem_cons, List.mem_append, List.mem_singleton] at hmem2
            rcases hmem2 with h | h | h
            · exact absurd h (by decide)
            · have := hn.2 _ h
              rw [isNameChar_dollar] at this
              cases this
            · exact absurd h (by decide)
    · exact ht [] n c' hn (by simpa using h1)

theorem replaceAll_text (rt : GoRuntime) (w : World) (hasDefault : Bool) (d : String) :
    ∀ (t : List Char), NoPlaceholder t → ∀ (R : List Char), (R = [] ∨ ∃ x, R = '$' :: x) →
      ∀ err, replaceAll rt w hasDefault d 0 (t ++ R) err =
        (t ++ (replaceAll rt w hasDefault d 0 R err).1,
          (replaceAll rt w hasDefault d 0 R err).2)
  | [], _, R, _, err => by simp
  | c :: t, ht, R, hR, err => by
    have hm := matchAt_text ht (by simp) hR
    simp only [List.cons_append] at hm ⊢
    rw [replaceAll]
    simp only [hm]
    rw [replaceAll_text rt w hasDefault d t (NoPlaceholder_tail ht) R hR err]


/-! ## The expander `_env` -/

theorem replaceMatch_placeholder (rt : GoRuntime) (w : World) (hasDefault : Bool) (d : String)
    (n : List Char) (err : Option String) :
    replaceMatch rt w hasDefault d (placeholder n) err =
      if placeholderValue rt w (String.mk n) = "" then
        if hasDefault = true then (d, err)
        else ("", some ("couldn't expand environment variable " ++ rt.quote (String.mk n)))
      else (placeholderValue rt w (String.mk n), err) := by
  have hv : ((placeholder n).drop 2).dropLast = n := by
    simp [placeholder, List.dropLast_concat]
  unfold replaceMatch placeholderValue
  simp only [hv]
  by_cases h1 : (if Getenv w (String.mk n) = "" ∧ String.mk n = "USER" ∧ rt.windows = true
      then Getenv w "USERNAME" else Getenv w (String.mk n)) = ""
  · simp [h1]
  · simp [h1]

/-- The replacement of a placeholder, given the value of its variable. -/
theorem replaceAll_assemble (rt : GoRuntime) (w : World) (hasDefault : Bool) (d : String) :
    ∀ (ps : List (List Char × List Char)) (t0 : List Char) (err : Option String),
      (∀ p ∈ ps, isName p.1 ∧ NoPlaceholder p.2) → NoPlaceholder t0 →
      replaceAll rt w hasDefault d 0 (assemble t0 ps) err =
        (substitute (fun name => if placeholderValue rt w name = "" then
            (if hasDefault = true then d else "") else placeholderValue rt w name) t0 ps,
          ps.foldl (fun e p => if placeholderValue rt w (String.mk p.1) = "" ∧ hasDefault = false
            then some ("couldn't expand environment variable " ++ rt.quote (String.mk p.1))
            else e) err)
  | [], t0, err, _, ht0 => by
    have := replaceAll_text rt w hasDefault d t0 ht0 [] (Or.inl rfl) err
    simpa [assemble, substitute, replaceAll] using this
  | p :: ps, t0, err, hps, ht0 => by
    have hp := hps p (List.mem_cons_self _ _)
    have hrest : ∀ q ∈ ps, isName q.1 ∧ NoPlaceholder q.2 :=
      fun q hq => hps q (List.mem_cons_of_mem _ hq)
    have ha : assemble t0 (p :: ps) = t0 ++ (placeholder p.1 ++ assemble p.2 ps) := by
      simp [assemble]
    have hR : placeholder p.1 ++ assemble p.2 ps = [] ∨
        ∃ x, placeholder p.1 ++ assemble p.2 ps = '$' :: x :=
      Or.inr ⟨('{' :: (p.1 ++ ['}'])) ++ assemble p.2 ps, rfl⟩
    rw [ha, replaceAll_text rt w hasDefault d t0 ht0 _ hR,
      replaceAll_placeholder rt w hasDefault d hp.1,
      replaceAll_assemble rt w hasDefault d ps p.2 _ hrest hp.2,
      replaceMatch_placeholder]
    by_cases hv : placeholderValue rt w (String.mk p.1) = ""
    · cases hasDefault <;> simp [hv, substitute]
    · simp [hv, substitute]

theorem foldl_keep {α : Type} (f : Option String → α → Option String) (err : Option String) :
    ∀ ps : List α, (∀ p ∈ ps, ∀ e, f e p = e) → ps.foldl f err = err
  | [], _ => rfl
  | p :: ps, h => by
    rw [List.foldl_cons, h p (List.mem_cons_self _ _)]
    exact foldl_keep f err ps fun q hq => h q (List.mem_cons_of_mem _ hq)

/-- The expander on a pattern given in pieces. -/
theorem env_expansion_pieces (rt : GoRuntime) (w : World) (t0 : List Char)
    (ps : List (List Char × List Char))
    (hps : ∀ p ∈ ps, isName p.1 ∧ NoPlaceholder p.2) (ht0 : NoPlaceholder t0) :
    (∀ d, ConfigParser.expandEnv rt w [.str (String.mk (assemble t0 ps)), .str d] =
      .ok (.str (String.mk (substitute (fun name =>
        if placeholderValue rt w name = "" then d else placeholderValue rt w name) t0 ps)))) ∧
    ((∀ p ∈ ps, placeholderValue rt w (String.mk p.1) ≠ "") →
      ConfigParser.expandEnv rt w [.str (String.mk (assemble t0 ps))] =
        .ok (.str (String.mk (substitute (placeholderValue rt w) t0 ps)))) ∧
    (∀ ps1 q ps2, ps = ps1 ++ q :: ps2 → placeholderValue rt w (String.mk q.1) = "" →
      (∀ p ∈ ps2, placeholderValue rt w (String.mk p.1) ≠ "") →
      ConfigParser.expandEnv rt w [.str (String.mk (assemble t0 ps))] =
        .error ("couldn't expand environment variable " ++ rt.quote (String.mk q.1))) := by
  refine ⟨fun d => ?_, fun hall => ?_, fun ps1 q ps2 hsplit hq hall => ?_⟩
  · have h := replaceAll_assemble rt w true d ps t0 none hps ht0
    rw [foldl_keep _ none ps (fun p _ e => by simp)] at h
    simp [ConfigParser.expandEnv, h]
  · have h := replaceAll_assemble rt w false "" ps t0 none hps ht0
    rw [foldl_keep _ none ps (fun p hp e => by simp [hall p hp])] at h
    have hval : (fun name => if placeholderValue rt w name = "" then
        (if false = true then "" else "") else placeholderValue rt w name) =
        placeholderValue rt w := by
      funext name
      by_cases hv : placeholderValue rt w name = "" <;> simp [hv]
    rw [hval] at h
    simp [ConfigParser.expandEnv, h]
  · have h := replaceAll_assemble rt w false "" ps t0 none hps ht0
    rw [hsplit, List.foldl_append, List.foldl_cons] at h
    simp only [hq, and_self, if_true] at h
    rw [foldl_keep _ _ ps2 (fun p hp e => by simp [hall p hp])] at h
    rw [← hsplit] at h
    simp [ConfigParser.expandEnv, h]


theorem NoPlaceholder_of_minimal {s pre n post : List Char}
    (hs : s = pre ++ (placeholder n ++ post))
    (hmin : ∀ pre' n' post', isName n' → s = pre' ++ (placeholder n' ++ post') →
      pre.length ≤ pre'.length) : NoPlaceholder pre := by
  intro pre' n' post' hn' he
  have := hmin pre' n' (post' ++ (placeholder n ++ post)) hn' (by rw [hs, he]; simp)
  rw [he] at this
  simp [placeholder] at this

/-- Every text is literal texts without placeholder alternating with
placeholders. -/
theorem pattern_pieces : ∀ (k : Nat) (s : List Char), s.length ≤ k →
    ∃ t0 ps, (∀ p ∈ ps, isName p.1 ∧ NoPlaceholder p.2) ∧ NoPlaceholder t0 ∧
      s = assemble t0 ps
  | 0, s, hk => by
    have : s = [] := List.eq_nil_of_length_eq_zero (by omega)
    subst this
    refine ⟨[], [], by simp, ?_, by simp [assemble]⟩
    intro pre n post _ he
    have := congrArg List.length he
    simp [placeholder] at this
    omega
  | k + 1, s, hk => by
    by_cases hno : NoPlaceholder s
    · exact ⟨s, [], by simp, hno, by simp [assemble]⟩
    · have hex : ∃ m, ∃ pre n post, isName n ∧ s = pre ++ (placeholder n ++ post) ∧
          pre.length = m := by
        unfold NoPlaceholder at hno
        push_neg at hno
        obtain ⟨pre, n, post, hn, he⟩ := hno
        exact ⟨pre.length, pre, n, post, hn, he, rfl⟩
      classical
      obtain ⟨pre, n, post, hn, he, hlen⟩ := Nat.find_spec hex
      have hmin : ∀ pre' n' post', isName n' → s = pre' ++ (placeholder n' ++ post') →
          pre.length ≤ pre'.length := by
        intro pre' n' post' hn' he'
        rw [hlen]
        exact Nat.find_min' hex ⟨pre', n', post', hn', he', rfl⟩
      have hpost : post.length ≤ k := by
        have := congrArg List.length he
        simp [placeholder] at this
        omega
      obtain ⟨t1, ps, hps, ht1, hp⟩ := pattern_pieces k post hpost
      refine ⟨pre, (n, t1) :: ps, ?_, NoPlaceholder_of_minimal he hmin, ?_⟩
      · intro p hp'
        rcases List.mem_cons.1 hp' with rfl | hp'
        · exact ⟨hn, ht1⟩
        · exact hps p hp'
      · rw [he, hp]
        simp [assemble]

/-- C7, as the code has it.  Every pattern string is literal texts that
contain no placeholder, alternating with placeholders `${NAME}`.  The value of
a placeholder is the value of its variable in the environment, empty if the
variable is not set, except that on Windows an empty `USER` takes the value of
`USERNAME`.  With a String default `d` the expander never fails: it returns the
literal texts unchanged, with each placeholder whose value is empty replaced by
`d` and every other placeholder by its value.  Without a default it returns
the literal texts with each placeholder replaced by its value when no value is
empty, and otherwise fails with an error naming the last placeholder whose
value is empty. -/
theorem env_expansion (rt : GoRuntime) (w : World) (s : String) :
    ∃ (t0 : List Char) (ps : List (List Char × List Char)),
      (∀ p ∈ ps, isName p.1 ∧ NoPlaceholder p.2) ∧ NoPlaceholder t0 ∧
      s.data = assemble t0 ps ∧
      (∀ d, ConfigParser.expandEnv rt w [.str s, .str d] =
        .ok (.str (String.mk (substitute (fun name =>
          if placeholderValue rt w name = "" then d else placeholderValue rt w name) t0 ps)))) ∧
      ((∀ p ∈ ps, placeholderValue rt w (String.mk p.1) ≠ "") →
        ConfigParser.expandEnv rt w [.str s] =
          .ok (.str (String.mk (substitute (placeholderValue rt w) t0 ps)))) ∧
      (∀ ps1 q ps2, ps = ps1 ++ q :: ps2 → placeholderValue rt w (String.mk q.1) = "" →
        (∀ p ∈ ps2, placeholderValue rt w (String.mk p.1) ≠ "") →
        ConfigParser.expandEnv rt w [.str s] =
          .error ("couldn't expand environment variable " ++ rt.quote (String.mk q.1))) := by
  obtain ⟨t0, ps, hps, ht0, hs⟩ := pattern_pieces s.data.length s.data (le_refl _)
  have hs' : s = String.mk (assemble t0 ps) := by
    rw [← hs]
  have h := env_expansion_pieces rt w t0 ps hps ht0
  rw [← hs'] at h
  exact ⟨t0, ps, hps, ht0, hs, h⟩

/-- C7 fails as stated, on a variable that is set to the empty string: with
the default `"d"` the placeholder is replaced by the default and not by the
value of the variable, and without a default the expansion fails although the
variable is set.  On Windows an unset `USER` does not fail either. -/
theorem env_expansion_counterexample :
    ConfigParser.expandEnv linux64
      { files := [], openError := id, abs := some, findInclude := some,
        env := fun n => if n = "X" then some "" else none }
      [.str "${X}", .str "d"] = .ok (.str "d") ∧
    ConfigParser.expandEnv linux64
      { files := [], openError := id, abs := some, findInclude := some,
        env := fun n => if n = "X" then some "" else none }
      [.str "${X}"] = .error "couldn't expand environment variable \"X\"" ∧
    ConfigParser.expandEnv windows64
      { files := [], openError := id, abs := some, findInclude := some,
        env := fun n => if n = "USERNAME" then some "me" else none }
      [.str "${USER}"] = .ok (.str "me") :=
  ⟨rfl, rfl, rfl⟩

theorem env_expansion_witness :
    ∃ (t0 : List Char) (ps : List (List Char × List Char)),
      (∀ p ∈ ps, isName p.1 ∧ NoPlaceholder p.2) ∧ NoPlaceholder t0 ∧
      ("a${TEST_BAR}b" : String).data = assemble t0 ps ∧
      (∀ d, ConfigParser.expandEnv linux64 loopWorld [.str "a${TEST_BAR}b", .str d] =
        .ok (.str (String.mk (substitute (fun name =>
          if placeholderValue linux64 loopWorld name = "" then d
          else placeholderValue linux64 loopWorld name) t0 ps)))) ∧
      ((∀ p ∈ ps, placeholderValue linux64 loopWorld (String.mk p.1) ≠ "") →
        ConfigParser.expandEnv linux64 loopWorld [.str "a${TEST_BAR}b"] =
          .ok (.str (String.mk (substitute (placeholderValue linux64 loopWorld) t0 ps)))) ∧
      (∀ ps1 q ps2, ps = ps1 ++ q :: ps2 →
        placeholderValue linux64 loopWorld (String.mk q.1) = "" →
        (∀ p ∈ ps2, placeholderValue linux64 loopWorld (String.mk p.1) ≠ "") →
        ConfigParser.expandEnv linux64 loopWorld [.str "a${TEST_BAR}b"] =
          .error ("couldn't expand environment variable " ++
            linux64.quote (String.mk q.1))) :=
  env_expansion linux64 loopWorld "a${TEST_BAR}b"


/-! ## The expander `_env` with a Boolean default -/

theorem replaceMatch_default (rt : GoRuntime) (w : World) (d : String) (m : List Char)
    (err : Option String) : (replaceMatch rt w true d m err).2 = err := by
  unfold replaceMatch
  simp only [if_true]
  split <;> split <;> rfl

theorem replaceAll_default (rt : GoRuntime) (w : World) (d : String) :
    ∀ (l : List Char) (k : Nat) (err : Option String),
      (replaceAll rt w true d k l err).2 = err
  | [], k, err => by cases k <;> rfl
  | c :: l, k + 1, err => by
    rw [replaceAll]
    exact replaceAll_default rt w d l k err
  | c :: l, 0, err => by
    rw [replaceAll]
    split
    · simp only
      rw [replaceAll_default rt w d l _ _, replaceMatch_default]
    · simp only
      exact replaceAll_default rt w d l 0 err

theorem NoPlaceholder_nil : NoPlaceholder [] := by
  intro pre m post _ he
  have := congrArg List.length he
  simp [placeholder] at this
  omega

theorem expandEnv_string_default (rt : GoRuntime) (w : World) (s d : String) :
    ConfigParser.expandEnv rt w [.str s, .str d] =
      .ok (.str (String.mk (replaceAll rt w true d 0 s.data none).1)) := by
  have h := replaceAll_default rt w d s.data 0 none
  unfold ConfigParser.expandEnv
  simp only [List.length_cons, List.length_nil]
  rw [if_neg (by decide)]
  split
  · rename_i expanded heq
    rw [heq]
  · rename_i e heq
    rw [heq] at h
    cases h

theorem expandEnv_bool_default (rt : GoRuntime) (w : World) (s : String) (b : Bool) :
    ConfigParser.expandEnv rt w [.str s, .bool b] =
      if String.mk (replaceAll rt w true "" 0 s.data none).1 = "" then .ok (.bool b)
      else match ParseBool (String.mk (replaceAll rt w true "" 0 s.data none).1) with
        | some v => .ok (.bool v)
        | none => .error (parseBoolError rt (String.mk (replaceAll rt w true "" 0 s.data none).1))
      := by
  unfold ConfigParser.expandEnv
  simp only [List.length_cons, List.length_nil]
  rw [if_neg (by decide)]

theorem ParseBool_true (e : String)
    (h : e = "1" ∨ e = "t" ∨ e = "T" ∨ e = "TRUE" ∨ e = "true" ∨ e = "True") :
    ParseBool e = some true := by
  unfold ParseBool
  rw [if_pos h]

theorem ParseBool_false (e : String)
    (h : e = "0" ∨ e = "f" ∨ e = "F" ∨ e = "FALSE" ∨ e = "false" ∨ e = "False") :
    ParseBool e = some false := by
  unfold ParseBool
  rw [if_neg, if_pos h]
  rcases h with h | h | h | h | h | h <;> subst h <;> decide

theorem ParseBool_other (e : String)
    (ht : ¬ (e = "1" ∨ e = "t" ∨ e = "T" ∨ e = "TRUE" ∨ e = "true" ∨ e = "True"))
    (hf : ¬ (e = "0" ∨ e = "f" ∨ e = "F" ∨ e = "FALSE" ∨ e = "false" ∨ e = "False")) :
    ParseBool e = none := by
  unfold ParseBool
  rw [if_neg ht, if_neg hf]

/-- C8, as the code has it.  With a Boolean default `b` the expander first
substitutes as it does with the String default `""`, so a placeholder whose
value is empty leaves nothing.  When the substituted string `e` is empty it
returns `b` unchanged; otherwise it parses `e` with `strconv.ParseBool`:
exactly `1`, `t`, `T`, `TRUE`, `true`, `True` give true, exactly `0`, `f`, `F`,
`FALSE`, `false`, `False` give false, and any other string is an error.  In
particular the pattern that is one placeholder yields `b` when the value of
its variable is empty, true when it is `1` and false when it is `0`. -/
theorem env_bool_expansion (rt : GoRuntime) (w : World) (s : String) (b : Bool) :
    (∃ e, ConfigParser.expandEnv rt w [.str s, .str ""] = .ok (.str e) ∧
      (e = "" → ConfigParser.expandEnv rt w [.str s, .bool b] = .ok (.bool b)) ∧
      (e = "1" ∨ e = "t" ∨ e = "T" ∨ e = "TRUE" ∨ e = "true" ∨ e = "True" →
        ConfigParser.expandEnv rt w [.str s, .bool b] = .ok (.bool true)) ∧
      (e = "0" ∨ e = "f" ∨ e = "F" ∨ e = "FALSE" ∨ e = "false" ∨ e = "False" →
        ConfigParser.expandEnv rt w [.str s, .bool b] = .ok (.bool false)) ∧
      (e ≠ "" →
        ¬ (e = "1" ∨ e = "t" ∨ e = "T" ∨ e = "TRUE" ∨ e = "true" ∨ e = "True") →
        ¬ (e = "0" ∨ e = "f" ∨ e = "F" ∨ e = "FALSE" ∨ e = "false" ∨ e = "False") →
        ConfigParser.expandEnv rt w [.str s, .bool b] = .error (parseBoolError rt e))) ∧
    (∀ n : List Char, isName n → s = String.mk (placeholder n) →
      (placeholderValue rt w (String.mk n) = "" →
        ConfigParser.expandEnv rt w [.str s, .bool b] = .ok (.bool b)) ∧
      (placeholderValue rt w (String.mk n) = "1" →
        ConfigParser.expandEnv rt w [.str s, .bool b] = .ok (.bool true)) ∧
      (placeholderValue rt w (String.mk n) = "0" →
        ConfigParser.expandEnv rt w [.str s, .bool b] = .ok (.bool false))) := by
  have hb := expandEnv_bool_default rt w s b
  constructor
  · refine ⟨_, expandEnv_string_default rt w s "", fun he => ?_, fun ht => ?_, fun hf => ?_,
      fun hne ht hf => ?_⟩
    · rw [hb, if_pos he]
    · have hne : String.mk (replaceAll rt w true "" 0 s.data none).1 ≠ "" := by
        rcases ht with h | h | h | h | h | h <;> rw [h] <;> decide
      rw [hb, if_neg hne, ParseBool_true _ ht]
    · have hne : String.mk (replaceAll rt w true "" 0 s.data none).1 ≠ "" := by
        rcases hf with h | h | h | h | h | h <;> rw [h] <;> decide
      rw [hb, if_neg hne, ParseBool_false _ hf]
    · rw [hb, if_neg hne, ParseBool_other _ ht hf]
  · intro n hn hs
    have hp : s.data = assemble [] [(n, [])] := by
      rw [hs]; simp [assemble]
    have hr := replaceAll_assemble rt w true "" [(n, [])] [] none
      (by
        intro p hp'
        rw [List.mem_singleton.1 hp']
        exact ⟨hn, NoPlaceholder_nil⟩)
      NoPlaceholder_nil
    rw [← hp] at hr
    have he : String.mk (replaceAll rt w true "" 0 s.data none).1 =
        placeholderValue rt w (String.mk n) := by
      rw [hr]
      by_cases hv : placeholderValue rt w (String.mk n) = ""
      · simp [substitute, hv]
      · simp [substitute, hv]
    rw [he] at hb
    refine ⟨fun hv => ?_, fun hv => ?_, fun hv => ?_⟩
    · rw [hb, if_pos hv]
    · rw [hb, hv]; rfl
    · rw [hb, hv]; rfl

/-- C8 fails as stated.  With the variable unset and literal text around the
placeholder, the Boolean default is not returned: the text that is left is
parsed, and fails.  And the parse is not case-insensitive: a variable set to
`tRUE` is an error. -/
theorem env_bool_counterexample :
    ConfigParser.expandEnv linux64
      { files := [], openError := id, abs := some, findInclude := some, env := fun _ => none }
      [.str "x${V}", .bool true] =
        .error "strconv.ParseBool: parsing \"x\": invalid syntax" ∧
    ConfigParser.expandEnv linux64
      { files := [], openError := id, abs := some, findInclude := some,
        env := fun n => if n = "V" then some "tRUE" else none }
      [.str "${V}", .bool false] =
        .error "strconv.ParseBool: parsing \"tRUE\": invalid syntax" :=
  ⟨rfl, rfl⟩


/-! ## The walk keeps what the loader keeps -/

theorem expandFile_pres (w : World) {rd : Reader} {I : ConfigParser → Prop}
    (hrd : ∀ p c, I c → I (rd p c).1) (v : List Value) (c : ConfigParser) (h : I c) :
    I (ConfigParser.expandFile w rd v c).1 := by
  unfold ConfigParser.expandFile
  split
  · exact h
  · split
    · split
      · exact h
      · rename_i incPath _
        have := hrd incPath c h
        split <;> rename_i heq <;> rw [heq] at this
        · exact this
        · split <;> exact this
        · exact this
        · exact this
    · exact h

mutual
theorem evalValue_pres (rt : GoRuntime) (w : World) {rd : Reader} {I : ConfigParser → Prop}
    (hrd : ∀ p c, I c → I (rd p c).1) :
    ∀ (v : Value) (c : ConfigParser), I c → I (ConfigParser.evalValue rt w rd v c).1
  | .list [], c, h => by simpa [ConfigParser.evalValue] using h
  | .list (first :: more), c, h => by
    rw [ConfigParser.evalValue]
    split
    · exact h
    · exact expandFile_pres w hrd more c h
    · have := evalElems_pres rt w hrd (first :: more) c h
      split <;> rename_i heq <;> rw [heq] at this <;> exact this
  | .null, c, h => by simpa [ConfigParser.evalValue] using h
  | .bool _, c, h => by simpa [ConfigParser.evalValue] using h
  | .number _, c, h => by simpa [ConfigParser.evalValue] using h
  | .str _, c, h => by simpa [ConfigParser.evalValue] using h
  | .object _, c, h => by simpa [ConfigParser.evalValue] using h
  | .knownKeys _, c, h => by simpa [ConfigParser.evalValue] using h
  | .errors _, c, h => by simpa [ConfigParser.evalValue] using h
theorem evalElems_pres (rt : GoRuntime) (w : World) {rd : Reader} {I : ConfigParser → Prop}
    (hrd : ∀ p c, I c → I (rd p c).1) :
    ∀ (l : List Value) (c : ConfigParser), I c → I (ConfigParser.evalElems rt w rd l c).1
  | [], c, h => by simpa [ConfigParser.evalElems] using h
  | oldval :: rest, c, h => by
    rw [ConfigParser.evalElems]
    have := evalValue_pres rt w hrd oldval c h
    split <;> rename_i heq <;> rw [heq] at this
    · exact evalElems_pres rt w hrd rest _ this
    · exact this
    · exact this
    · exact this
end

mutual
theorem evaluateEntry_pres (rt : GoRuntime) (w : World) {rd : Reader} {I : ConfigParser → Prop}
    (hrd : ∀ p c, I c → I (rd p c).1) (testOnly : Bool) :
    ∀ (ei : Value) (k : String) (seenKeys : List String) (c : ConfigParser), I c →
      I (ConfigParser.evaluateEntry rt w rd testOnly ei k seenKeys c).1
  | .list [], k, seenKeys, c, h => by simpa [ConfigParser.evaluateEntry] using h
  | .list (x :: xs), k, seenKeys, c, h => by
    rw [ConfigParser.evaluateEntry]
    have := evalValue_pres rt w hrd (.list (x :: xs)) c h
    split <;> rename_i heq <;> rw [heq] at this <;> exact this
  | .object subval, k, seenKeys, c, h => by
    rw [ConfigParser.evaluateEntry]
    exact evaluateExpressions_pres rt w hrd testOnly subval (seenKeys ++ [k]) c h
  | .null, k, seenKeys, c, h => by simpa [ConfigParser.evaluateEntry] using h
  | .bool _, k, seenKeys, c, h => by simpa [ConfigParser.evaluateEntry] using h
  | .number _, k, seenKeys, c, h => by simpa [ConfigParser.evaluateEntry] using h
  | .str _, k, seenKeys, c, h => by simpa [ConfigParser.evaluateEntry] using h
  | .knownKeys _, k, seenKeys, c, h => by simpa [ConfigParser.evaluateEntry] using h
  | .errors _, k, seenKeys, c, h => by simpa [ConfigParser.evaluateEntry] using h
theorem evaluateExpressions_pres (rt : GoRuntime) (w : World) {rd : Reader}
    {I : ConfigParser → Prop} (hrd : ∀ p c, I c → I (rd p c).1) (testOnly : Bool) :
    ∀ (m : Obj) (seenKeys : List String) (c : ConfigParser), I c →
      I (ConfigParser.evaluateExpressions rt w rd testOnly m seenKeys c).1
  | [], seenKeys, c, h => by simpa [ConfigParser.evaluateExpressions] using h
  | (k, ei) :: rest, seenKeys, c, h => by
    rw [ConfigParser.evaluateExpressions]
    have := evaluateEntry_pres rt w hrd testOnly ei k seenKeys c h
    split <;> rename_i heq <;> rw [heq] at this
    · exact evaluateExpressions_pres rt w hrd testOnly rest seenKeys _ this
    · exact this
    · exact this
    · exact this
end

/-- What a load keeps: the include stack is as before, and a set of touched
files stays a set and loses no file. -/
theorem recursiveReadJSON_keeps (rt : GoRuntime) (w : World) :
    ∀ (fuel : Nat) (p : String) (c : ConfigParser),
      (ConfigParser.recursiveReadJSON rt w fuel p c).1.includeStack = c.includeStack ∧
      ∀ t, c.touchedFiles = some t →
        ∃ t', (ConfigParser.recursiveReadJSON rt w fuel p c).1.touchedFiles = some t' ∧ t ⊆ t'
  | 0, p, c => by
    rw [ConfigParser.recursiveReadJSON]
    exact ⟨rfl, fun t ht => ⟨t, ht, List.Subset.refl _⟩⟩
  | fuel + 1, p, c => by
    rw [ConfigParser.recursiveReadJSON]
    split
    · exact ⟨rfl, fun t ht => ⟨t, ht, List.Subset.refl _⟩⟩
    · rename_i a _
      split
      · exact ⟨rfl, fun t ht => ⟨t, ht, List.Subset.refl _⟩⟩
      · rename_i touched htouched
        split
        · exact ⟨rfl, fun t ht => ⟨t, ht, List.Subset.refl _⟩⟩
        · -- the state between the push and the pop
          have key : ∀ r : ConfigParser × Outcome Obj,
              (r.1.includeStack = c.includeStack ++ [a] ∧
                ∃ t', r.1.touchedFiles = some t' ∧ (a :: touched) ⊆ t') →
              ({ r.1 with includeStack := r.1.includeStack.dropLast } : ConfigParser).includeStack
                = c.includeStack ∧
              ∀ t, c.touchedFiles = some t →
                ∃ t', ({ r.1 with includeStack := r.1.includeStack.dropLast } :
                  ConfigParser).touchedFiles = some t' ∧ t ⊆ t' := by
            rintro r ⟨hs, t', ht', hsub⟩
            refine ⟨by simp [hs], fun t ht => ⟨t', ht', ?_⟩⟩
            rw [htouched] at ht
            injection ht with ht
            subst ht
            exact fun x hx => hsub (List.mem_cons_of_mem _ hx)
          apply key
          split
          · exact ⟨rfl, _, rfl, List.Subset.refl _⟩
          · exact ⟨rfl, _, rfl, List.Subset.refl _⟩
          · rename_i decodedObject _
            have hI := @evaluateExpressions_pres rt w (ConfigParser.recursiveReadJSON rt w fuel)
              (fun c' => c'.includeStack = c.includeStack ++ [a] ∧
                ∃ t', c'.touchedFiles = some t' ∧ (a :: touched) ⊆ t')
              (fun q c' hc' => by
                obtain ⟨hs, t', ht', hsub⟩ := hc'
                obtain ⟨ks, kt⟩ := recursiveReadJSON_keeps rt w fuel q c'
                obtain ⟨t'', ht'', hsub'⟩ := kt t' ht'
                exact ⟨by rw [ks, hs], t'', ht'', fun x hx => hsub' (hsub hx)⟩)
              false decodedObject []
              { touchedFiles := some (a :: touched), includeStack := c.includeStack ++ [a] }
              ⟨rfl, _, rfl, List.Subset.refl _⟩
            split <;> rename_i heq <;> rw [heq] at hI <;> exact hI

/-! ## The recursion budget is never used up -/

theorem expandEnv_ne_outOfFuel (rt : GoRuntime) (w : World) (v : List Value) :
    ConfigParser.expandEnv rt w v ≠ .outOfFuel := by
  unfold ConfigParser.expandEnv
  repeat' split
  all_goals first | (simp; done) | (simp only []; repeat' split) <;> simp

theorem expandFile_fuel (w : World) {rd : Reader} {I : ConfigParser → Prop}
    (hfuel : ∀ p c, I c → (rd p c).2 ≠ .outOfFuel) (v : List Value) (c : ConfigParser)
    (h : I c) : (ConfigParser.expandFile w rd v c).2 ≠ .outOfFuel := by
  unfold ConfigParser.expandFile
  split
  · simp
  · split
    · split
      · simp
      · rename_i incPath _
        have := hfuel incPath c h
        split <;> rename_i heq <;> rw [heq] at this
        · simp
        · split <;> simp
        · simp
        · exact absurd rfl this
    · simp

mutual
theorem evalValue_fuel (rt : GoRuntime) (w : World) {rd : Reader} {I : ConfigParser → Prop}
    (hrd : ∀ p c, I c → I (rd p c).1) (hfuel : ∀ p c, I c → (rd p c).2 ≠ .outOfFuel) :
    ∀ (v : Value) (c : ConfigParser), I c →
      (ConfigParser.evalValue rt w rd v c).2.2 ≠ .outOfFuel
  | .list [], c, h => by simp [ConfigParser.evalValue]
  | .list (first :: more), c, h => by
    rw [ConfigParser.evalValue]
    split
    · exact expandEnv_ne_outOfFuel rt w more
    · exact expandFile_fuel w hfuel more c h
    · have := evalElems_fuel rt w hrd hfuel (first :: more) c h
      split <;> rename_i heq <;> rw [heq] at this
      · simp
      · simp
      · simp
      · exact absurd rfl this
  | .null, c, h => by simp [ConfigParser.evalValue]
  | .bool _, c, h => by simp [ConfigParser.evalValue]
  | .number _, c, h => by simp [ConfigParser.evalValue]
  | .str _, c, h => by simp [ConfigParser.evalValue]
  | .object _, c, h => by simp [ConfigParser.evalValue]
  | .knownKeys _, c, h => by simp [ConfigParser.evalValue]
  | .errors _, c, h => by simp [ConfigParser.evalValue]
theorem evalElems_fuel (rt : GoRuntime) (w : World) {rd : Reader} {I : ConfigParser → Prop}
    (hrd : ∀ p c, I c → I (rd p c).1) (hfuel : ∀ p c, I c → (rd p c).2 ≠ .outOfFuel) :
    ∀ (l : List Value) (c : ConfigParser), I c →
      (ConfigParser.evalElems rt w rd l c).2.2 ≠ .outOfFuel
  | [], c, h => by simp [ConfigParser.evalElems]
  | oldval :: rest, c, h => by
    rw [ConfigParser.evalElems]
    have := evalValue_fuel rt w hrd hfuel oldval c h
    have hI := evalValue_pres rt w hrd oldval c h
    split <;> rename_i heq <;> rw [heq] at this hI
    · exact evalElems_fuel rt w hrd hfuel rest _ hI
    · simp
    · simp
    · exact absurd rfl this
end

mutual
theorem evaluateEntry_fuel (rt : GoRuntime) (w : World) {rd : Reader} {I : ConfigParser → Prop}
    (hrd : ∀ p c, I c → I (rd p c).1) (hfuel : ∀ p c, I c → (rd p c).2 ≠ .outOfFuel)
    (testOnly : Bool) :
    ∀ (ei : Value) (k : String) (seenKeys : List String) (c : ConfigParser), I c →
      (ConfigParser.evaluateEntry rt w rd testOnly ei k seenKeys c).2.2 ≠ .outOfFuel
  | .list [], k, seenKeys, c, h => by simp [ConfigParser.evaluateEntry]
  | .list (x :: xs), k, seenKeys, c, h => by
    rw [ConfigParser.evaluateEntry]
    have := evalValue_fuel rt w hrd hfuel (.list (x :: xs)) c h
    split <;> rename_i heq <;> rw [heq] at this
    · simp
    · simp
    · simp
    · exact absurd rfl this
  | .object subval, k, seenKeys, c, h => by
    rw [ConfigParser.evaluateEntry]
    exact evaluateExpressions_fuel rt w hrd hfuel testOnly subval (seenKeys ++ [k]) c h
  | .null, k, seenKeys, c, h => by simp [ConfigParser.evaluateEntry]
  | .bool _, k, seenKeys, c, h => by simp [ConfigParser.evaluateEntry]
  | .number _, k, seenKeys, c, h => by simp [ConfigParser.evaluateEntry]
  | .str _, k, seenKeys, c, h => by simp [ConfigParser.evaluateEntry]
  | .knownKeys _, k, seenKeys, c, h => by simp [ConfigParser.evaluateEntry]
  | .errors _, k, seenKeys, c, h => by simp [ConfigParser.evaluateEntry]
theorem evaluateExpressions_fuel (rt : GoRuntime) (w : World) {rd : Reader}
    {I : ConfigParser → Prop} (hrd : ∀ p c, I c → I (rd p c).1)
    (hfuel : ∀ p c, I c → (rd p c).2 ≠ .outOfFuel) (testOnly : Bool) :
    ∀ (m : Obj) (seenKeys : List String) (c : ConfigParser), I c →
      (ConfigParser.evaluateExpressions rt w rd testOnly m seenKeys c).2.2 ≠ .outOfFuel
  | [], seenKeys, c, h => by simp [ConfigParser.evaluateExpressions]
  | (k, ei) :: rest, seenKeys, c, h => by
    rw [ConfigParser.evaluateExpressions]
    have := evaluateEntry_fuel rt w hrd hfuel testOnly ei k seenKeys c h
    have hI := evaluateEntry_pres rt w hrd testOnly ei k seenKeys c h
    split <;> rename_i heq <;> rw [heq] at this hI
    · exact evaluateExpressions_fuel rt w hrd hfuel testOnly rest seenKeys _ hI
    · simp
    · simp
    · exact absurd rfl this
end

theorem untouched_mono (w : World) {t t' : List String} (h : t ⊆ t') :
    untouched w t' ≤ untouched w t := by
  unfold untouched
  apply List.countP_mono_left
  intro f _ hf
  split at hf
  · rename_i a ha
    simp only [Bool.not_eq_true', decide_eq_false_iff_not] at hf ⊢
    exact fun hm => hf (h hm)
  · cases hf

theorem countP_lt_of_witness {α : Type} (p q : α → Bool) :
    ∀ (l : List α), (∀ x ∈ l, p x = true → q x = true) →
      (∃ x ∈ l, q x = true ∧ p x = false) → l.countP p < l.countP q
  | [], _, h => by
    obtain ⟨x, hx, _⟩ := h
    cases hx
  | y :: l, hpq, hex => by
    have hmono : l.countP p ≤ l.countP q :=
      List.countP_mono_left fun x hx => hpq x (List.mem_cons_of_mem _ hx)
    obtain ⟨x, hx, hqx, hpx⟩ := hex
    rcases List.mem_cons.1 hx with rfl | hx
    · rw [List.countP_cons_of_pos _ _ hqx, List.countP_cons_of_neg _ _ (by simp [hpx])]
      omega
    · have ih := countP_lt_of_witness p q l
        (fun z hz => hpq z (List.mem_cons_of_mem _ hz)) ⟨x, hx, hqx, hpx⟩
      by_cases hpy : p y = true
      · rw [List.countP_cons_of_pos _ _ hpy,
          List.countP_cons_of_pos _ _ (hpq y (List.mem_cons_self _ _) hpy)]
        omega
      · rw [List.countP_cons_of_neg _ _ hpy]
        by_cases hqy : q y = true
        · rw [List.countP_cons_of_pos _ _ hqy]; omega
        · rw [List.countP_cons_of_neg _ _ hqy]; exact ih

theorem mem_of_lookup {β : Type} :
    ∀ (l : List (String × β)) (p : String) (b : β), l.lookup p = some b → (p, b) ∈ l
  | [], p, b, h => by simp [List.lookup] at h
  | (k, v) :: l, p, b, h => by
    by_cases hk : p = k
    · subst hk
      simp [List.lookup] at h
      subst h
      exact List.mem_cons_self _ _
    · have h' : (p == k) = false := by simpa using hk
      simp only [List.lookup, h'] at h
      exact List.mem_cons_of_mem _ (mem_of_lookup l p b h)

theorem untouched_lt (w : World) {p a : String} {fc : FileContent} {t : List String}
    (hl : w.files.lookup p = some fc) (ha : w.abs p = some a) (hn : a ∉ t) :
    untouched w (a :: t) < untouched w t := by
  unfold untouched
  apply countP_lt_of_witness
  · intro f _ hf
    split at hf
    · rename_i b hb
      simp only [Bool.not_eq_true', decide_eq_false_iff_not] at hf ⊢
      exact fun hm => hf (List.mem_cons_of_mem _ hm)
    · cases hf
  · exact ⟨(p, fc), mem_of_lookup _ _ _ hl, by simp [ha, hn], by simp [ha]⟩

/-- A load whose budget exceeds the number of untouched files does not use
it up. -/
theorem recursiveReadJSON_fuel (rt : GoRuntime) (w : World) :
    ∀ (fuel : Nat) (p : String) (c : ConfigParser) (t : List String),
      c.touchedFiles = some t → untouched w t < fuel →
      (ConfigParser.recursiveReadJSON rt w fuel p c).2 ≠ .outOfFuel
  | 0, p, c, t, _, hlt => by omega
  | fuel + 1, p, c, t, ht, hlt => by
    rw [ConfigParser.recursiveReadJSON]
    split
    · simp
    · rename_i a ha
      rw [ht]
      simp only
      split
      · simp
      · rename_i hn
        simp only
        split
        · simp
        · simp
        · rename_i decodedObject hl
          have hlt' : untouched w (a :: t) < fuel := by
            have := untouched_lt w hl ha hn
            omega
          have hI := @evaluateExpressions_fuel rt w (ConfigParser.recursiveReadJSON rt w fuel)
            (fun c' => ∃ t', c'.touchedFiles = some t' ∧ (a :: t) ⊆ t')
            (fun q c' hc' => by
              obtain ⟨t', ht', hsub⟩ := hc'
              obtain ⟨t'', ht'', hsub'⟩ := (recursiveReadJSON_keeps rt w fuel q c').2 t' ht'
              exact ⟨t'', ht'', fun x hx => hsub' (hsub hx)⟩)
            (fun q c' hc' => by
              obtain ⟨t', ht', hsub⟩ := hc'
              exact recursiveReadJSON_fuel rt w fuel q c' t' ht'
                (lt_of_le_of_lt (untouched_mono w hsub) hlt'))
            false decodedObject []
            { touchedFiles := some (a :: t), includeStack := c.includeStack ++ [a] }
            ⟨_, rfl, List.Subset.refl _⟩
          split <;> rename_i heq <;> rw [heq] at hI
          · simp
          · simp
          · simp
          · exact absurd rfl hI

/-! ## A walk that succeeds has loaded every file it includes -/

theorem loadAll_append (rd : Reader) :
    ∀ (l1 l2 : List String) (c : ConfigParser),
      loadAll rd (l1 ++ l2) c = (loadAll rd l1 c).bind (loadAll rd l2)
  | [], l2, c => rfl
  | q :: l1, l2, c => by
    simp only [List.cons_append, loadAll]
    split
    · exact loadAll_append rd l1 l2 _
    · rfl

theorem expandFile_ok (w : World) (rd : Reader) (v : List Value) (c : ConfigParser)
    (h : (ConfigParser.expandFile w rd v c).2.isOk = true) :
    loadAll rd (targetOf w v).toList c = some (ConfigParser.expandFile w rd v c).1 := by
  match v, h with
  | [], h => simp [ConfigParser.expandFile, Outcome.isOk] at h
  | _ :: _ :: _, h => simp [ConfigParser.expandFile, Outcome.isOk] at h
  | [x], h =>
    cases x with
    | str s =>
      simp only [ConfigParser.expandFile, List.length_singleton, ne_eq, not_true_eq_false,
        if_false] at h ⊢
      simp only [targetOf]
      cases hinc : w.findInclude s with
      | none => simp [hinc, Outcome.isOk] at h
      | some incPath =>
        simp only [hinc] at h ⊢
        simp only [Option.toList, loadAll]
        rcases hrd : rd incPath c with ⟨c1, o⟩
        rw [hrd] at h
        cases o with
        | ok exp => rfl
        | error e =>
          simp only at h
          split at h <;> cases h
        | panic p => cases h
        | outOfFuel => cases h
    | null => simp [ConfigParser.expandFile, Outcome.isOk] at h
    | bool _ => simp [ConfigParser.expandFile, Outcome.isOk] at h
    | number _ => simp [ConfigParser.expandFile, Outcome.isOk] at h
    | list _ => simp [ConfigParser.expandFile, Outcome.isOk] at h
    | object _ => simp [ConfigParser.expandFile, Outcome.isOk] at h
    | knownKeys _ => simp [ConfigParser.expandFile, Outcome.isOk] at h
    | errors _ => simp [ConfigParser.expandFile, Outcome.isOk] at h

mutual
theorem evalValue_ok (rt : GoRuntime) (w : World) (rd : Reader) :
    ∀ (v : Value) (c : ConfigParser),
      (ConfigParser.evalValue rt w rd v c).2.2.isOk = true →
      loadAll rd (includesValue w v) c = some (ConfigParser.evalValue rt w rd v c).1
  | .list [], c, h => by simp [ConfigParser.evalValue, Outcome.isOk] at h
  | .list (first :: more), c, h => by
    rw [ConfigParser.evalValue] at h ⊢
    rw [includesValue]
    split at h <;> rename_i hexp
    · simp only [hexp, loadAll]
    · simp only [hexp]
      exact expandFile_ok w rd more c h
    · simp only [hexp]
      have := evalElems_ok rt w rd (first :: more) c
      split at h <;> rename_i heq
      · rw [heq] at this; exact this rfl
      · cases h
      · cases h
      · cases h
  | .null, c, h => by simp [ConfigParser.evalValue, includesValue, loadAll]
  | .bool _, c, h => by simp [ConfigParser.evalValue, includesValue, loadAll]
  | .number _, c, h => by simp [ConfigParser.evalValue, includesValue, loadAll]
  | .str _, c, h => by simp [ConfigParser.evalValue, includesValue, loadAll]
  | .object _, c, h => by simp [ConfigParser.evalValue, includesValue, loadAll]
  | .knownKeys _, c, h => by simp [ConfigParser.evalValue, includesValue, loadAll]
  | .errors _, c, h => by simp [ConfigParser.evalValue, includesValue, loadAll]
theorem evalElems_ok (rt : GoRuntime) (w : World) (rd : Reader) :
    ∀ (l : List Value) (c : ConfigParser),
      (ConfigParser.evalElems rt w rd l c).2.2.isOk = true →
      loadAll rd (includesElems w l) c = some (ConfigParser.evalElems rt w rd l c).1
  | [], c, h => by simp [ConfigParser.evalElems, includesElems, loadAll]
  | oldval :: rest, c, h => by
    rw [ConfigParser.evalElems] at h ⊢
    rw [includesElems, loadAll_append]
    have hv := evalValue_ok rt w rd oldval c
    split at h <;> rename_i heq
    · rw [heq] at hv
      rw [hv rfl]
      exact evalElems_ok rt w rd rest _ h
    · cases h
    · cases h
    · cases h
end

mutual
theorem evaluateEntry_ok (rt : GoRuntime) (w : World) (rd : Reader) (testOnly : Bool) :
    ∀ (ei : Value) (k : String) (seenKeys : List String) (c : ConfigParser),
      (ConfigParser.evaluateEntry rt w rd testOnly ei k seenKeys c).2.2.isOk = true →
      loadAll rd (includesEntry w ei) c =
        some (ConfigParser.evaluateEntry rt w rd testOnly ei k seenKeys c).1
  | .list [], k, seenKeys, c, h => by
    simp [ConfigParser.evaluateEntry, includesEntry, loadAll]
  | .list (x :: xs), k, seenKeys, c, h => by
    rw [ConfigParser.evaluateEntry] at h ⊢
    rw [includesEntry]
    have hv := evalValue_ok rt w rd (.list (x :: xs)) c
    split at h <;> rename_i heq
    · rw [heq] at hv; exact hv rfl
    · cases h
    · cases h
    · cases h
  | .object subval, k, seenKeys, c, h => by
    rw [ConfigParser.evaluateEntry] at h ⊢
    rw [includesEntry]
    exact evaluateExpressions_ok rt w rd testOnly subval (seenKeys ++ [k]) c h
  | .null, k, seenKeys, c, h => by simp [ConfigParser.evaluateEntry, Outcome.isOk] at h
  | .bool _, k, seenKeys, c, h => by simp [ConfigParser.evaluateEntry, includesEntry, loadAll]
  | .number _, k, seenKeys, c, h => by simp [ConfigParser.evaluateEntry, includesEntry, loadAll]
  | .str _, k, seenKeys, c, h => by simp [ConfigParser.evaluateEntry, includesEntry, loadAll]
  | .knownKeys _, k, seenKeys, c, h => by simp [ConfigParser.evaluateEntry, Outcome.isOk] at h
  | .errors _, k, seenKeys, c, h => by simp [ConfigParser.evaluateEntry, Outcome.isOk] at h
theorem evaluateExpressions_ok (rt : GoRuntime) (w : World) (rd : Reader) (testOnly : Bool) :
    ∀ (m : Obj) (seenKeys : List String) (c : ConfigParser),
      (ConfigParser.evaluateExpressions rt w rd testOnly m seenKeys c).2.2.isOk = true →
      loadAll rd (includesFields w m) c =
        some (ConfigParser.evaluateExpressions rt w rd testOnly m seenKeys c).1
  | [], seenKeys, c, h => by simp [ConfigParser.evaluateExpressions, includesFields, loadAll]
  | (k, ei) :: rest, seenKeys, c, h => by
    rw [ConfigParser.evaluateExpressions] at h ⊢
    rw [includesFields, loadAll_append]
    have hv := evaluateEntry_ok rt w rd testOnly ei k seenKeys c
    split at h <;> rename_i heq
    · rw [heq] at hv
      rw [hv rfl]
      exact evaluateExpressions_ok rt w rd testOnly rest seenKeys _ h
    · cases h
    · cases h
    · cases h
end

/-! ## Loads in a row -/

theorem loadAll_split (rd : Reader) :
    ∀ (l1 : List String) (q : String) (l2 : List String) (c c' : ConfigParser),
      loadAll rd (l1 ++ q :: l2) c = some c' →
      ∃ c0 c1 m, loadAll rd l1 c = some c0 ∧ rd q c0 = (c1, .ok m) ∧ loadAll rd l2 c1 = some c'
  | [], q, l2, c, c', h => by
    simp only [List.nil_append, loadAll] at h
    rcases hrd : rd q c with ⟨c1, o⟩
    rw [hrd] at h
    cases o with
    | ok m => exact ⟨c, c1, m, rfl, hrd, h⟩
    | error e => cases h
    | panic p => cases h
    | outOfFuel => cases h
  | p :: l1, q, l2, c, c', h => by
    simp only [List.cons_append, loadAll] at h ⊢
    rcases hrd : rd p c with ⟨c1, o⟩
    rw [hrd] at h
    cases o with
    | ok m =>
      obtain ⟨c0, c1', m', h1, h2, h3⟩ := loadAll_split rd l1 q l2 c1 c' h
      exact ⟨c0, c1', m', by simpa [hrd] using h1, h2, h3⟩
    | error e => cases h
    | panic p => cases h
    | outOfFuel => cases h

theorem loadAll_pres {rd : Reader} {I : ConfigParser → Prop} (hrd : ∀ p c, I c → I (rd p c).1) :
    ∀ (l : List String) (c c' : ConfigParser), I c → loadAll rd l c = some c' → I c'
  | [], c, c', hI, h => by
    simp only [loadAll, Option.some.injEq] at h
    exact h ▸ hI
  | p :: l, c, c', hI, h => by
    simp only [loadAll] at h
    have := hrd p c hI
    rcases hr : rd p c with ⟨c1, o⟩
    rw [hr] at h this
    cases o with
    | ok m => exact loadAll_pres hrd l c1 c' this h
    | error e => cases h
    | panic p => cases h
    | outOfFuel => cases h

theorem loadAll_none_of_mem {rd : Reader} {I : ConfigParser → Prop} {q : String}
    (hrd : ∀ p c, I c → I (rd p c).1) (hq : ∀ c, I c → (rd q c).2.isOk = false) :
    ∀ (l : List String) (c : ConfigParser), q ∈ l → I c → loadAll rd l c = none
  | [], c, hm, _ => by cases hm
  | p :: l, c, hm, hI => by
    simp only [loadAll]
    have hp := hrd p c hI
    rcases hr : rd p c with ⟨c1, o⟩
    rw [hr] at hp
    cases o with
    | ok m =>
      rcases List.mem_cons.1 hm with rfl | hm
      · have := hq c hI
        rw [hr] at this
        cases this
      · exact loadAll_none_of_mem hrd hq l c1 hm hp
    | error e => rfl
    | panic p => rfl
    | outOfFuel => rfl

/-- A load that returns a document has touched its file, opened a
document, and loaded every file the walk of that document includes. -/
theorem recursiveReadJSON_ok (rt : GoRuntime) (w : World) {fuel : Nat} {p : String}
    {c : ConfigParser}
    (h : (ConfigParser.recursiveReadJSON rt w fuel p c).2.isOk = true) :
    ∃ n a t doc c2, fuel = n + 1 ∧ w.abs p = some a ∧ c.touchedFiles = some t ∧ a ∉ t ∧
      w.files.lookup p = some (.document doc) ∧
      loadAll (ConfigParser.recursiveReadJSON rt w n) (includesFields w doc)
        { touchedFiles := some (a :: t), includeStack := c.includeStack ++ [a] } = some c2 ∧
      (ConfigParser.recursiveReadJSON rt w fuel p c).1.touchedFiles = c2.touchedFiles := by
  cases fuel with
  | zero => simp [ConfigParser.recursiveReadJSON, Outcome.isOk] at h
  | succ n =>
    rw [ConfigParser.recursiveReadJSON] at h ⊢
    cases ha : w.abs p with
    | none => simp [ha, Outcome.isOk] at h
    | some a =>
      simp only [ha] at h ⊢
      cases ht : c.touchedFiles with
      | none => simp [ht, Outcome.isOk] at h
      | some t =>
        simp only [ht] at h ⊢
        by_cases hm : a ∈ t
        · simp [hm, Outcome.isOk] at h
        · simp only [hm, if_false] at h ⊢
          cases hl : w.files.lookup p with
          | none => simp [hl, Outcome.isOk] at h
          | some fc =>
            cases fc with
            | undecodable extra err => simp [hl, Outcome.isOk] at h
            | document doc =>
              simp only [hl] at h ⊢
              have hv := evaluateExpressions_ok rt w (ConfigParser.recursiveReadJSON rt w n)
                false doc []
                { touchedFiles := some (a :: t), includeStack := c.includeStack ++ [a] }
              rcases he : ConfigParser.evaluateExpressions rt w
                (ConfigParser.recursiveReadJSON rt w n) false doc []
                { touchedFiles := some (a :: t), includeStack := c.includeStack ++ [a] }
                with ⟨c2, m, o⟩
              rw [he] at h hv
              cases o with
              | ok u => exact ⟨n, a, t, doc, c2, rfl, rfl, rfl, hm, rfl, hv rfl, rfl⟩
              | error e => cases h
              | panic p => cases h
              | outOfFuel => cases h


/-! ## Inclusions that meet a touched file -/

theorem touched_pres (rt : GoRuntime) (w : World) (fuel : Nat) (x : String) :
    ∀ (p : String) (c : ConfigParser),
      (∃ t, c.touchedFiles = some t ∧ x ∈ t) →
      ∃ t, (ConfigParser.recursiveReadJSON rt w fuel p c).1.touchedFiles = some t ∧ x ∈ t := by
  rintro p c ⟨t, ht, hx⟩
  obtain ⟨t', ht', hsub⟩ := (recursiveReadJSON_keeps rt w fuel p c).2 t ht
  exact ⟨t', ht', hsub hx⟩

/-- A load from which the inclusions lead to a file that is already touched
returns no document. -/
theorem reach_touched_fails (rt : GoRuntime) (w : World) (hc : ∀ p, w.abs p = some p)
    {q x : String} (hr : Relation.ReflTransGen (Includes w) q x) :
    ∀ (fuel : Nat) (c : ConfigParser) (t : List String), c.touchedFiles = some t → x ∈ t →
      (ConfigParser.recursiveReadJSON rt w fuel q c).2.isOk = false := by
  induction hr using Relation.ReflTransGen.head_induction_on with
  | refl =>
    intro fuel c t ht hx
    cases fuel with
    | zero => simp [ConfigParser.recursiveReadJSON, Outcome.isOk]
    | succ n => simp [ConfigParser.recursiveReadJSON, hc, ht, hx, Outcome.isOk]
  | @head q q1 hinc _ ih =>
    intro fuel c t ht hx
    cases hok : (ConfigParser.recursiveReadJSON rt w fuel q c).2.isOk with
    | false => rfl
    | true =>
      exfalso
      obtain ⟨n, a, t0, doc, c2, hf, ha, ht0, _, hl, hload, _⟩ := recursiveReadJSON_ok rt w hok
      obtain ⟨doc', hl', hmem⟩ := hinc
      rw [hl] at hl'
      injection hl' with hl'
      injection hl' with hl'
      subst hl'
      rw [ht] at ht0
      injection ht0 with ht0
      subst ht0
      have := @loadAll_none_of_mem (ConfigParser.recursiveReadJSON rt w n)
        (fun c' => ∃ t', c'.touchedFiles = some t' ∧ x ∈ t') q1
        (touched_pres rt w n x)
        (fun c' hc' => by
          obtain ⟨t', ht', hx'⟩ := hc'
          exact ih n c' t' ht' hx')
        (includesFields w doc)
        { touchedFiles := some (a :: t), includeStack := c.includeStack ++ [a] }
        hmem ⟨_, rfl, List.mem_cons_of_mem _ hx⟩
      rw [this] at hload
      cases hload

/-- A load from which the inclusions lead to a file that includes itself,
directly or through a chain, returns no document. -/
theorem reach_cycle_fails (rt : GoRuntime) (w : World) (hc : ∀ p, w.abs p = some p)
    {q y : String} (hr : Relation.ReflTransGen (Includes w) q y)
    (hcyc : Relation.TransGen (Includes w) y y) :
    ∀ (fuel : Nat) (c : ConfigParser),
      (ConfigParser.recursiveReadJSON rt w fuel q c).2.isOk = false := by
  induction hr using Relation.ReflTransGen.head_induction_on with
  | refl =>
    intro fuel c
    cases hok : (ConfigParser.recursiveReadJSON rt w fuel y c).2.isOk with
    | false => rfl
    | true =>
      exfalso
      obtain ⟨n, a, t0, doc, c2, hf, ha, ht0, _, hl, hload, _⟩ := recursiveReadJSON_ok rt w hok
      obtain ⟨z, ⟨doc', hl', hmem⟩, hzy⟩ := Relation.TransGen.head'_iff.1 hcyc
      rw [hl] at hl'
      injection hl' with hl'
      injection hl' with hl'
      subst hl'
      rw [hc] at ha
      injection ha with ha
      subst ha
      have := @loadAll_none_of_mem (ConfigParser.recursiveReadJSON rt w n)
        (fun c' => ∃ t', c'.touchedFiles = some t' ∧ y ∈ t') z
        (touched_pres rt w n y)
        (fun c' hc' => by
          obtain ⟨t', ht', hx'⟩ := hc'
          exact reach_touched_fails rt w hc hzy n c' t' ht' hx')
        (includesFields w doc)
        { touchedFiles := some (y :: t0), includeStack := c.includeStack ++ [y] }
        hmem ⟨_, rfl, List.mem_cons_self _ _⟩
      rw [this] at hload
      cases hload
  | @head q q1 hinc _ ih =>
    intro fuel c
    cases hok : (ConfigParser.recursiveReadJSON rt w fuel q c).2.isOk with
    | false => rfl
    | true =>
      exfalso
      obtain ⟨n, a, t0, doc, c2, hf, ha, ht0, _, hl, hload, _⟩ := recursiveReadJSON_ok rt w hok
      obtain ⟨doc', hl', hmem⟩ := hinc
      rw [hl] at hl'
      injection hl' with hl'
      injection hl' with hl'
      subst hl'
      have := @loadAll_none_of_mem (ConfigParser.recursiveReadJSON rt w n)
        (fun _ => True) q1 (fun _ _ _ => trivial) (fun c' _ => ih n c')
        (includesFields w doc)
        { touchedFiles := some (a :: t0), includeStack := c.includeStack ++ [a] } hmem trivial
      rw [this] at hload
      cases hload

theorem loadAll_touched (rt : GoRuntime) (w : World) (n : Nat) (l : List String)
    {c c' : ConfigParser} (h : loadAll (ConfigParser.recursiveReadJSON rt w n) l c = some c')
    {t : List String} (ht : c.touchedFiles = some t) :
    ∃ t', c'.touchedFiles = some t' ∧ t ⊆ t' :=
  @loadAll_pres (ConfigParser.recursiveReadJSON rt w n)
    (fun c'' => ∃ t'', c''.touchedFiles = some t'' ∧ t ⊆ t'')
    (fun p c'' hc'' => by
      obtain ⟨t'', ht'', hsub⟩ := hc''
      obtain ⟨t3, ht3, hsub3⟩ := (recursiveReadJSON_keeps rt w n p c'').2 t'' ht''
      exact ⟨t3, ht3, fun x hx => hsub3 (hsub hx)⟩)
    l c c' ⟨t, ht, List.Subset.refl _⟩ h

/-- A load that returns a document has touched every file the inclusions lead
to from its file. -/
theorem ok_reach_touched (rt : GoRuntime) (w : World) (hc : ∀ p, w.abs p = some p) :
    ∀ (fuel : Nat) (q : String) (c : ConfigParser),
      (ConfigParser.recursiveReadJSON rt w fuel q c).2.isOk = true →
      ∃ t', (ConfigParser.recursiveReadJSON rt w fuel q c).1.touchedFiles = some t' ∧
        ∀ x, Relation.ReflTransGen (Includes w) q x → x ∈ t'
  | fuel, q, c, hok => by
    obtain ⟨n, a, t0, doc, c2, hf, ha, ht0, _, hl, hload, hfin⟩ := recursiveReadJSON_ok rt w hok
    rw [hc] at ha
    injection ha with ha
    subst ha
    subst hf
    obtain ⟨t2, ht2, hsub2⟩ := loadAll_touched rt w n _ hload rfl
    refine ⟨t2, by rw [hfin, ht2], fun x hx => ?_⟩
    rcases Relation.ReflTransGen.cases_head hx with rfl | ⟨z, ⟨doc', hl', hmem⟩, hzx⟩
    · exact hsub2 (List.mem_cons_self _ _)
    · rw [hl] at hl'
      injection hl' with hl'
      injection hl' with hl'
      subst hl'
      obtain ⟨l1, l2, hsplit⟩ := List.append_of_mem hmem
      rw [hsplit] at hload
      obtain ⟨c0, c1, m, _, hz, hrest⟩ := loadAll_split _ l1 z l2 _ _ hload
      have hzok : (ConfigParser.recursiveReadJSON rt w n z c0).2.isOk = true := by
        rw [hz]; rfl
      obtain ⟨t1, ht1, hreach⟩ := ok_reach_touched rt w hc n z c0 hzok
      rw [hz] at ht1
      obtain ⟨t3, ht3, hsub3⟩ := loadAll_touched rt w n l2 hrest ht1
      rw [ht2] at ht3
      injection ht3 with ht3
      subst ht3
      exact hsub3 (hreach x hzx)
termination_by fuel _ _ _ => fuel
decreasing_by
  all_goals simp_wf
  all_goals omega

theorem two_mem_split {a b : String} (hab : a ≠ b) :
    ∀ (l : List String), a ∈ l → b ∈ l →
      (∃ l1 l2, l = l1 ++ a :: l2 ∧ b ∈ l2) ∨ (∃ l1 l2, l = l1 ++ b :: l2 ∧ a ∈ l2)
  | [], ha, _ => by cases ha
  | x :: l, ha, hb => by
    rcases List.mem_cons.1 ha with rfl | ha'
    · rcases List.mem_cons.1 hb with h | hb'
      · exact absurd h.symm hab
      · exact Or.inl ⟨[], l, rfl, hb'⟩
    · rcases List.mem_cons.1 hb with rfl | hb'
      · exact Or.inr ⟨[], l, rfl, ha'⟩
      · rcases two_mem_split hab l ha' hb' with ⟨l1, l2, h1, h2⟩ | ⟨l1, l2, h1, h2⟩
        · exact Or.inl ⟨x :: l1, l2, by rw [h1]; rfl, h2⟩
        · exact Or.inr ⟨x :: l1, l2, by rw [h1]; rfl, h2⟩

/-- Two files loaded in a row from which the inclusions lead to a common
file: the second load finds the common file touched, and the row fails. -/
theorem shared_fails (rt : GoRuntime) (w : World) (hc : ∀ p, w.abs p = some p)
    {a b x : String} (ha : Relation.ReflTransGen (Includes w) a x)
    (hb : Relation.ReflTransGen (Includes w) b x) (n : Nat) (l1 l2 : List String)
    (hmem : b ∈ l2) (c : ConfigParser) :
    loadAll (ConfigParser.recursiveReadJSON rt w n) (l1 ++ a :: l2) c = none := by
  cases hload : loadAll (ConfigParser.recursiveReadJSON rt w n) (l1 ++ a :: l2) c with
  | none => rfl
  | some c' =>
    exfalso
    obtain ⟨c0, c1, m, _, hz, hrest⟩ := loadAll_split _ l1 a l2 _ _ hload
    have hok : (ConfigParser.recursiveReadJSON rt w n a c0).2.isOk = true := by
      rw [hz]; rfl
    obtain ⟨t1, ht1, hreach⟩ := ok_reach_touched rt w hc n a c0 hok
    rw [hz] at ht1
    have := @loadAll_none_of_mem (ConfigParser.recursiveReadJSON rt w n)
      (fun c' => ∃ t', c'.touchedFiles = some t' ∧ x ∈ t') b
      (touched_pres rt w n x)
      (fun c' hc' => by
        obtain ⟨t', ht', hx'⟩ := hc'
        exact reach_touched_fails rt w hc hb n c' t' ht' hx')
      l2 c1 hmem ⟨t1, ht1, hreach x ha⟩
    rw [this] at hrest
    cases hrest

/-- A file that includes two different files from which the inclusions lead
to a common file is not loaded. -/
theorem diamond_fails (rt : GoRuntime) (w : World) (hc : ∀ p, w.abs p = some p)
    {root a b x : String} (hra : Includes w root a) (hrb : Includes w root b) (hab : a ≠ b)
    (ha : Relation.ReflTransGen (Includes w) a x)
    (hb : Relation.ReflTransGen (Includes w) b x) (fuel : Nat) (c : ConfigParser) :
    (ConfigParser.recursiveReadJSON rt w fuel root c).2.isOk = false := by
  cases hok : (ConfigParser.recursiveReadJSON rt w fuel root c).2.isOk with
  | false => rfl
  | true =>
    exfalso
    obtain ⟨n, p, t0, doc, c2, hf, _, ht0, _, hl, hload, _⟩ := recursiveReadJSON_ok rt w hok
    obtain ⟨doc1, hl1, hma⟩ := hra
    obtain ⟨doc2, hl2, hmb⟩ := hrb
    rw [hl] at hl1 hl2
    injection hl1 with hl1
    injection hl1 with hl1
    injection hl2 with hl2
    injection hl2 with hl2
    subst hl1
    subst hl2
    rcases two_mem_split hab _ hma hmb with ⟨l1, l2, hs, hm⟩ | ⟨l1, l2, hs, hm⟩
    · rw [hs, shared_fails rt w hc ha hb n l1 l2 hm] at hload
      cases hload
    · rw [hs, shared_fails rt w hc hb ha n l1 l2 hm] at hload
      cases hload


/-! ## When nothing else can fail, a failure is the include cycle -/

theorem mentions_prefix {needle e : String} (pre : String) (h : Mentions needle e) :
    Mentions needle (pre ++ e) := by
  obtain ⟨p, s, rfl⟩ := h
  exact ⟨pre ++ p, s, by simp [String.append_assoc]⟩

theorem mentions_cycle (a : String) :
    Mentions "include cycle detected"
      ("ConfigParser include cycle detected reading config: " ++ a) :=
  ⟨"ConfigParser ", " reading config: " ++ a, by
    rw [String.append_assoc, ← String.append_assoc "ConfigParser "]
    rfl⟩

theorem expandFile_clean (w : World) {rd : Reader} {I : ConfigParser → Prop}
    (hstack : ∀ c, I c → c.includeStack ≠ [])
    (hrd : ∀ p c, I c → I (rd p c).1)
    (hg : ∀ q c, I c → isDocument (w.files.lookup q) = true → (rd q c).2.cycleOnly)
    (v : List Value) (c : ConfigParser) (h : I c) {q : String} (hq : targetOf w v = some q)
    (hdoc : isDocument (w.files.lookup q) = true) :
    (ConfigParser.expandFile w rd v c).2.cycleOnly := by
  match v, hq with
  | [.str s], hq =>
    simp only [targetOf] at hq
    simp only [ConfigParser.expandFile, List.length_singleton, ne_eq, not_true_eq_false,
      if_false, hq]
    have h1 := hg q c h hdoc
    have h2 := hstack _ (hrd q c h)
    rcases hr : rd q c with ⟨c1, o⟩
    rw [hr] at h1 h2
    cases o with
    | ok exp => trivial
    | error e =>
      simp only
      cases hlast : c1.includeStack.getLast? with
      | none =>
        rw [List.getLast?_eq_none_iff] at hlast
        exact absurd hlast h2
      | some top =>
        exact mentions_prefix _ h1
    | panic p => exact h1
    | outOfFuel => trivial

mutual
theorem evalValue_clean (rt : GoRuntime) (w : World) {rd : Reader} {I : ConfigParser → Prop}
    (hstack : ∀ c, I c → c.includeStack ≠ [])
    (hrd : ∀ p c, I c → I (rd p c).1)
    (hg : ∀ q c, I c → isDocument (w.files.lookup q) = true → (rd q c).2.cycleOnly) :
    ∀ (v : Value) (c : ConfigParser), I c → cleanValue rt w v = true →
      (ConfigParser.evalValue rt w rd v c).2.2.cycleOnly
  | .list [], c, h, hcl => by simp [cleanValue] at hcl
  | .list (first :: more), c, h, hcl => by
    rw [ConfigParser.evalValue]
    rw [cleanValue] at hcl
    split <;> rename_i hexp
    · simp only [hexp] at hcl
      simp only
      cases he : ConfigParser.expandEnv rt w more with
      | ok _ => trivial
      | error e => rw [he] at hcl; cases hcl
      | panic p => rw [he] at hcl; cases hcl
      | outOfFuel => trivial
    · simp only [hexp] at hcl
      cases ht : targetOf w more with
      | none => simp [ht] at hcl
      | some q =>
        simp only [ht] at hcl
        exact expandFile_clean w hstack hrd hg more c h ht hcl
    · simp only [hexp] at hcl
      have := evalElems_clean rt w hstack hrd hg (first :: more) c h hcl
      split <;> rename_i heq <;> rw [heq] at this <;> exact this
  | .null, c, h, _ => by simp [ConfigParser.evalValue, Outcome.cycleOnly]
  | .bool _, c, h, _ => by simp [ConfigParser.evalValue, Outcome.cycleOnly]
  | .number _, c, h, _ => by simp [ConfigParser.evalValue, Outcome.cycleOnly]
  | .str _, c, h, _ => by simp [ConfigParser.evalValue, Outcome.cycleOnly]
  | .object _, c, h, _ => by simp [ConfigParser.evalValue, Outcome.cycleOnly]
  | .knownKeys _, c, h, _ => by simp [ConfigParser.evalValue, Outcome.cycleOnly]
  | .errors _, c, h, _ => by simp [ConfigParser.evalValue, Outcome.cycleOnly]
theorem evalElems_clean (rt : GoRuntime) (w : World) {rd : Reader} {I : ConfigParser → Prop}
    (hstack : ∀ c, I c → c.includeStack ≠ [])
    (hrd : ∀ p c, I c → I (rd p c).1)
    (hg : ∀ q c, I c → isDocument (w.files.lookup q) = true → (rd q c).2.cycleOnly) :
    ∀ (l : List Value) (c : ConfigParser), I c → cleanElems rt w l = true →
      (ConfigParser.evalElems rt w rd l c).2.2.cycleOnly
  | [], c, h, _ => by simp [ConfigParser.evalElems, Outcome.cycleOnly]
  | oldval :: rest, c, h, hcl => by
    rw [ConfigParser.evalElems]
    rw [cleanElems, Bool.and_eq_true] at hcl
    have := evalValue_clean rt w hstack hrd hg oldval c h hcl.1
    have hI := evalValue_pres rt w hrd oldval c h
    split <;> rename_i heq <;> rw [heq] at this hI
    · exact evalElems_clean rt w hstack hrd hg rest _ hI hcl.2
    · exact this
    · exact this
    · trivial
end

mutual
theorem evaluateEntry_clean (rt : GoRuntime) (w : World) {rd : Reader}
    {I : ConfigParser → Prop} (hstack : ∀ c, I c → c.includeStack ≠ [])
    (hrd : ∀ p c, I c → I (rd p c).1)
    (hg : ∀ q c, I c → isDocument (w.files.lookup q) = true → (rd q c).2.cycleOnly)
    (testOnly : Bool) :
    ∀ (ei : Value) (k : String) (seenKeys : List String) (c : ConfigParser), I c →
      cleanEntry rt w ei = true →
      (ConfigParser.evaluateEntry rt w rd testOnly ei k seenKeys c).2.2.cycleOnly
  | .list [], k, seenKeys, c, h, _ => by simp [ConfigParser.evaluateEntry, Outcome.cycleOnly]
  | .list (x :: xs), k, seenKeys, c, h, hcl => by
    rw [ConfigParser.evaluateEntry]
    rw [cleanEntry] at hcl
    have := evalValue_clean rt w hstack hrd hg (.list (x :: xs)) c h hcl
    split <;> rename_i heq <;> rw [heq] at this
    · trivial
    · exact mentions_prefix _ this
    · exact this
    · trivial
  | .object subval, k, seenKeys, c, h, hcl => by
    rw [ConfigParser.evaluateEntry]
    rw [cleanEntry] at hcl
    exact evaluateExpressions_clean rt w hstack hrd hg testOnly subval (seenKeys ++ [k]) c h hcl
  | .null, k, seenKeys, c, h, hcl => by simp [cleanEntry] at hcl
  | .bool _, k, seenKeys, c, h, _ => by simp [ConfigParser.evaluateEntry, Outcome.cycleOnly]
  | .number _, k, seenKeys, c, h, _ => by simp [ConfigParser.evaluateEntry, Outcome.cycleOnly]
  | .str _, k, seenKeys, c, h, _ => by simp [ConfigParser.evaluateEntry, Outcome.cycleOnly]
  | .knownKeys _, k, seenKeys, c, h, hcl => by simp [cleanEntry] at hcl
  | .errors _, k, seenKeys, c, h, hcl => by simp [cleanEntry] at hcl
theorem evaluateExpressions_clean (rt : GoRuntime) (w : World) {rd : Reader}
    {I : ConfigParser → Prop} (hstack : ∀ c, I c → c.includeStack ≠ [])
    (hrd : ∀ p c, I c → I (rd p c).1)
    (hg : ∀ q c, I c → isDocument (w.files.lookup q) = true → (rd q c).2.cycleOnly)
    (testOnly : Bool) :
    ∀ (m : Obj) (seenKeys : List String) (c : ConfigParser), I c →
      cleanFields rt w m = true →
      (ConfigParser.evaluateExpressions rt w rd testOnly m seenKeys c).2.2.cycleOnly
  | [], seenKeys, c, h, _ => by simp [ConfigParser.evaluateExpressions, Outcome.cycleOnly]
  | (k, ei) :: rest, seenKeys, c, h, hcl => by
    rw [ConfigParser.evaluateExpressions]
    rw [cleanFields, Bool.and_eq_true] at hcl
    have := evaluateEntry_clean rt w hstack hrd hg testOnly ei k seenKeys c h hcl.1
    have hI := evaluateEntry_pres rt w hrd testOnly ei k seenKeys c h
    split <;> rename_i heq <;> rw [heq] at this hI
    · exact evaluateExpressions_clean rt w hstack hrd hg testOnly rest seenKeys _ hI hcl.2
    · exact this
    · exact this
    · trivial
end


theorem isDocument_iff {o : Option FileContent} (h : isDocument o = true) :
    ∃ doc, o = some (.document doc) := by
  cases o with
  | none => cases h
  | some fc =>
    cases fc with
    | undecodable _ _ => cases h
    | document doc => exact ⟨doc, rfl⟩

/-- In a world where nothing else can fail, a load ends with a document or with
an error that mentions the include cycle. -/
theorem recursiveReadJSON_clean (rt : GoRuntime) (w : World) (hc : ∀ p, w.abs p = some p)
    (hw : CleanWorld rt w) :
    ∀ (fuel : Nat) (p : String) (c : ConfigParser), c.touchedFiles ≠ none →
      isDocument (w.files.lookup p) = true →
      (ConfigParser.recursiveReadJSON rt w fuel p c).2.cycleOnly
  | 0, p, c, _, _ => by
    rw [ConfigParser.recursiveReadJSON]
    trivial
  | n + 1, p, c, ht, hdoc => by
    obtain ⟨doc, hl⟩ := isDocument_iff hdoc
    obtain ⟨doc', hd', hclean⟩ := hw p _ hl
    injection hd' with hd'
    subst hd'
    rw [ConfigParser.recursiveReadJSON]
    simp only [hc]
    cases htf : c.touchedFiles with
    | none => exact absurd htf ht
    | some t =>
      simp only
      by_cases hm : p ∈ t
      · simp only [hm, if_true]
        exact mentions_cycle p
      · simp only [hm, if_false, hl]
        have := @evaluateExpressions_clean rt w (ConfigParser.recursiveReadJSON rt w n)
          (fun c' => c'.includeStack ≠ [] ∧ c'.touchedFiles ≠ none)
          (fun c' hc' => hc'.1)
          (fun q c' hc' => by
            obtain ⟨ks, kt⟩ := recursiveReadJSON_keeps rt w n q c'
            refine ⟨by rw [ks]; exact hc'.1, ?_⟩
            cases htc : c'.touchedFiles with
            | none => exact absurd htc hc'.2
            | some t' =>
              obtain ⟨t'', ht'', _⟩ := kt t' htc
              rw [ht'']
              simp)
          (fun q c' hc' hq => recursiveReadJSON_clean rt w hc hw n q c' hc'.2 hq)
          false doc []
          { touchedFiles := some (p :: t), includeStack := c.includeStack ++ [p] }
          ⟨by simp, by simp⟩ hclean
        split <;> rename_i heq <;> rw [heq] at this
        · trivial
        · exact mentions_prefix _ this
        · exact this
        · trivial

theorem untouched_le (w : World) (t : List String) : untouched w t ≤ w.files.length :=
  List.countP_le_length _

/-- C5, as the code has it.  With files named by their canonical paths,
`ReadFile` never uses up a recursion budget larger than the number of files:
it does not loop.  A load that is asked for a file already touched fails with
the error `ConfigParser include cycle detected reading config:` and the path,
and leaves the parser as it is.  If following the inclusions from the root
leads to a file that includes itself, directly or through a chain of any
length, `ReadFile` returns no document; and when every file holds a document
whose walk meets nothing that fails by itself, what it returns is an error
that mentions `include cycle detected`. -/
theorem include_cycle (rt : GoRuntime) (w : World) (hc : ∀ p, w.abs p = some p)
    (root : String) :
    (∀ fuel c, w.files.length < fuel →
      (ConfigParser.ReadFile rt w fuel c root).2 ≠ .outOfFuel) ∧
    ReadFile rt w root ≠ .outOfFuel ∧
    (∀ fuel p c t, c.touchedFiles = some t → p ∈ t →
      ConfigParser.recursiveReadJSON rt w (fuel + 1) p c =
        (c, .error ("ConfigParser include cycle detected reading config: " ++ p))) ∧
    (∀ y, Relation.ReflTransGen (Includes w) root y → Relation.TransGen (Includes w) y y →
      (ReadFile rt w root).isOk = false ∧
      (CleanWorld rt w → isDocument (w.files.lookup root) = true →
        ∃ e, ReadFile rt w root = .error e ∧ Mentions "include cycle detected" e)) := by
  have hfuel : ∀ fuel c, w.files.length < fuel →
      (ConfigParser.ReadFile rt w fuel c root).2 ≠ .outOfFuel := fun fuel c hlt =>
    recursiveReadJSON_fuel rt w fuel root _ [] rfl (lt_of_le_of_lt (untouched_le w []) hlt)
  refine ⟨hfuel, hfuel _ _ (Nat.lt_succ_self _), fun fuel p c t ht hp => ?_,
    fun y hr hcyc => ?_⟩
  · rw [ConfigParser.recursiveReadJSON]
    simp [hc, ht, hp]
  · have hno : (ReadFile rt w root).isOk = false :=
      reach_cycle_fails rt w hc hr hcyc _ _
    refine ⟨hno, fun hw hdoc => ?_⟩
    have hcl := recursiveReadJSON_clean rt w hc hw (w.files.length + 1) root
      { touchedFiles := some [], includeStack := [] } (by simp) hdoc
    have hfu := hfuel (w.files.length + 1) ⟨none, []⟩ (Nat.lt_succ_self _)
    unfold ReadFile ConfigParser.ReadFile at hno hfu ⊢
    simp only at hno hfu hcl ⊢
    cases ho : (ConfigParser.recursiveReadJSON rt w (w.files.length + 1) root
      { touchedFiles := some [], includeStack := [] }).2 with
    | ok m => rw [ho] at hno; cases hno
    | error e => rw [ho] at hcl; exact ⟨e, rfl, hcl⟩
    | panic p => rw [ho] at hcl; exact absurd hcl id
    | outOfFuel => exact absurd ho hfu

theorem mentions_mem {needle hay : String} (h : Mentions needle hay) :
    ∀ ch ∈ needle.data, ch ∈ hay.data := by
  obtain ⟨pre, post, rfl⟩ := h
  intro ch hch
  simp only [String.data_append, List.mem_append]
  exact Or.inl (Or.inr hch)

/-- C5 fails as stated: a file that includes itself after an `_env` expression
whose variable is not set is refused with the error of that expression, which
does not mention an include cycle. -/
theorem include_cycle_counterexample :
    Includes envFirstWorld "r.json" "r.json" ∧
    ReadFile linux64 envFirstWorld "r.json" =
      .error ("error expanding JSON config expressions in r.json:\n" ++
        "k: value error couldn't expand environment variable \"X\"") ∧
    ¬ Mentions "include cycle detected"
      ("error expanding JSON config expressions in r.json:\n" ++
        "k: value error couldn't expand environment variable \"X\"") :=
  ⟨⟨_, rfl, by decide⟩, rfl, fun h => absurd (mentions_mem h 'y' (by decide)) (by decide)⟩

theorem loopWorld_clean : CleanWorld linux64 loopWorld := by
  intro p fc h
  by_cases h1 : p = "loop1.json"
  · subst h1
    injection h with h
    subst h
    exact ⟨_, rfl, rfl⟩
  · by_cases h2 : p = "loop2.json"
    · subst h2
      injection h with h
      subst h
      exact ⟨_, rfl, rfl⟩
    · have e1 : (p == "loop1.json") = false := by simpa using h1
      have e2 : (p == "loop2.json") = false := by simpa using h2
      simp [loopWorld, List.lookup, e1, e2] at h

theorem loop1_includes_loop2 : Includes loopWorld "loop1.json" "loop2.json" :=
  ⟨_, rfl, by decide⟩

theorem loop2_includes_loop1 : Includes loopWorld "loop2.json" "loop1.json" :=
  ⟨_, rfl, by decide⟩

theorem include_cycle_witness :
    (∀ p, loopWorld.abs p = some p) ∧
    ReadFile linux64 loopWorld "loop1.json" ≠ .outOfFuel ∧
    (ReadFile linux64 loopWorld "loop1.json").isOk = false ∧
    ∃ e, ReadFile linux64 loopWorld "loop1.json" = .error e ∧
      Mentions "include cycle detected" e :=
  ⟨fun _ => rfl,
    (include_cycle linux64 loopWorld (fun _ => rfl) "loop1.json").2.1,
    ((include_cycle linux64 loopWorld (fun _ => rfl) "loop1.json").2.2.2 "loop1.json"
      Relation.ReflTransGen.refl
      (Relation.TransGen.head loop1_includes_loop2
        (Relation.TransGen.single loop2_includes_loop1))).1,
    ((include_cycle linux64 loopWorld (fun _ => rfl) "loop1.json").2.2.2 "loop1.json"
      Relation.ReflTransGen.refl
      (Relation.TransGen.head loop1_includes_loop2
        (Relation.TransGen.single loop2_includes_loop1))).2 loopWorld_clean rfl⟩


/-! ## Files included from two places -/

/-- C6, as the code has it.  With files named by their canonical paths, a root
that includes two different files from which the inclusions lead to a common
file is not loaded: the file that is reached second finds the common file
touched.  `ReadFile` returns no document and does not loop; and when every file
holds a document whose walk meets nothing that fails by itself, what it returns
is an error that mentions `include cycle detected`, although the inclusions
have no cycle. -/
theorem include_shared (rt : GoRuntime) (w : World) (hc : ∀ p, w.abs p = some p)
    (root a b x : String) (hra : Includes w root a) (hrb : Includes w root b) (hab : a ≠ b)
    (ha : Relation.ReflTransGen (Includes w) a x)
    (hb : Relation.ReflTransGen (Includes w) b x) :
    (ReadFile rt w root).isOk = false ∧
    ReadFile rt w root ≠ .outOfFuel ∧
    (CleanWorld rt w → ∃ e, ReadFile rt w root = .error e ∧
      Mentions "include cycle detected" e) := by
  have hno : (ReadFile rt w root).isOk = false :=
    diamond_fails rt w hc hra hrb hab ha hb _ _
  have hfu : ReadFile rt w root ≠ .outOfFuel :=
    recursiveReadJSON_fuel rt w _ root _ [] rfl
      (lt_of_le_of_lt (untouched_le w []) (Nat.lt_succ_self _))
  refine ⟨hno, hfu, fun hw => ?_⟩
  have hdoc : isDocument (w.files.lookup root) = true := by
    obtain ⟨m, hl, _⟩ := hra
    rw [hl]; rfl
  have hcl := recursiveReadJSON_clean rt w hc hw (w.files.length + 1) root
    { touchedFiles := some [], includeStack := [] } (by simp) hdoc
  unfold ReadFile ConfigParser.ReadFile at hno hfu ⊢
  simp only at hno hfu hcl ⊢
  cases ho : (ConfigParser.recursiveReadJSON rt w (w.files.length + 1) root
    { touchedFiles := some [], includeStack := [] }).2 with
  | ok m => rw [ho] at hno; cases hno
  | error e => rw [ho] at hcl; exact ⟨e, rfl, hcl⟩
  | panic p => rw [ho] at hcl; exact absurd hcl id
  | outOfFuel => exact absurd ho hfu

set_option maxRecDepth 100000 in
/-- C6 fails as stated: the root of a diamond of well-formed files is not
loaded; the second inclusion of the shared file is reported as a cycle. -/
theorem include_shared_counterexample :
    ReadFile linux64 diamondWorld "root.json" =
      .error ("error expanding JSON config expressions in root.json:\n" ++
        "two: value error In file included from root.json:\n" ++
        "error expanding JSON config expressions in b.json:\n" ++
        "shared: value error In file included from b.json:\n" ++
        "ConfigParser include cycle detected reading config: c.json") ∧
    ¬ Relation.TransGen (Includes diamondWorld) "c.json" "c.json" :=
  ⟨rfl, fun h => by
    obtain ⟨z, ⟨m, hl, hm⟩, _⟩ := Relation.TransGen.head'_iff.1 h
    injection hl with hl
    injection hl with hl
    subst hl
    simp [includesFields, includesEntry] at hm⟩

theorem include_shared_witness :
    (∀ p, diamondWorld.abs p = some p) ∧
    Includes diamondWorld "root.json" "a.json" ∧
    Includes diamondWorld "root.json" "b.json" ∧
    (ReadFile linux64 diamondWorld "root.json").isOk = false ∧
    ReadFile linux64 diamondWorld "root.json" ≠ .outOfFuel :=
  ⟨fun _ => rfl, ⟨_, rfl, by decide⟩, ⟨_, rfl, by decide⟩,
    (include_shared linux64 diamondWorld (fun _ => rfl) "root.json" "a.json" "b.json" "c.json"
      ⟨_, rfl, by decide⟩ ⟨_, rfl, by decide⟩ (by decide)
      (Relation.ReflTransGen.single ⟨_, rfl, by decide⟩)
      (Relation.ReflTransGen.single ⟨_, rfl, by decide⟩)).1,
    (include_shared linux64 diamondWorld (fun _ => rfl) "root.json" "a.json" "b.json" "c.json"
      ⟨_, rfl, by decide⟩ ⟨_, rfl, by decide⟩ (by decide)
      (Relation.ReflTransGen.single ⟨_, rfl, by decide⟩)
      (Relation.ReflTransGen.single ⟨_, rfl, by decide⟩)).2.1⟩


/-! ## Lists of integers -/

theorem int64sOf_bad (rt : GoRuntime) (pre : List Value) (ei : Value) (post : List Value)
    (hei : ei.isNumber = false) : int64sOf rt (pre ++ ei :: post) = none := by
  induction pre with
  | nil => cases ei <;> simp [int64sOf, Value.isNumber] at hei ⊢
  | cons x pre ih =>
    cases x <;> simp only [List.cons_append, int64sOf]
    rw [show pre.append (ei :: post) = pre ++ ei :: post from rfl, ih]
    rfl

theorem requiredIntList_bad (rt : GoRuntime) (jc : Obj) (key : String) (required : Bool)
    (eil : List Value) (hl : jc.lookup key = some (.list eil))
    (hbad : ∃ ei ∈ eil, ei.isNumber = false) : jc.requiredIntList rt key required = none := by
  obtain ⟨ei, hmem, hei⟩ := hbad
  obtain ⟨pre, post, rfl⟩ := List.append_of_mem hmem
  unfold Obj.requiredIntList
  cases h1 : jc.noteKnownKey key with
  | none => rfl
  | some jc1 =>
    have hk : key ≠ "_knownkeys" := by
      rintro rfl
      unfold Obj.noteKnownKey at h1
      simp [hl] at h1
    simp only [(noteKnownKey_some h1).2 key hk, hl, int64sOf_bad rt pre ei post hei,
      Option.map_none']

/-- C11 fails on the code.  On a key whose value is an array with an element
that is not a number, `IntList` panics, whatever the object, the default handed
to it and the other elements: the loop of `requiredIntList` converts every
element with the unchecked assertion `ei.(float64)`, where `requiredList`
tests each element and records an error. -/
theorem int_list_aborts (rt : GoRuntime) (jc : Obj) (key : String) (args : Args)
    (eil : List Value) (hl : jc.lookup key = some (.list eil))
    (hbad : ∃ ei ∈ eil, ei.isNumber = false) : jc.IntList rt key args = none := by
  unfold Obj.IntList
  rw [requiredIntList_bad rt jc key true eil hl hbad]

theorem int_list_aborts_witness :
    Obj.IntList linux64 [("ports", .list [.number 80, .str "http"])] "ports"
        [.int64s (some [8080])] = none ∧
    ∃ jc1, Obj.List linux64 [("ports", .list [.number 80, .str "http"])] "ports"
        [.strings (some ["x"])] = some (jc1, some ["x"]) ∧
      jc1.errorLog = ["Expected config key \"ports\" index 0 to be a string, not float64"] :=
  ⟨int_list_aborts linux64 [("ports", .list [.number 80, .str "http"])] "ports"
    [.int64s (some [8080])] [.number 80, .str "http"] rfl ⟨.str "http", by simp, rfl⟩,
   _, rfl, by decide⟩

/-! ## Reading a value that is present -/

/-- The value the accessor finds under `key` after `noteKnownKey`: the value
the object holds, or, under `_knownkeys`, the key set. -/
theorem present_after_note {jc jc1 : Obj} {key : String} {v : Value}
    (h : jc.noteKnownKey key = some jc1) (hwf : jc.wellFormed = true)
    (hv : jc.lookup key = some v) :
    jc1.lookup key = some v ∨
      ∃ ks ks1, v = .knownKeys ks ∧ jc1.lookup key = some (.knownKeys ks1) := by
  by_cases hk : key = "_knownkeys"
  · subst hk
    rcases wellFormed_known hwf with h0 | ⟨ks, h0⟩
    · rw [h0] at hv; cases hv
    · rw [h0] at hv
      injection hv with hv
      exact Or.inr ⟨ks, _, hv.symm, (noteKnownKey_some h).1⟩
  · exact Or.inl (by rw [(noteKnownKey_some h).2 key hk, hv])

theorem boolDefault_bools (ds : List Bool) (d : Bool) :
    boolDefault (ds.map Arg.bool) d = some (ds.getLastD d) := by
  induction ds generalizing d with
  | nil => rfl
  | cons x ds ih =>
    simp only [List.map_cons, boolDefault, ih]
    cases ds <;> rfl

/-- What the helper `bool` does on a key that is present, whatever the default
pointer: the result and the error it records, by the value. -/
theorem bool_present (rt : GoRuntime) {jc : Obj} {key : String} {v : Value} (d : Option Bool)
    (hwf : jc.wellFormed = true) (hv : jc.lookup key = some v) :
    ∃ jc1 b, jc.bool rt key d = some (jc1, b) ∧
      (∀ x, v = .bool x → b = x ∧ jc1.errorLog = jc.errorLog) ∧
      (∀ s x, v = .str s → ParseBool s = some x → b = x ∧ jc1.errorLog = jc.errorLog) ∧
      (∀ s, v = .str s → ParseBool s = none → b = false ∧
        jc1.errorLog = jc.errorLog ++
          ["Config key " ++ rt.quote key ++ " has bad boolean format " ++ rt.quote s]) ∧
      (v.isBool = false → v.isStr = false → b = false ∧
        jc1.errorLog = jc.errorLog ++
          ["Expected config key " ++ rt.quote key ++ " to be a boolean"]) := by
  obtain ⟨jc1, h1⟩ := noteKnownKey_isSome hwf key
  have hlog := noteKnownKey_errorLog h1
  have hwf1 := noteKnownKey_wellFormed h1 hwf
  have hrec : ∀ msg, ∃ jc2, (jc1.appendError msg).map (fun jc2 => (jc2, false))
      = some (jc2, false) ∧ jc2.errorLog = jc.errorLog ++ [msg] := by
    intro msg
    obtain ⟨jc2, h2⟩ := appendError_isSome hwf1 msg
    exact ⟨jc2, by simp [h2], by rw [appendError_errorLog h2, hlog]⟩
  unfold Obj.bool
  simp only [h1]
  rcases present_after_note h1 hwf hv with h | ⟨ks, ks1, rfl, h⟩
  · rw [h]
    cases v with
    | bool x =>
      exact ⟨jc1, x, rfl, fun y hy => by cases hy; exact ⟨rfl, hlog⟩,
        (fun s y hs _ => nomatch hs), (fun s hs _ => nomatch hs),
        fun hb _ => by simp [Value.isBool] at hb⟩
    | str s =>
      dsimp only
      cases hp : ParseBool s with
      | some x =>
        refine ⟨jc1, x, rfl, (fun y hy => nomatch hy), fun s1 y hs hy => ?_,
          fun s1 hs hn => ?_, fun _ hs => by simp [Value.isStr] at hs⟩
        · cases hs
          rw [hp] at hy
          cases hy
          exact ⟨rfl, hlog⟩
        · cases hs
          rw [hp] at hn
          cases hn
      | none =>
        obtain ⟨jc2, h2, hl2⟩ := hrec
          ("Config key " ++ rt.quote key ++ " has bad boolean format " ++ rt.quote s)
        refine ⟨jc2, false, h2, (fun y hy => nomatch hy), fun s1 y hs hy => ?_,
          fun s1 hs _ => ?_, fun _ hs => by simp [Value.isStr] at hs⟩
        · cases hs
          rw [hp] at hy
          cases hy
        · cases hs
          exact ⟨rfl, hl2⟩
    | null | number _ | list _ | object _ | knownKeys _ | errors _ =>
      obtain ⟨jc2, h2, hl2⟩ := hrec ("Expected config key " ++ rt.quote key ++ " to be a boolean")
      exact ⟨jc2, false, h2, (fun y hy => nomatch hy), (fun s y hs _ => nomatch hs),
        (fun s hs _ => nomatch hs), fun _ _ => ⟨rfl, hl2⟩⟩
  · rw [h]
    obtain ⟨jc2, h2, hl2⟩ := hrec ("Expected config key " ++ rt.quote key ++ " to be a boolean")
    exact ⟨jc2, false, h2, (fun y hy => nomatch hy), (fun s y hs _ => nomatch hs),
      (fun s hs _ => nomatch hs), fun _ _ => ⟨rfl, hl2⟩⟩

/-- C12, as the code has it.  On an object whose bookkeeping entries are well
formed and a key that is present, each of `RequiredBool`, `OptionalBool` and
`Bool` (called with Boolean defaults) returns: a Boolean value as it is, with
no error; for a String that is one of `1`, `t`, `T`, `TRUE`, `true`, `True`
true, for one of `0`, `f`, `F`, `FALSE`, `false`, `False` false, with no
error; for any other String false, with exactly one error appended; for a value
of any other type false, with exactly one error appended. -/
theorem bool_accessors (rt : GoRuntime) (jc : Obj) (key : String) (d : Bool) (ds : List Bool)
    (v : Value) (r : Option (Obj × Bool)) (hwf : jc.wellFormed = true)
    (hv : jc.lookup key = some v)
    (hr : r = jc.RequiredBool rt key ∨ r = jc.OptionalBool rt key d ∨
      r = jc.Bool rt key (ds.map Arg.bool)) :
    ∃ jc1 b, r = some (jc1, b) ∧
      (∀ x, v = .bool x → b = x ∧ jc1.errorLog = jc.errorLog) ∧
      (∀ s, v = .str s → s ∈ ["1", "t", "T", "TRUE", "true", "True"] →
        b = true ∧ jc1.errorLog = jc.errorLog) ∧
      (∀ s, v = .str s → s ∈ ["0", "f", "F", "FALSE", "false", "False"] →
        b = false ∧ jc1.errorLog = jc.errorLog) ∧
      (∀ s, v = .str s →
        s ∉ ["1", "t", "T", "TRUE", "true", "True", "0", "f", "F", "FALSE", "false", "False"] →
        b = false ∧ jc1.errorLog = jc.errorLog ++
          ["Config key " ++ rt.quote key ++ " has bad boolean format " ++ rt.quote s]) ∧
      (v.isBool = false → v.isStr = false → b = false ∧
        jc1.errorLog = jc.errorLog ++
          ["Expected config key " ++ rt.quote key ++ " to be a boolean"]) := by
  have hd : ∃ d1, r = jc.bool rt key d1 := by
    rcases hr with hr | hr | hr
    · exact ⟨none, hr⟩
    · exact ⟨some d, hr⟩
    · refine ⟨some (ds.getLastD false), ?_⟩
      rw [hr]
      unfold Obj.Bool
      rw [boolDefault_bools]
  obtain ⟨d1, rfl⟩ := hd
  obtain ⟨jc1, b, h, hb, hs, hn, ho⟩ := bool_present rt d1 hwf hv
  refine ⟨jc1, b, h, hb, fun s e hm => hs s true e (ParseBool_true s ?_),
    fun s e hm => hs s false e (ParseBool_false s ?_),
    fun s e hm => hn s e (ParseBool_other s ?_ ?_), ho⟩
  · simpa using hm
  · simpa using hm
  · intro hc
    apply hm
    rcases hc with h | h | h | h | h | h <;> subst h <;> decide
  · intro hc
    apply hm
    rcases hc with h | h | h | h | h | h <;> subst h <;> decide

/-- C12 fails as stated: on a document that has the key `_errors`, a String
that is not a boolean literal makes each of the three accessors panic in
`appendError` instead of returning false with an error recorded. -/
theorem bool_accessors_counterexample :
    ([("_errors", .list []), ("debug", .str "maybe")] : Obj).lookup "debug" =
      some (.str "maybe") ∧
    Obj.RequiredBool linux64 [("_errors", .list []), ("debug", .str "maybe")] "debug" = none ∧
    Obj.OptionalBool linux64 [("_errors", .list []), ("debug", .str "maybe")] "debug" true
      = none ∧
    Obj.Bool linux64 [("_errors", .list []), ("debug", .str "maybe")] "debug" [] = none :=
  ⟨rfl, rfl, rfl, rfl⟩

theorem bool_accessors_witness :
    Obj.wellFormed [("debug", .str "True"), ("quiet", .str "no")] = true ∧
    (∃ jc1, Obj.RequiredBool linux64 [("debug", .str "True"), ("quiet", .str "no")] "debug"
        = some (jc1, true) ∧
      jc1.errorLog = Obj.errorLog [("debug", .str "True"), ("quiet", .str "no")]) := by
  refine ⟨rfl, ?_⟩
  obtain ⟨jc1, b, h, _, ht, _⟩ := bool_accessors linux64
    [("debug", .str "True"), ("quiet", .str "no")] "debug" false [] (.str "True") _ rfl rfl
    (Or.inl rfl)
  obtain ⟨hb, hl⟩ := ht "True" rfl (by decide)
  subst hb
  exact ⟨jc1, h, hl⟩

/-! ## Numbers -/

/-- Truncation discards the fraction: it is the floor of a number that is not
negative and the ceiling of one that is not positive. -/
theorem truncate_toward_zero (x : Rat) :
    (0 ≤ x → truncate x = ⌊x⌋) ∧ (x ≤ 0 → truncate x = ⌈x⌉) := by
  have hden : (0 : Int) < x.den := by exact_mod_cast x.den_pos
  constructor
  · intro hx
    have hnum : 0 ≤ x.num := Rat.num_nonneg.2 hx
    rw [Rat.floor_def, truncate, Int.tdiv_eq_ediv hnum (le_of_lt hden)]
  · intro hx
    have hnum : x.num ≤ 0 := Rat.num_nonpos.2 hx
    have hc : ⌈x⌉ = -⌊-x⌋ := by rw [Int.floor_neg, neg_neg]
    rw [hc, Rat.floor_def, Rat.neg_num, Rat.neg_den, truncate,
      ← Int.tdiv_eq_ediv (neg_nonneg.2 hnum) (le_of_lt hden), Int.neg_tdiv, neg_neg]

theorem truncate_natCast (n : Nat) : truncate (n : Rat) = n := by
  rw [(truncate_toward_zero _).1 (Nat.cast_nonneg n)]
  exact Int.floor_natCast n

theorem number_key_not_reserved {jc : Obj} {key : String} {x : Rat}
    (hwf : jc.wellFormed = true) (hl : jc.lookup key = some (.number x)) :
    key ≠ "_knownkeys" := by
  rintro rfl
  have := (Bool.and_eq_true _ _ ▸ hwf).1
  simp [hl] at this

/-- What the three integer helpers do on a key that holds a number, whatever
the default pointer: the conversion of the number, and no error. -/
theorem number_present (rt : GoRuntime) {jc : Obj} {key : String} {x : Rat}
    (hwf : jc.wellFormed = true) (hv : jc.lookup key = some (.number x)) :
    ∃ jc1, jc1.errorLog = jc.errorLog ∧
      (∀ d, jc.int rt key d = some (jc1, toSigned rt rt.intBits x)) ∧
      (∀ d, jc.uint rt key d = some (jc1, toUnsigned rt rt.intBits x)) ∧
      (∀ d, jc.int64 rt key d = some (jc1, toSigned rt 64 x)) := by
  obtain ⟨jc1, h1⟩ := noteKnownKey_isSome hwf key
  have hk := number_key_not_reserved hwf hv
  have hl : jc1.lookup key = some (.number x) := by rw [(noteKnownKey_some h1).2 key hk, hv]
  refine ⟨jc1, noteKnownKey_errorLog h1, fun d => ?_, fun d => ?_, fun d => ?_⟩
  · unfold Obj.int
    simp only [h1, hl]
  · unfold Obj.uint
    simp only [h1, hl]
  · unfold Obj.int64
    simp only [h1, hl]

/-- C13, as the code has it.  On an object whose bookkeeping entries are well
formed and a key whose value is the number `x`, the integer accessors record
no error and return `x` with its fraction discarded (the floor of `x` when it is
not negative, the ceiling when it is not positive): `RequiredInt` and
`RequiredInt64` when that integer is in the range of `int` and `int64`,
`RequiredUint` when `x` is not negative and that integer is in the range of
`uint`.  The number 7 read through `RequiredUint` is 7 (an `int` has at least
four bits), and on a whole number that is not negative and in the range of
`int` the signed and the unsigned accessor return the same value. -/
theorem integer_accessors (rt : GoRuntime) (jc : Obj) (key : String) (x : Rat)
    (hwf : jc.wellFormed = true) (hv : jc.lookup key = some (.number x)) :
    ∃ jc1, jc1.errorLog = jc.errorLog ∧
      (-(2 ^ (rt.intBits - 1) : Int) ≤ truncate x → truncate x < 2 ^ (rt.intBits - 1) →
        jc.RequiredInt rt key = some (jc1, truncate x)) ∧
      (-(2 ^ 63 : Int) ≤ truncate x → truncate x < 2 ^ 63 →
        jc.RequiredInt64 rt key = some (jc1, truncate x)) ∧
      (0 ≤ x → truncate x < 2 ^ rt.intBits →
        jc.RequiredUint rt key = some (jc1, truncate x)) ∧
      (0 ≤ x → truncate x = ⌊x⌋) ∧ (x ≤ 0 → truncate x = ⌈x⌉) ∧
      (x = 7 → 4 ≤ rt.intBits → jc.RequiredUint rt key = some (jc1, 7)) ∧
      (∀ n : Nat, x = n → (n : Int) < 2 ^ (rt.intBits - 1) →
        jc.RequiredInt rt key = some (jc1, (n : Int)) ∧
        jc.RequiredUint rt key = some (jc1, (n : Int))) := by
  obtain ⟨jc1, hlog, hint, huint, hint64⟩ := number_present rt hwf hv
  have hu : ∀ t : Int, truncate x = t → 0 ≤ t → t < 2 ^ rt.intBits →
      jc.RequiredUint rt key = some (jc1, t) := by
    intro t ht h0 hlt
    unfold Obj.RequiredUint
    rw [huint, toUnsigned, if_pos ⟨ht ▸ h0, ht ▸ hlt⟩, ht]
  have hs : ∀ t : Int, truncate x = t → -(2 ^ (rt.intBits - 1) : Int) ≤ t →
      t < 2 ^ (rt.intBits - 1) → jc.RequiredInt rt key = some (jc1, t) := by
    intro t ht h0 hlt
    unfold Obj.RequiredInt
    rw [hint, toSigned, if_pos ⟨ht ▸ h0, ht ▸ hlt⟩, ht]
  have hpow : (2 : Int) ^ (rt.intBits - 1) ≤ 2 ^ rt.intBits :=
    pow_le_pow_right₀ (by norm_num) (Nat.sub_le _ _)
  refine ⟨jc1, hlog, fun h0 hlt => hs _ rfl h0 hlt, fun h0 hlt => ?_, fun h0 hlt => ?_,
    (truncate_toward_zero x).1, (truncate_toward_zero x).2, fun h7 hb => ?_,
    fun n hn hlt => ?_⟩
  · unfold Obj.RequiredInt64
    rw [hint64, toSigned, if_pos ⟨h0, hlt⟩]
  · refine hu _ rfl ?_ hlt
    rw [(truncate_toward_zero x).1 h0]
    exact Int.floor_nonneg.2 h0
  · have ht : truncate x = 7 := by
      rw [h7]
      exact truncate_natCast 7
    refine hu 7 ht (by norm_num) ?_
    calc (7 : Int) < 2 ^ 4 := by norm_num
      _ ≤ 2 ^ rt.intBits := pow_le_pow_right₀ (by norm_num) hb
  · have ht : truncate x = n := by rw [hn, truncate_natCast]
    have hneg : -(2 ^ (rt.intBits - 1) : Int) ≤ n := by
      have : (0 : Int) ≤ 2 ^ (rt.intBits - 1) := by positivity
      have : (0 : Int) ≤ n := Int.natCast_nonneg n
      omega
    exact ⟨hs n ht hneg hlt, hu n ht (Int.natCast_nonneg n) (lt_of_lt_of_le hlt hpow)⟩

/-- C13 fails as stated: on a document that has the key `_knownkeys`, reading
the number 7 panics in `noteKnownKey`, through each of the three accessors. -/
theorem integer_accessors_counterexample :
    ([("_knownkeys", .number 1), ("n", .number 7)] : Obj).lookup "n" = some (.number 7) ∧
    Obj.RequiredUint linux64 [("_knownkeys", .number 1), ("n", .number 7)] "n" = none ∧
    Obj.RequiredInt linux64 [("_knownkeys", .number 1), ("n", .number 7)] "n" = none ∧
    Obj.RequiredInt64 linux64 [("_knownkeys", .number 1), ("n", .number 7)] "n" = none :=
  ⟨rfl, rfl, rfl, rfl⟩

theorem integer_accessors_witness :
    Obj.wellFormed [("n", .number 7)] = true ∧
    (∃ jc1, jc1.errorLog = Obj.errorLog [("n", .number 7)] ∧
      Obj.RequiredUint linux64 [("n", .number 7)] "n" = some (jc1, 7)) := by
  refine ⟨rfl, ?_⟩
  obtain ⟨jc1, hlog, _, _, _, _, _, h7, _⟩ :=
    integer_accessors linux64 [("n", .number 7)] "n" 7 rfl rfl
  exact ⟨jc1, hlog, h7 rfl (by decide)⟩

/-! ## The combined accessors and their default arguments -/

theorem record_isSome {α : Type} {jc1 : Obj} (hwf : jc1.wellFormed = true) (msg : String)
    (z : α) : ((jc1.appendError msg).map fun jc2 => (jc2, z)).isSome = true := by
  obtain ⟨jc2, h2⟩ := appendError_isSome hwf msg
  simp [h2]

theorem string_total (rt : GoRuntime) {jc : Obj} (hwf : jc.wellFormed = true) (key : String)
    (d : Option String) : (jc.string rt key d).isSome = true := by
  obtain ⟨jc1, h1⟩ := noteKnownKey_isSome hwf key
  have hwf1 := noteKnownKey_wellFormed h1 hwf
  unfold Obj.string
  simp only [h1]
  repeat' split
  all_goals first | rfl | exact record_isSome hwf1 _ _

theorem bool_total (rt : GoRuntime) {jc : Obj} (hwf : jc.wellFormed = true) (key : String)
    (d : Option Bool) : (jc.bool rt key d).isSome = true := by
  obtain ⟨jc1, h1⟩ := noteKnownKey_isSome hwf key
  have hwf1 := noteKnownKey_wellFormed h1 hwf
  unfold Obj.bool
  simp only [h1]
  repeat' split
  all_goals first | rfl | exact record_isSome hwf1 _ _

theorem int_total (rt : GoRuntime) {jc : Obj} (hwf : jc.wellFormed = true) (key : String)
    (d : Option Int) : (jc.int rt key d).isSome = true := by
  obtain ⟨jc1, h1⟩ := noteKnownKey_isSome hwf key
  have hwf1 := noteKnownKey_wellFormed h1 hwf
  unfold Obj.int
  simp only [h1]
  repeat' split
  all_goals first | rfl | exact record_isSome hwf1 _ _

theorem uint_total (rt : GoRuntime) {jc : Obj} (hwf : jc.wellFormed = true) (key : String)
    (d : Option Int) : (jc.uint rt key d).isSome = true := by
  obtain ⟨jc1, h1⟩ := noteKnownKey_isSome hwf key
  have hwf1 := noteKnownKey_wellFormed h1 hwf
  unfold Obj.uint
  simp only [h1]
  repeat' split
  all_goals first | rfl | exact record_isSome hwf1 _ _

theorem int64_total (rt : GoRuntime) {jc : Obj} (hwf : jc.wellFormed = true) (key : String)
    (d : Option Int) : (jc.int64 rt key d).isSome = true := by
  obtain ⟨jc1, h1⟩ := noteKnownKey_isSome hwf key
  have hwf1 := noteKnownKey_wellFormed h1 hwf
  unfold Obj.int64
  simp only [h1]
  repeat' split
  all_goals first | rfl | exact record_isSome hwf1 _ _

theorem stringDefault_bad (args : Args) (d : String)
    (h : ∃ a ∈ args, a.isStr = false) : stringDefault args d = none := by
  induction args generalizing d with
  | nil =>
    obtain ⟨a, ha, _⟩ := h
    cases ha
  | cons a args ih =>
    obtain ⟨b, hb, hbad⟩ := h
    cases a <;> first | rfl | skip
    all_goals
      simp only [stringDefault]
      apply ih
      rcases List.mem_cons.1 hb with rfl | h
      · simp [Arg.isStr] at hbad
      · exact ⟨b, h, hbad⟩

theorem stringDefault_good (args : Args) (d : String)
    (h : ∀ a ∈ args, a.isStr = true) : ∃ d1, stringDefault args d = some d1 := by
  induction args generalizing d with
  | nil => exact ⟨d, rfl⟩
  | cons a args ih =>
    have ha := h a (List.mem_cons_self _ _)
    have hr := fun d => ih d (fun b hb => h b (List.mem_cons_of_mem _ hb))
    cases a <;> first
      | (simp [Arg.isStr] at ha; done)
      | (simp only [stringDefault]; exact hr _)

theorem boolDefault_bad (args : Args) (d : Bool)
    (h : ∃ a ∈ args, a.isBool = false) : boolDefault args d = none := by
  induction args generalizing d with
  | nil =>
    obtain ⟨a, ha, _⟩ := h
    cases ha
  | cons a args ih =>
    obtain ⟨b, hb, hbad⟩ := h
    cases a <;> first | rfl | skip
    all_goals
      simp only [boolDefault]
      apply ih
      rcases List.mem_cons.1 hb with rfl | h
      · simp [Arg.isBool] at hbad
      · exact ⟨b, h, hbad⟩

theorem boolDefault_good (args : Args) (d : Bool)
    (h : ∀ a ∈ args, a.isBool = true) : ∃ d1, boolDefault args d = some d1 := by
  induction args generalizing d with
  | nil => exact ⟨d, rfl⟩
  | cons a args ih =>
    have ha := h a (List.mem_cons_self _ _)
    have hr := fun d => ih d (fun b hb => h b (List.mem_cons_of_mem _ hb))
    cases a <;> first
      | (simp [Arg.isBool] at ha; done)
      | (simp only [boolDefault]; exact hr _)

theorem intDefault_bad (args : Args) (d : Int)
    (h : ∃ a ∈ args, a.isInt = false) : intDefault args d = none := by
  induction args generalizing d with
  | nil =>
    obtain ⟨a, ha, _⟩ := h
    cases ha
  | cons a args ih =>
    obtain ⟨b, hb, hbad⟩ := h
    cases a <;> first | rfl | skip
    all_goals
      simp only [intDefault]
      apply ih
      rcases List.mem_cons.1 hb with rfl | h
      · simp [Arg.isInt] at hbad
      · exact ⟨b, h, hbad⟩

theorem intDefault_good (args : Args) (d : Int)
    (h : ∀ a ∈ args, a.isInt = true) : ∃ d1, intDefault args d = some d1 := by
  induction args generalizing d with
  | nil => exact ⟨d, rfl⟩
  | cons a args ih =>
    have ha := h a (List.mem_cons_self _ _)
    have hr := fun d => ih d (fun b hb => h b (List.mem_cons_of_mem _ hb))
    cases a <;> first
      | (simp [Arg.isInt] at ha; done)
      | (simp only [intDefault]; exact hr _)

theorem uintDefault_bad (rt : GoRuntime) (args : Args) (d : Int)
    (h : ∃ a ∈ args, (a.isInt || a.isUint) = false) : uintDefault rt args d = none := by
  induction args generalizing d with
  | nil =>
    obtain ⟨a, ha, _⟩ := h
    cases ha
  | cons a args ih =>
    obtain ⟨b, hb, hbad⟩ := h
    cases a <;> first | rfl | skip
    all_goals
      simp only [uintDefault]
      apply ih
      rcases List.mem_cons.1 hb with rfl | h
      · simp [Arg.isInt, Arg.isUint] at hbad
      · exact ⟨b, h, hbad⟩

theorem uintDefault_good (rt : GoRuntime) (args : Args) (d : Int)
    (h : ∀ a ∈ args, (a.isInt || a.isUint) = true) : ∃ d1, uintDefault rt args d = some d1 := by
  induction args generalizing d with
  | nil => exact ⟨d, rfl⟩
  | cons a args ih =>
    have ha := h a (List.mem_cons_self _ _)
    have hr := fun d => ih d (fun b hb => h b (List.mem_cons_of_mem _ hb))
    cases a <;> first
      | (simp [Arg.isInt, Arg.isUint] at ha; done)
      | (simp only [uintDefault]; exact hr _)

theorem int64Default_bad (args : Args) (d : Int)
    (h : ∃ a ∈ args, (a.isInt || a.isInt64) = false) : int64Default args d = none := by
  induction args generalizing d with
  | nil =>
    obtain ⟨a, ha, _⟩ := h
    cases ha
  | cons a args ih =>
    obtain ⟨b, hb, hbad⟩ := h
    cases a <;> first | rfl | skip
    all_goals
      simp only [int64Default]
      apply ih
      rcases List.mem_cons.1 hb with rfl | h
      · simp [Arg.isInt, Arg.isInt64] at hbad
      · exact ⟨b, h, hbad⟩

theorem int64Default_good (args : Args) (d : Int)
    (h : ∀ a ∈ args, (a.isInt || a.isInt64) = true) : ∃ d1, int64Default args d = some d1 := by
  induction args generalizing d with
  | nil => exact ⟨d, rfl⟩
  | cons a args ih =>
    have ha := h a (List.mem_cons_self _ _)
    have hr := fun d => ih d (fun b hb => h b (List.mem_cons_of_mem _ hb))
    cases a <;> first
      | (simp [Arg.isInt, Arg.isInt64] at ha; done)
      | (simp only [int64Default]; exact hr _)

theorem stringDefault_strs (ds : List String) (d : String) :
    stringDefault (ds.map Arg.str) d = some (ds.getLastD d) := by
  induction ds generalizing d with
  | nil => rfl
  | cons x ds ih =>
    simp only [List.map_cons, stringDefault, ih]
    cases ds <;> rfl

theorem intDefault_ints (ds : List Int) (d : Int) :
    intDefault (ds.map Arg.int) d = some (ds.getLastD d) := by
  induction ds generalizing d with
  | nil => rfl
  | cons x ds ih =>
    simp only [List.map_cons, intDefault, ih]
    cases ds <;> rfl

theorem uintDefault_uints (rt : GoRuntime) (ds : List Int) (d : Int) :
    uintDefault rt (ds.map Arg.uint) d = some (ds.getLastD d) := by
  induction ds generalizing d with
  | nil => rfl
  | cons x ds ih =>
    simp only [List.map_cons, uintDefault, ih]
    cases ds <;> rfl

theorem int64Default_int64s (ds : List Int) (d : Int) :
    int64Default (ds.map Arg.int64) d = some (ds.getLastD d) := by
  induction ds generalizing d with
  | nil => rfl
  | cons x ds ih =>
    simp only [List.map_cons, int64Default, ih]
    cases ds <;> rfl

/-- C14, as the code has it.  A call of `String`, `Bool`, `Int`, `Uint` or
`Int64` one of whose default arguments has a type the accessor does not take
(`Uint` takes `int` and `uint`, `Int64` takes `int` and `int64`) panics,
whatever the receiver.  A call whose default arguments all have a type the
accessor takes returns, whatever their number, when the object is not nil and
its bookkeeping entries are well formed; of several defaults the last one is
used. -/
theorem combined_defaults (rt : GoRuntime) (recv : Receiver) (key : String) (args : Args) :
    ((∃ a ∈ args, a.isStr = false) → recv.String rt key args = none) ∧
    ((∃ a ∈ args, a.isBool = false) → recv.Bool rt key args = none) ∧
    ((∃ a ∈ args, a.isInt = false) → recv.Int rt key args = none) ∧
    ((∃ a ∈ args, (a.isInt || a.isUint) = false) → recv.Uint rt key args = none) ∧
    ((∃ a ∈ args, (a.isInt || a.isInt64) = false) → recv.Int64 rt key args = none) ∧
    (∀ jc : Obj, recv = .map jc → jc.wellFormed = true →
      ((∀ a ∈ args, a.isStr = true) → (recv.String rt key args).isSome = true) ∧
      ((∀ a ∈ args, a.isBool = true) → (recv.Bool rt key args).isSome = true) ∧
      ((∀ a ∈ args, a.isInt = true) → (recv.Int rt key args).isSome = true) ∧
      ((∀ a ∈ args, (a.isInt || a.isUint) = true) → (recv.Uint rt key args).isSome = true) ∧
      ((∀ a ∈ args, (a.isInt || a.isInt64) = true) →
        (recv.Int64 rt key args).isSome = true)) ∧
    (∀ ds : List String,
      recv.String rt key (ds.map Arg.str) = recv.OptionalString rt key (ds.getLastD "")) ∧
    (∀ ds : List Bool,
      recv.Bool rt key (ds.map Arg.bool) = recv.OptionalBool rt key (ds.getLastD false)) ∧
    (∀ ds : List Int,
      recv.Int rt key (ds.map Arg.int) = recv.OptionalInt rt key (ds.getLastD 0)) ∧
    (∀ ds : List Int,
      recv.Uint rt key (ds.map Arg.uint) = recv.OptionalUint rt key (ds.getLastD 0)) ∧
    (∀ ds : List Int,
      recv.Int64 rt key (ds.map Arg.int64) = recv.OptionalInt64 rt key (ds.getLastD 0)) := by
  refine ⟨fun h => ?_, fun h => ?_, fun h => ?_, fun h => ?_, fun h => ?_,
    fun jc hr hwf => ?_,
    fun ds => ?_, fun ds => ?_, fun ds => ?_, fun ds => ?_, fun ds => ?_⟩
  · unfold Receiver.String
    rw [stringDefault_bad args "" h]
  · unfold Receiver.Bool
    rw [boolDefault_bad args false h]
  · unfold Receiver.Int
    rw [intDefault_bad args 0 h]
  · unfold Receiver.Uint
    rw [uintDefault_bad rt args 0 h]
  · unfold Receiver.Int64
    rw [int64Default_bad args 0 h]
  · subst hr
    refine ⟨fun h => ?_, fun h => ?_, fun h => ?_, fun h => ?_, fun h => ?_⟩
    · obtain ⟨d1, hd⟩ := stringDefault_good args "" h
      unfold Receiver.String
      rw [hd]
      exact string_total rt hwf key (some d1)
    · obtain ⟨d1, hd⟩ := boolDefault_good args false h
      unfold Receiver.Bool
      rw [hd]
      exact bool_total rt hwf key (some d1)
    · obtain ⟨d1, hd⟩ := intDefault_good args 0 h
      unfold Receiver.Int
      rw [hd]
      exact int_total rt hwf key (some d1)
    · obtain ⟨d1, hd⟩ := uintDefault_good rt args 0 h
      unfold Receiver.Uint
      rw [hd]
      exact uint_total rt hwf key (some d1)
    · obtain ⟨d1, hd⟩ := int64Default_good args 0 h
      unfold Receiver.Int64
      rw [hd]
      exact int64_total rt hwf key (some d1)
  · unfold Receiver.String Receiver.OptionalString
    rw [stringDefault_strs]
  · unfold Receiver.Bool Receiver.OptionalBool
    rw [boolDefault_bools]
  · unfold Receiver.Int Receiver.OptionalInt
    rw [intDefault_ints]
  · unfold Receiver.Uint Receiver.OptionalUint
    rw [uintDefault_uints]
  · unfold Receiver.Int64 Receiver.OptionalInt64
    rw [int64Default_int64s]

/-- C14 fails as stated.  A call with two defaults of the right type does not
abort: it returns, with the second default for an absent key.  And a call
without a default aborts on a document that has the key `_knownkeys`, and on
the nil `Obj`, where `noteKnownKey` assigns to the nil map. -/
theorem combined_defaults_counterexample :
    (Receiver.map []).String linux64 "name" [.str "a", .str "b"] =
      some ([("_knownkeys", .knownKeys ["name"])], "b") ∧
    (Receiver.map []).Int linux64 "port" [.int 80, .int 8080] =
      some ([("_knownkeys", .knownKeys ["port"])], 8080) ∧
    (Receiver.map [("_knownkeys", .null)]).String linux64 "name" [] = none ∧
    Receiver.nil.noteKnownKey "name" = none ∧
    Receiver.nil.String linux64 "name" [] = none ∧
    Receiver.nil.Bool linux64 "name" [.bool true] = none ∧
    Receiver.nil.Int linux64 "name" [] = none ∧
    Receiver.nil.Uint linux64 "name" [] = none ∧
    Receiver.nil.Int64 linux64 "name" [] = none :=
  ⟨rfl, rfl, rfl, rfl, rfl, rfl, rfl, rfl, rfl⟩

theorem combined_defaults_witness :
    (Receiver.map [("debug", .bool true)]).Bool linux64 "debug" [.bool false, .str "yes"]
      = none ∧
    Obj.wellFormed [("n", .number 7)] = true ∧
    ((Receiver.map [("n", .number 7)]).Uint linux64 "n" [.int 1, .uint 2, .int 3]).isSome
      = true :=
  ⟨(combined_defaults linux64 (.map [("debug", .bool true)]) "debug"
      [.bool false, .str "yes"]).2.1 ⟨.str "yes", by simp, rfl⟩,
    rfl,
    ((combined_defaults linux64 (.map [("n", .number 7)]) "n"
      [.int 1, .uint 2, .int 3]).2.2.2.2.2.1 _ rfl rfl).2.2.2.1
      (by simp [Arg.isInt, Arg.isUint])⟩

/-! ## The combined accessors as optional accessors -/

/-- C15, as the code has it.  With one default of its type each combined
accessor is the optional accessor with that default, and without a default it
is the optional accessor with the zero value: the two calls give the same
result, value and object alike, on every receiver and key (an `int` default of
`Uint` and `Int64` is converted first).  So on an object that is not nil and
whose bookkeeping entries are well formed, a key that is absent and is not
`_knownkeys`, read without a default, gives the zero value and leaves the error
log as it is. -/
theorem combined_is_optional (rt : GoRuntime) (recv : Receiver) (key : String) :
    (∀ d, recv.String rt key [.str d] = recv.OptionalString rt key d) ∧
    (∀ d, recv.Bool rt key [.bool d] = recv.OptionalBool rt key d) ∧
    (∀ d, recv.Int rt key [.int d] = recv.OptionalInt rt key d) ∧
    (∀ d, recv.Uint rt key [.uint d] = recv.OptionalUint rt key d) ∧
    (∀ d, recv.Int64 rt key [.int64 d] = recv.OptionalInt64 rt key d) ∧
    (∀ d, recv.Uint rt key [.int d] = recv.OptionalUint rt key (d % 2 ^ rt.intBits)) ∧
    (∀ d, recv.Int64 rt key [.int d] = recv.OptionalInt64 rt key d) ∧
    recv.String rt key [] = recv.OptionalString rt key "" ∧
    recv.Bool rt key [] = recv.OptionalBool rt key false ∧
    recv.Int rt key [] = recv.OptionalInt rt key 0 ∧
    recv.Uint rt key [] = recv.OptionalUint rt key 0 ∧
    recv.Int64 rt key [] = recv.OptionalInt64 rt key 0 ∧
    (∀ jc : Obj, recv = .map jc → jc.wellFormed = true → key ≠ "_knownkeys" →
      jc.lookup key = none →
      ∃ jc1, recv.noteKnownKey key = some jc1 ∧ jc1.errorLog = jc.errorLog ∧
        recv.String rt key [] = some (jc1, "") ∧
        recv.Bool rt key [] = some (jc1, false) ∧
        recv.Int rt key [] = some (jc1, 0) ∧
        recv.Uint rt key [] = some (jc1, 0) ∧
        recv.Int64 rt key [] = some (jc1, 0)) := by
  refine ⟨fun _ => rfl, fun _ => rfl, fun _ => rfl, fun _ => rfl, fun _ => rfl, fun _ => rfl,
    fun _ => rfl, rfl, rfl, rfl, rfl, rfl, fun jc hr hwf hk hn => ?_⟩
  subst hr
  obtain ⟨jc1, h1⟩ := noteKnownKey_isSome hwf key
  have hl := absent_after_note h1 hk hn
  refine ⟨jc1, h1, noteKnownKey_errorLog h1, ?_, ?_, ?_, ?_, ?_⟩
  · show jc.string rt key (some "") = _
    unfold Obj.string
    simp only [h1, hl]
  · show jc.bool rt key (some false) = _
    unfold Obj.bool
    simp only [h1, hl]
  · show jc.int rt key (some 0) = _
    unfold Obj.int
    simp only [h1, hl]
  · show jc.uint rt key (some 0) = _
    unfold Obj.uint
    simp only [h1, hl]
  · show jc.int64 rt key (some 0) = _
    unfold Obj.int64
    simp only [h1, hl]

/-- C15 fails as stated in its last part.  The key `_knownkeys` is absent from
the empty object, and reading it without a default records an error, because
`noteKnownKey` has stored the key set under that key before the lookup.  And
on the nil `Obj` every key is absent, and reading one without a default panics
in `noteKnownKey`, as the optional accessor does. -/
theorem combined_is_optional_counterexample :
    ([] : Obj).lookup "_knownkeys" = none ∧
    (∃ jc1, (Receiver.map []).String linux64 "_knownkeys" [] = some (jc1, "") ∧
      jc1.errorLog = ["Expected config key \"_knownkeys\" to be a string"]) ∧
    (∃ jc1, (Receiver.map []).Int linux64 "_knownkeys" [] = some (jc1, 0) ∧
      jc1.errorLog = ["Expected config key \"_knownkeys\" to be a number"]) ∧
    Receiver.nil.noteKnownKey "port" = none ∧
    Receiver.nil.Int linux64 "port" [] = none ∧
    Receiver.nil.OptionalInt linux64 "port" 0 = none :=
  ⟨rfl, ⟨_, rfl, by decide⟩, ⟨_, rfl, by decide⟩, rfl, rfl, rfl⟩

theorem combined_is_optional_witness :
    Obj.wellFormed [("host", .str "localhost")] = true ∧
    (∃ jc1, jc1.errorLog = [] ∧
      (Receiver.map [("host", .str "localhost")]).Int linux64 "port" [] = some (jc1, 0)) := by
  refine ⟨rfl, ?_⟩
  obtain ⟨jc1, _, hlog, _, _, hint, _⟩ :=
    (combined_is_optional linux64 (.map [("host", .str "localhost")])
      "port").2.2.2.2.2.2.2.2.2.2.2.2 _ rfl rfl (by decide) rfl
  exact ⟨jc1, hlog, hint⟩

/-! ## What an expander returns -/

theorem expandEnv_ok_scalar (rt : GoRuntime) (w : World) (v : List Value) (r : Value)
    (h : ConfigParser.expandEnv rt w v = .ok r) : (∃ s, r = .str s) ∨ ∃ b, r = .bool b := by
  unfold ConfigParser.expandEnv at h
  repeat' split at h
  all_goals try dsimp only at h
  all_goals repeat' split at h
  all_goals (cases h <;> first | exact Or.inl ⟨_, rfl⟩ | exact Or.inr ⟨_, rfl⟩)

theorem expandFile_ok_object (w : World) (rd : Reader) (v : List Value) (c c1 : ConfigParser)
    (r : Value) (h : ConfigParser.expandFile w rd v c = (c1, .ok r)) :
    ∃ p m, rd p c = (c1, .ok m) ∧ r = .object m := by
  unfold ConfigParser.expandFile at h
  repeat' split at h
  all_goals first
    | (cases h; done)
    | (rename_i heq; cases h; exact ⟨_, _, heq, rfl⟩)

/-- The value `evalValue` returns for an element that is neither a string
naming an expander nor an `_env` expression is not a string naming one. -/
theorem evalValue_not_tag (rt : GoRuntime) (w : World) (rd : Reader) (v : Value)
    (c c1 : ConfigParser) (v1 r : Value)
    (h : ConfigParser.evalValue rt w rd v c = (c1, v1, .ok r))
    (ht : expanderOf v = none) (he : isEnvExpression v = false) : expanderOf r = none := by
  cases v with
  | list xs =>
    cases xs with
    | nil => simp [ConfigParser.evalValue] at h
    | cons first more =>
      rw [ConfigParser.evalValue] at h
      split at h <;> rename_i hexp
      · simp [isEnvExpression, hexp] at he
      · simp only [Prod.mk.injEq] at h
        obtain ⟨p, m, _, hr⟩ := expandFile_ok_object w rd more c _ r
          (Prod.ext rfl h.2.2)
        rw [hr]
        rfl
      · split at h <;> cases h
        rfl
  | null | bool _ | number _ | str _ | object _ | knownKeys _ | errors _ =>
    simp only [ConfigParser.evalValue, Prod.mk.injEq, Outcome.ok.injEq] at h
    rw [← h.2.2]
    exact ht

/-- The first element of the array the loop of `evalValue` leaves is the value
`evalValue` returns for the first element. -/
theorem evalElems_head (rt : GoRuntime) (w : World) (rd : Reader) (first : Value)
    (more : List Value) (c c1 : ConfigParser) (sl : List Value)
    (h : ConfigParser.evalElems rt w rd (first :: more) c = (c1, sl, .ok ())) :
    ∃ c2 v1 r rest, ConfigParser.evalValue rt w rd first c = (c2, v1, .ok r) ∧
      sl = r :: rest := by
  rw [ConfigParser.evalElems] at h
  split at h <;> rename_i heq
  · simp only [Prod.mk.injEq] at h
    exact ⟨_, _, _, _, heq, h.2.1.symm⟩
  all_goals cases h

/-! ## The tree a load returns -/

theorem noExpression_scalar {r : Value} (h : (∃ s, r = .str s) ∨ ∃ b, r = .bool b) :
    noExpression r = true := by
  rcases h with ⟨s, rfl⟩ | ⟨b, rfl⟩ <;> rfl

mutual
theorem evalValue_expanded (rt : GoRuntime) (w : World) {rd : Reader}
    (hrd : ∀ p c c1 m, rd p c = (c1, .ok m) → noExpressionFields m = true) :
    ∀ (v : Value) (c c1 : ConfigParser) (v1 r : Value), tameValue v = true →
      ConfigParser.evalValue rt w rd v c = (c1, v1, .ok r) → noExpression r = true
  | .list [], c, c1, v1, r, _, h => by simp [ConfigParser.evalValue] at h
  | .list (first :: more), c, c1, v1, r, ht, h => by
    rw [ConfigParser.evalValue] at h
    rw [tameValue] at ht
    split at h <;> rename_i hexp
    · simp only [Prod.mk.injEq] at h
      exact noExpression_scalar (expandEnv_ok_scalar rt w more r h.2.2)
    · simp only [Prod.mk.injEq] at h
      obtain ⟨p, m, hm, hr⟩ := expandFile_ok_object w rd more c _ r (Prod.ext rfl h.2.2)
      rw [hr, noExpression]
      exact hrd _ _ _ _ hm
    · simp only [hexp, Bool.and_eq_true, Bool.not_eq_true'] at ht
      split at h <;> rename_i heq
      · simp only [Prod.mk.injEq, Outcome.ok.injEq] at h
        rw [← h.2.2]
        have hel := evalElems_expanded rt w hrd (first :: more) c _ _ ht.2 heq
        obtain ⟨c2, v2, r0, rest, h0, hsl⟩ := evalElems_head rt w rd first more c _ _ heq
        have h1 := evalValue_not_tag rt w rd first c c2 v2 r0 h0 hexp ht.1
        rw [noExpression, hel, hsl, isExpression, h1]
        rfl
      all_goals cases h
  | .null, c, c1, v1, r, _, h => by
    simp only [ConfigParser.evalValue, Prod.mk.injEq, Outcome.ok.injEq] at h
    rw [← h.2.2]; rfl
  | .bool _, c, c1, v1, r, _, h => by
    simp only [ConfigParser.evalValue, Prod.mk.injEq, Outcome.ok.injEq] at h
    rw [← h.2.2]; rfl
  | .number _, c, c1, v1, r, _, h => by
    simp only [ConfigParser.evalValue, Prod.mk.injEq, Outcome.ok.injEq] at h
    rw [← h.2.2]; rfl
  | .str _, c, c1, v1, r, _, h => by
    simp only [ConfigParser.evalValue, Prod.mk.injEq, Outcome.ok.injEq] at h
    rw [← h.2.2]; rfl
  | .object m, c, c1, v1, r, ht, h => by
    simp only [ConfigParser.evalValue, Prod.mk.injEq, Outcome.ok.injEq] at h
    rw [← h.2.2, noExpression]
    rw [tameValue] at ht
    exact ht
  | .knownKeys _, c, c1, v1, r, _, h => by
    simp only [ConfigParser.evalValue, Prod.mk.injEq, Outcome.ok.injEq] at h
    rw [← h.2.2]; rfl
  | .errors _, c, c1, v1, r, _, h => by
    simp only [ConfigParser.evalValue, Prod.mk.injEq, Outcome.ok.injEq] at h
    rw [← h.2.2]; rfl
theorem evalElems_expanded (rt : GoRuntime) (w : World) {rd : Reader}
    (hrd : ∀ p c c1 m, rd p c = (c1, .ok m) → noExpressionFields m = true) :
    ∀ (l : List Value) (c c1 : ConfigParser) (sl : List Value), tameElems l = true →
      ConfigParser.evalElems rt w rd l c = (c1, sl, .ok ()) → noExpressionElems sl = true
  | [], c, c1, sl, _, h => by
    simp only [ConfigParser.evalElems, Prod.mk.injEq] at h
    rw [← h.2.1]; rfl
  | oldval :: rest, c, c1, sl, ht, h => by
    rw [ConfigParser.evalElems] at h
    rw [tameElems, Bool.and_eq_true] at ht
    split at h <;> rename_i heq
    · simp only [Prod.mk.injEq] at h
      rw [← h.2.1, noExpressionElems, Bool.and_eq_true]
      exact ⟨evalValue_expanded rt w hrd oldval c _ _ _ ht.1 heq,
        evalElems_expanded rt w hrd rest _ _ _ ht.2 (Prod.ext rfl (Prod.ext rfl h.2.2))⟩
    all_goals cases h
end

mutual
theorem evaluateEntry_expanded (rt : GoRuntime) (w : World) {rd : Reader}
    (hrd : ∀ p c c1 m, rd p c = (c1, .ok m) → noExpressionFields m = true) :
    ∀ (ei : Value) (k : String) (seenKeys : List String) (c c1 : ConfigParser) (v : Value),
      tameEntry ei = true →
      ConfigParser.evaluateEntry rt w rd false ei k seenKeys c = (c1, v, .ok ()) →
      noExpression v = true
  | .list [], k, seenKeys, c, c1, v, _, h => by
    simp only [ConfigParser.evaluateEntry, Prod.mk.injEq] at h
    rw [← h.2.1]; rfl
  | .list (x :: xs), k, seenKeys, c, c1, v, ht, h => by
    rw [ConfigParser.evaluateEntry] at h
    rw [tameEntry] at ht
    split at h <;> rename_i heq
    · simp only [Prod.mk.injEq, Bool.false_eq_true, if_false] at h
      rw [← h.2.1]
      exact evalValue_expanded rt w hrd _ c _ _ _ ht heq
    all_goals cases h
  | .object subval, k, seenKeys, c, c1, v, ht, h => by
    rw [ConfigParser.evaluateEntry] at h
    rw [tameEntry] at ht
    split at h
    rename_i c2 sub out heq
    simp only [Prod.mk.injEq] at h
    rw [← h.2.1, noExpression]
    rw [h.2.2] at heq
    exact evaluateExpressions_expanded rt w hrd subval _ c _ _ ht heq
  | .str _, k, seenKeys, c, c1, v, _, h => by
    simp only [ConfigParser.evaluateEntry, Prod.mk.injEq] at h
    rw [← h.2.1]; rfl
  | .bool _, k, seenKeys, c, c1, v, _, h => by
    simp only [ConfigParser.evaluateEntry, Prod.mk.injEq] at h
    rw [← h.2.1]; rfl
  | .number _, k, seenKeys, c, c1, v, _, h => by
    simp only [ConfigParser.evaluateEntry, Prod.mk.injEq] at h
    rw [← h.2.1]; rfl
  | .null, k, seenKeys, c, c1, v, _, h => by
    simp [ConfigParser.evaluateEntry] at h
  | .knownKeys _, k, seenKeys, c, c1, v, _, h => by
    simp [ConfigParser.evaluateEntry] at h
  | .errors _, k, seenKeys, c, c1, v, _, h => by
    simp [ConfigParser.evaluateEntry] at h
theorem evaluateExpressions_expanded (rt : GoRuntime) (w : World) {rd : Reader}
    (hrd : ∀ p c c1 m, rd p c = (c1, .ok m) → noExpressionFields m = true) :
    ∀ (m : Obj) (seenKeys : List String) (c c1 : ConfigParser) (m1 : Obj),
      tameFields m = true →
      ConfigParser.evaluateExpressions rt w rd false m seenKeys c = (c1, m1, .ok ()) →
      noExpressionFields m1 = true
  | [], seenKeys, c, c1, m1, _, h => by
    simp only [ConfigParser.evaluateExpressions, Prod.mk.injEq] at h
    rw [← h.2.1]; rfl
  | (k, ei) :: rest, seenKeys, c, c1, m1, ht, h => by
    rw [ConfigParser.evaluateExpressions] at h
    rw [tameFields, Bool.and_eq_true] at ht
    split at h <;> rename_i heq
    · simp only [Prod.mk.injEq] at h
      rw [← h.2.1, noExpressionFields, Bool.and_eq_true]
      exact ⟨evaluateEntry_expanded rt w hrd ei k seenKeys c _ _ ht.1 heq,
        evaluateExpressions_expanded rt w hrd rest seenKeys _ _ _ ht.2
          (Prod.ext rfl (Prod.ext rfl h.2.2))⟩
    all_goals cases h
end

/-- In a world whose documents are tame, the object a load returns contains no
expression array. -/
theorem recursiveReadJSON_expanded (rt : GoRuntime) (w : World) (hw : TameWorld w) :
    ∀ (fuel : Nat) (p : String) (c c1 : ConfigParser) (m : Obj),
      ConfigParser.recursiveReadJSON rt w fuel p c = (c1, .ok m) →
      noExpressionFields m = true
  | 0, p, c, c1, m, h => by simp [ConfigParser.recursiveReadJSON] at h
  | fuel + 1, p, c, c1, m, h => by
    rw [ConfigParser.recursiveReadJSON] at h
    repeat' split at h
    all_goals first
      | cases h
      | skip
    rename_i _ a _ _ touched _ _ _ doc hdoc
    dsimp only at h
    rcases hev : ConfigParser.evaluateExpressions rt w (ConfigParser.recursiveReadJSON rt w fuel)
      false doc [] { touchedFiles := some (a :: touched), includeStack := c.includeStack ++ [a] }
      with ⟨c2, m2, out⟩
    rw [hev] at h
    cases out with
    | ok u =>
      simp only [Prod.mk.injEq, Outcome.ok.injEq] at h
      rw [← h.2]
      exact evaluateExpressions_expanded rt w
        (fun q c c1 m => recursiveReadJSON_expanded rt w hw fuel q c c1 m) doc [] _ _ _
        (hw p doc hdoc) hev
    | error e => simp at h
    | panic e => simp at h
    | outOfFuel => simp at h

/-- C16, as the code has it.  When, in every document of the world, an object
that is an element of an array holds no expression array and an array that is
not an expression array does not start with an `_env` expression, the tree a
successful evaluation leaves contains no expression array, at any depth and in
any nesting context: so for the evaluation of a tame document, whatever the
parser and the key path, and so for the document `ReadFile` returns. -/
theorem expansion_leaves_no_expression (rt : GoRuntime) (w : World) (hw : TameWorld w) :
    (∀ (fuel : Nat) (doc : Obj) (seenKeys : List String) (c c1 : ConfigParser) (m : Obj),
      tameFields doc = true →
      ConfigParser.evaluateExpressions rt w (ConfigParser.recursiveReadJSON rt w fuel) false doc
        seenKeys c = (c1, m, .ok ()) →
      noExpressionFields m = true) ∧
    (∀ (path : String) (m : Obj), ReadFile rt w path = .ok m → noExpressionFields m = true) := by
  refine ⟨fun fuel doc seenKeys c c1 m ht h => ?_, fun path m h => ?_⟩
  · exact evaluateExpressions_expanded rt w
      (fun q c c1 m => recursiveReadJSON_expanded rt w hw fuel q c c1 m) doc seenKeys c c1 m ht h
  · unfold ReadFile ConfigParser.ReadFile at h
    exact recursiveReadJSON_expanded rt w hw _ path _ _ m (Prod.ext rfl h)

/-- C16 fails as stated.  The walk does not enter an object that is an element
of an array, so the expression array inside it stays; and the values put in
place are not evaluated again, so an array whose first element is an `_env`
expression with the value `_env` becomes an array that starts with the tag. -/
theorem expansion_counterexample :
    ReadFile linux64 walkWorld "inner.json" =
      .ok [("k", .list [.object [("x", .list [.str "_env", .str "${TEST_BAR}"])]])] ∧
    noExpressionFields
      [("k", .list [.object [("x", .list [.str "_env", .str "${TEST_BAR}"])]])] = false ∧
    ReadFile linux64 walkWorld "first.json" = .ok [("k", .list [.str "_env", .str "x"])] ∧
    noExpressionFields [("k", .list [.str "_env", .str "x"])] = false :=
  ⟨rfl, rfl, rfl, rfl⟩

theorem includeWorld_tame : TameWorld includeWorld := by
  intro p doc h
  simp only [includeWorld, List.lookup] at h
  repeat' split at h
  all_goals (cases h <;> rfl)

theorem expansion_leaves_no_expression_witness :
    TameWorld includeWorld ∧
    ReadFile linux64 includeWorld "root.json" =
      .ok [("k", .list [.str "foo", .str "bar"]), ("sub", .object [("v", .str "bar")])] ∧
    noExpressionFields
      [("k", .list [.str "foo", .str "bar"]), ("sub", .object [("v", .str "bar")])] = true :=
  ⟨includeWorld_tame, rfl,
    (expansion_leaves_no_expression linux64 includeWorld includeWorld_tame).2 "root.json" _ rfl⟩

/-! ## Empty arrays -/

/-- C17 fails on the code.  An empty array that is the value of an object key
is left untouched, without error: `evaluateExpressions` tests its length.
`evalValue` does not: on an empty array it indexes `sl[0]` and panics, so an
empty array that is an element of another array aborts the walk, as in the
document `empty.json` of `walkWorld`. -/
theorem empty_array_walk (rt : GoRuntime) (w : World) (rd : Reader) (testOnly : Bool)
    (k : String) (seenKeys : List String) (more : List Value) (c : ConfigParser) :
    ConfigParser.evaluateExpressions rt w rd testOnly [(k, .list [])] seenKeys c =
      (c, [(k, .list [])], .ok ()) ∧
    ConfigParser.evalValue rt w rd (.list []) c = (c, .list [], .panic "index out of range") ∧
    ConfigParser.evalValue rt w rd (.list (.list [] :: more)) c =
      (c, .list (.list [] :: more), .panic "index out of range") ∧
    ConfigParser.evaluateExpressions rt w rd testOnly [(k, .list (.list [] :: more))] seenKeys c =
      (c, [(k, .list (.list [] :: more))], .panic "index out of range") ∧
    ReadFile linux64 walkWorld "empty.json" = .panic "index out of range" := by
  have h : ConfigParser.evalValue rt w rd (.list (.list [] :: more)) c =
      (c, .list (.list [] :: more), .panic "index out of range") := by
    simp [ConfigParser.evalValue, ConfigParser.evalElems, expanderOf]
  refine ⟨rfl, rfl, h, ?_, rfl⟩
  simp [ConfigParser.evaluateExpressions, ConfigParser.evaluateEntry, h]

/-! ## Documents without expression arrays -/

mutual
theorem evalValue_plain (rt : GoRuntime) (w : World) (rd : Reader) :
    ∀ (v : Value) (c : ConfigParser), plainValue v = true →
      ConfigParser.evalValue rt w rd v c = (c, v, .ok v)
  | .list [], c, h => by simp [plainValue] at h
  | .list (first :: more), c, h => by
    rw [plainValue, Bool.and_eq_true, Option.isNone_iff_eq_none] at h
    rw [ConfigParser.evalValue]
    simp only [h.1, evalElems_plain rt w rd (first :: more) c h.2]
  | .null, c, _ => rfl
  | .bool _, c, _ => rfl
  | .number _, c, _ => rfl
  | .str _, c, _ => rfl
  | .object _, c, _ => rfl
  | .knownKeys _, c, _ => rfl
  | .errors _, c, _ => rfl
theorem evalElems_plain (rt : GoRuntime) (w : World) (rd : Reader) :
    ∀ (l : List Value) (c : ConfigParser), plainElems l = true →
      ConfigParser.evalElems rt w rd l c = (c, l, .ok ())
  | [], c, _ => rfl
  | oldval :: rest, c, h => by
    rw [plainElems, Bool.and_eq_true] at h
    rw [ConfigParser.evalElems]
    simp only [evalValue_plain rt w rd oldval c h.1, evalElems_plain rt w rd rest c h.2]
end

mutual
theorem evaluateEntry_plain (rt : GoRuntime) (w : World) (rd : Reader) (testOnly : Bool) :
    ∀ (ei : Value) (k : String) (seenKeys : List String) (c : ConfigParser),
      plainEntry ei = true →
      ConfigParser.evaluateEntry rt w rd testOnly ei k seenKeys c = (c, ei, .ok ())
  | .list [], k, seenKeys, c, _ => rfl
  | .list (x :: xs), k, seenKeys, c, h => by
    rw [plainEntry] at h
    rw [ConfigParser.evaluateEntry]
    simp only [evalValue_plain rt w rd (.list (x :: xs)) c h, ite_self]
  | .object subval, k, seenKeys, c, h => by
    rw [plainEntry] at h
    rw [ConfigParser.evaluateEntry]
    simp only [evaluateExpressions_plain rt w rd testOnly subval (seenKeys ++ [k]) c h]
  | .str _, k, seenKeys, c, _ => rfl
  | .bool _, k, seenKeys, c, _ => rfl
  | .number _, k, seenKeys, c, _ => rfl
  | .null, k, seenKeys, c, h => by simp [plainEntry] at h
  | .knownKeys _, k, seenKeys, c, h => by simp [plainEntry] at h
  | .errors _, k, seenKeys, c, h => by simp [plainEntry] at h
theorem evaluateExpressions_plain (rt : GoRuntime) (w : World) (rd : Reader)
    (testOnly : Bool) :
    ∀ (m : Obj) (seenKeys : List String) (c : ConfigParser), plainFields m = true →
      ConfigParser.evaluateExpressions rt w rd testOnly m seenKeys c = (c, m, .ok ())
  | [], seenKeys, c, _ => rfl
  | (k, ei) :: rest, seenKeys, c, h => by
    rw [plainFields, Bool.and_eq_true] at h
    rw [ConfigParser.evaluateExpressions]
    simp only [evaluateEntry_plain rt w rd testOnly ei k seenKeys c h.1,
      evaluateExpressions_plain rt w rd testOnly rest seenKeys c h.2]
end

/-- The walk of `evaluateExpressions` stops at the first entry it cannot
handle: after entries that evaluate to themselves, an entry whose value is
null ends the walk with an error. -/
theorem evaluateExpressions_null (rt : GoRuntime) (w : World) (rd : Reader) (testOnly : Bool)
    (k : String) (post : Obj) (seenKeys : List String) (c : ConfigParser) :
    ∀ pre : Obj, plainFields pre = true →
      ConfigParser.evaluateExpressions rt w rd testOnly (pre ++ (k, .null) :: post) seenKeys c =
        (c, pre ++ (k, .null) :: post,
          .error (Join (seenKeys ++ [k]) "." ++ ": unhandled type <nil>"))
  | [], _ => by
    simp only [List.nil_append, ConfigParser.evaluateExpressions, ConfigParser.evaluateEntry,
      typeName, String.append_assoc]
    rfl
  | (k1, ei) :: pre, h => by
    rw [plainFields, Bool.and_eq_true] at h
    rw [List.cons_append, ConfigParser.evaluateExpressions]
    simp only [evaluateEntry_plain rt w rd testOnly ei k1 seenKeys c h.1,
      evaluateExpressions_null rt w rd testOnly k post seenKeys c pre h.2]

/-- C18, as the code has it.  A document whose object values (at any depth of
objects) are strings, booleans, numbers, arrays and objects, and in which the
walk meets no expression array and no empty array inside an array, evaluates
to itself without error, whatever the parser, and `ReadFile` returns it.  A
null inside an array is left as it is; a key whose value is null ends the
walk with the error `unhandled type <nil>`. -/
theorem plain_document_evaluates (rt : GoRuntime) (w : World) (m : Obj)
    (h : plainFields m = true) :
    (∀ (rd : Reader) (testOnly : Bool) (seenKeys : List String) (c : ConfigParser),
      ConfigParser.evaluateExpressions rt w rd testOnly m seenKeys c = (c, m, .ok ())) ∧
    (∀ path a : String, w.abs path = some a → w.files.lookup path = some (.document m) →
      ReadFile rt w path = .ok m) ∧
    (∀ (rd : Reader) (testOnly : Bool) (k : String) (seenKeys : List String)
      (c : ConfigParser),
      ConfigParser.evaluateExpressions rt w rd testOnly (m ++ [(k, .list [.null])]) seenKeys c =
        (c, m ++ [(k, .list [.null])], .ok ())) ∧
    (∀ (rd : Reader) (testOnly : Bool) (k : String) (post : Obj) (seenKeys : List String)
      (c : ConfigParser),
      ConfigParser.evaluateExpressions rt w rd testOnly (m ++ (k, .null) :: post) seenKeys c =
        (c, m ++ (k, .null) :: post,
          .error (Join (seenKeys ++ [k]) "." ++ ": unhandled type <nil>"))) := by
  refine ⟨fun rd testOnly seenKeys c => evaluateExpressions_plain rt w rd testOnly m seenKeys c h,
    fun path a ha hl => ?_, fun rd testOnly k seenKeys c => ?_,
    fun rd testOnly k post seenKeys c =>
      evaluateExpressions_null rt w rd testOnly k post seenKeys c m h⟩
  · unfold ReadFile ConfigParser.ReadFile
    rw [ConfigParser.recursiveReadJSON]
    simp only [ha, hl, List.not_mem_nil, if_false,
      evaluateExpressions_plain rt w _ false m [] _ h]
  · refine evaluateExpressions_plain rt w rd testOnly _ seenKeys c ?_
    induction m with
    | nil => rfl
    | cons kv rest ih =>
      obtain ⟨k1, ei⟩ := kv
      rw [plainFields, Bool.and_eq_true] at h
      rw [List.cons_append, plainFields, Bool.and_eq_true]
      exact ⟨h.1, ih h.2⟩

/-- C18 fails as stated: the document `null.json` of `walkWorld`, one key
whose value is null, has only values of the decoder and no expression array,
and its load fails. -/
theorem plain_document_counterexample :
    walkWorld.files.lookup "null.json" = some (.document [("k", .null)]) ∧
    noExpressionFields [("k", .null)] = true ∧
    ReadFile linux64 walkWorld "null.json" =
      .error "error expanding JSON config expressions in null.json:\nk: unhandled type <nil>" :=
  ⟨rfl, rfl, rfl⟩

theorem plain_document_evaluates_witness :
    plainFields [("a", .str "x"), ("l", .list [.null, .number 1, .list [.str "y"]]),
      ("e", .list []), ("o", .object [("b", .bool true)])] = true ∧
    ConfigParser.evaluateExpressions linux64 includeWorld
      (ConfigParser.recursiveReadJSON linux64 includeWorld 0) false
      [("a", .str "x"), ("l", .list [.null, .number 1, .list [.str "y"]]),
        ("e", .list []), ("o", .object [("b", .bool true)])] [] ⟨some [], []⟩ =
      (⟨some [], []⟩, [("a", .str "x"), ("l", .list [.null, .number 1, .list [.str "y"]]),
        ("e", .list []), ("o", .object [("b", .bool true)])], .ok ()) :=
  ⟨rfl, (plain_document_evaluates linux64 includeWorld
    [("a", .str "x"), ("l", .list [.null, .number 1, .list [.str "y"]]),
      ("e", .list []), ("o", .object [("b", .bool true)])] rfl).1 _ false [] ⟨some [], []⟩⟩

/-! ## Evaluation without expression arrays changes nothing -/

mutual
theorem evalValue_same (rt : GoRuntime) (w : World) (rd : Reader) :
    ∀ (v : Value) (c : ConfigParser), noExpression v = true →
      ∃ out, ConfigParser.evalValue rt w rd v c = (c, v, out) ∧ ∀ r, out = .ok r → r = v
  | .list [], c, _ => ⟨_, rfl, fun _ hr => nomatch hr⟩
  | .list (first :: more), c, h => by
    rw [noExpression, Bool.and_eq_true, Bool.not_eq_true', isExpression] at h
    have hn : expanderOf first = none := by
      cases hx : expanderOf first with
      | none => rfl
      | some x => rw [hx] at h; exact absurd h.1 (by simp)
    obtain ⟨out, he⟩ := evalElems_same rt w rd (first :: more) c h.2
    rw [ConfigParser.evalValue]
    simp only [hn, he]
    cases out with
    | ok u => exact ⟨_, rfl, fun r hr => by cases hr; rfl⟩
    | error e => exact ⟨_, rfl, fun _ hr => nomatch hr⟩
    | panic p => exact ⟨_, rfl, fun _ hr => nomatch hr⟩
    | outOfFuel => exact ⟨_, rfl, fun _ hr => nomatch hr⟩
  | .null, c, _ => ⟨_, rfl, fun r hr => by cases hr; rfl⟩
  | .bool _, c, _ => ⟨_, rfl, fun r hr => by cases hr; rfl⟩
  | .number _, c, _ => ⟨_, rfl, fun r hr => by cases hr; rfl⟩
  | .str _, c, _ => ⟨_, rfl, fun r hr => by cases hr; rfl⟩
  | .object _, c, _ => ⟨_, rfl, fun r hr => by cases hr; rfl⟩
  | .knownKeys _, c, _ => ⟨_, rfl, fun r hr => by cases hr; rfl⟩
  | .errors _, c, _ => ⟨_, rfl, fun r hr => by cases hr; rfl⟩
theorem evalElems_same (rt : GoRuntime) (w : World) (rd : Reader) :
    ∀ (l : List Value) (c : ConfigParser), noExpressionElems l = true →
      ∃ out, ConfigParser.evalElems rt w rd l c = (c, l, out)
  | [], c, _ => ⟨_, rfl⟩
  | oldval :: rest, c, h => by
    rw [noExpressionElems, Bool.and_eq_true] at h
    obtain ⟨out, hv, hr⟩ := evalValue_same rt w rd oldval c h.1
    obtain ⟨out2, he⟩ := evalElems_same rt w rd rest c h.2
    rw [ConfigParser.evalElems]
    cases out with
    | ok r =>
      rw [hr r rfl] at hv
      simp only [hv, he]
      exact ⟨_, rfl⟩
    | error e => simp only [hv]; exact ⟨_, rfl⟩
    | panic p => simp only [hv]; exact ⟨_, rfl⟩
    | outOfFuel => simp only [hv]; exact ⟨_, rfl⟩
end

mutual
theorem evaluateEntry_same (rt : GoRuntime) (w : World) (rd : Reader) (testOnly : Bool) :
    ∀ (ei : Value) (k : String) (seenKeys : List String) (c : ConfigParser),
      noExpression ei = true →
      ∃ out, ConfigParser.evaluateEntry rt w rd testOnly ei k seenKeys c = (c, ei, out)
  | .list [], k, seenKeys, c, _ => ⟨_, rfl⟩
  | .list (x :: xs), k, seenKeys, c, h => by
    obtain ⟨out, hv, hr⟩ := evalValue_same rt w rd (.list (x :: xs)) c h
    rw [ConfigParser.evaluateEntry]
    cases out with
    | ok r =>
      rw [hr r rfl] at hv
      simp only [hv, ite_self]
      exact ⟨_, rfl⟩
    | error e => simp only [hv]; exact ⟨_, rfl⟩
    | panic p => simp only [hv]; exact ⟨_, rfl⟩
    | outOfFuel => simp only [hv]; exact ⟨_, rfl⟩
  | .object subval, k, seenKeys, c, h => by
    rw [noExpression] at h
    obtain ⟨out, he⟩ := evaluateExpressions_same rt w rd testOnly subval (seenKeys ++ [k]) c h
    rw [ConfigParser.evaluateEntry]
    simp only [he]
    exact ⟨_, rfl⟩
  | .str _, k, seenKeys, c, _ => ⟨_, rfl⟩
  | .bool _, k, seenKeys, c, _ => ⟨_, rfl⟩
  | .number _, k, seenKeys, c, _ => ⟨_, rfl⟩
  | .null, k, seenKeys, c, _ => ⟨_, rfl⟩
  | .knownKeys _, k, seenKeys, c, _ => ⟨_, rfl⟩
  | .errors _, k, seenKeys, c, _ => ⟨_, rfl⟩
theorem evaluateExpressions_same (rt : GoRuntime) (w : World) (rd : Reader)
    (testOnly : Bool) :
    ∀ (m : Obj) (seenKeys : List String) (c : ConfigParser), noExpressionFields m = true →
      ∃ out, ConfigParser.evaluateExpressions rt w rd testOnly m seenKeys c = (c, m, out)
  | [], seenKeys, c, _ => ⟨_, rfl⟩
  | (k, ei) :: rest, seenKeys, c, h => by
    rw [noExpressionFields, Bool.and_eq_true] at h
    obtain ⟨out, hv⟩ := evaluateEntry_same rt w rd testOnly ei k seenKeys c h.1
    obtain ⟨out2, he⟩ := evaluateExpressions_same rt w rd testOnly rest seenKeys c h.2
    rw [ConfigParser.evaluateExpressions]
    cases out with
    | ok r => simp only [hv, he]; exact ⟨_, rfl⟩
    | error e => simp only [hv]; exact ⟨_, rfl⟩
    | panic p => simp only [hv]; exact ⟨_, rfl⟩
    | outOfFuel => simp only [hv]; exact ⟨_, rfl⟩
end

/-- C19.  On a document that contains no expression array, expression
evaluation leaves the parser and the document tree as they are, so evaluating
a second time gives what evaluating once gave.  An array whose first element
is a string that names no expander is no expression array: `evalValue` keeps
it, keeps its first element, and walks the other elements, the outcome being
the outcome of that walk; when the other elements are ordinary data the array
is returned as it is, without error. -/
theorem evaluation_without_expression (rt : GoRuntime) (w : World) (rd : Reader)
    (testOnly : Bool) (m : Obj) (seenKeys : List String) (c : ConfigParser)
    (h : noExpressionFields m = true) :
    (ConfigParser.evaluateExpressions rt w rd testOnly m seenKeys c).1 = c ∧
    (ConfigParser.evaluateExpressions rt w rd testOnly m seenKeys c).2.1 = m ∧
    ConfigParser.evaluateExpressions rt w rd testOnly
        (ConfigParser.evaluateExpressions rt w rd testOnly m seenKeys c).2.1 seenKeys
        (ConfigParser.evaluateExpressions rt w rd testOnly m seenKeys c).1 =
      ConfigParser.evaluateExpressions rt w rd testOnly m seenKeys c ∧
    (∀ (name : String) (more : List Value) (c0 : ConfigParser), namedExpander name = none →
      ConfigParser.evalValue rt w rd (.list (.str name :: more)) c0 =
        ((ConfigParser.evalElems rt w rd more c0).1,
          .list (.str name :: (ConfigParser.evalElems rt w rd more c0).2.1),
          match (ConfigParser.evalElems rt w rd more c0).2.2 with
          | .ok _ => .ok (.list (.str name :: (ConfigParser.evalElems rt w rd more c0).2.1))
          | .error e => .error e
          | .panic p => .panic p
          | .outOfFuel => .outOfFuel)) ∧
    (∀ (name : String) (more : List Value) (c0 : ConfigParser), namedExpander name = none →
      plainElems more = true →
      ConfigParser.evalValue rt w rd (.list (.str name :: more)) c0 =
        (c0, .list (.str name :: more), .ok (.list (.str name :: more)))) := by
  obtain ⟨out, he⟩ := evaluateExpressions_same rt w rd testOnly m seenKeys c h
  refine ⟨by rw [he], by rw [he], by rw [he]; exact he, fun name more c0 hn => ?_,
    fun name more c0 hn hp => ?_⟩
  · rw [ConfigParser.evalValue]
    simp only [expanderOf, hn]
    rw [ConfigParser.evalElems]
    simp only [ConfigParser.evalValue]
    rcases ConfigParser.evalElems rt w rd more c0 with ⟨c1, sl, o⟩
    cases o <;> rfl
  · refine evalValue_plain rt w rd _ c0 ?_
    rw [plainValue, plainElems, hp]
    simp [expanderOf, hn, plainValue]

theorem evaluation_without_expression_witness :
    noExpressionFields [("k", .list [.str "foo", .list [.str "x", .null]]),
      ("o", .object [("b", .bool true)])] = true ∧
    (ConfigParser.evaluateExpressions linux64 walkWorld
      (ConfigParser.recursiveReadJSON linux64 walkWorld 1) false
      [("k", .list [.str "foo", .list [.str "x", .null]]), ("o", .object [("b", .bool true)])]
      [] ⟨some [], []⟩).2.1 =
      [("k", .list [.str "foo", .list [.str "x", .null]]), ("o", .object [("b", .bool true)])] ∧
    ReadFile linux64 walkWorld "list.json" = .ok [("k", .list [.str "foo", .str "bar"])] :=
  ⟨rfl, (evaluation_without_expression linux64 walkWorld
    (ConfigParser.recursiveReadJSON linux64 walkWorld 1) false
    [("k", .list [.str "foo", .list [.str "x", .null]]), ("o", .object [("b", .bool true)])]
    [] ⟨some [], []⟩ rfl).2.1, rfl⟩

/-! ## Malformed expression arrays -/

/-- C20 fails on the code in its last case.  With malformed arguments `_env`
returns an error: when the argument count is not 1 or 2, when the pattern is
not a string, when the default is neither a string nor a boolean; and so does
`_fileobj` when the argument count is not 1.  But `_fileobj` with a single
argument that is not a string panics, in the unchecked assertion
`v[0].(string)`, as in the document `number.json` of `walkWorld`. -/
theorem malformed_expression_arguments (rt : GoRuntime) (w : World) (rd : Reader)
    (c : ConfigParser) :
    (∀ v : List Value, v.length ≠ 1 → v.length ≠ 2 →
      ConfigParser.expandEnv rt w v =
        .error ("_env expansion expected 1 or 2 args, got " ++ toString v.length)) ∧
    (∀ (v0 : Value) (rest : List Value), v0.isStr = false → rest.length ≤ 1 →
      ConfigParser.expandEnv rt w (v0 :: rest) =
        .error ("Expected a string after _env expansion; got " ++ rt.goSyntax v0)) ∧
    (∀ (s : String) (d : Value), d.isStr = false → d.isBool = false →
      ConfigParser.expandEnv rt w [.str s, d] =
        .error ("Expected default value in " ++ rt.quote s ++ " _env expansion; got "
          ++ rt.goSyntax d)) ∧
    (∀ v : List Value, v.length ≠ 1 →
      ConfigParser.expandFile w rd v c =
        (c, .error ("_file expansion expected 1 arg, got " ++ toString v.length))) ∧
    (∀ v0 : Value, v0.isStr = false →
      ConfigParser.expandFile w rd [v0] c =
        (c, .panic "interface conversion: interface {} is not string")) ∧
    ReadFile linux64 walkWorld "number.json" =
      .panic "interface conversion: interface {} is not string" := by
  refine ⟨fun v h1 h2 => ?_, fun v0 rest h0 hr => ?_, fun s d hs hb => ?_, fun v h1 => ?_,
    fun v0 h0 => ?_, rfl⟩
  · unfold ConfigParser.expandEnv
    rw [if_pos (by omega)]
  · unfold ConfigParser.expandEnv
    rw [if_neg (by simp only [List.length_cons]; omega)]
    cases v0 <;> first | (simp [Value.isStr] at h0; done) | rfl
  · unfold ConfigParser.expandEnv
    rw [if_neg (by simp)]
    cases d <;> first
      | (simp [Value.isStr] at hs; done)
      | (simp [Value.isBool] at hb; done)
      | rfl
  · unfold ConfigParser.expandFile
    rw [if_pos h1]
  · unfold ConfigParser.expandFile
    rw [if_neg (by simp)]
    cases v0 <;> first | (simp [Value.isStr] at h0; done) | rfl

/-! ## What `CheckTypes` leaves of the document -/

mutual
theorem evalValue_unexpanded (rt : GoRuntime) (w : World) (rd : Reader) :
    ∀ (v : Value) (c : ConfigParser), unexpandedValue v = true →
      ∃ out, ConfigParser.evalValue rt w rd v c = (c, v, out) ∧ ∀ r, out = .ok r → r = v
  | .list [], c, _ => ⟨_, rfl, fun _ hr => nomatch hr⟩
  | .list (first :: more), c, h => by
    rw [unexpandedValue, Bool.and_eq_true, Bool.not_eq_true', isExpression] at h
    have hn : expanderOf first = none := by
      cases hx : expanderOf first with
      | none => rfl
      | some x => rw [hx] at h; exact absurd h.1 (by simp)
    obtain ⟨out, he⟩ := evalElems_unexpanded rt w rd (first :: more) c h.2
    rw [ConfigParser.evalValue]
    simp only [hn, he]
    cases out with
    | ok u => exact ⟨_, rfl, fun r hr => by cases hr; rfl⟩
    | error e => exact ⟨_, rfl, fun _ hr => nomatch hr⟩
    | panic p => exact ⟨_, rfl, fun _ hr => nomatch hr⟩
    | outOfFuel => exact ⟨_, rfl, fun _ hr => nomatch hr⟩
  | .null, c, _ => ⟨_, rfl, fun r hr => by cases hr; rfl⟩
  | .bool _, c, _ => ⟨_, rfl, fun r hr => by cases hr; rfl⟩
  | .number _, c, _ => ⟨_, rfl, fun r hr => by cases hr; rfl⟩
  | .str _, c, _ => ⟨_, rfl, fun r hr => by cases hr; rfl⟩
  | .object _, c, _ => ⟨_, rfl, fun r hr => by cases hr; rfl⟩
  | .knownKeys _, c, _ => ⟨_, rfl, fun r hr => by cases hr; rfl⟩
  | .errors _, c, _ => ⟨_, rfl, fun r hr => by cases hr; rfl⟩
theorem evalElems_unexpanded (rt : GoRuntime) (w : World) (rd : Reader) :
    ∀ (l : List Value) (c : ConfigParser), unexpandedElems l = true →
      ∃ out, ConfigParser.evalElems rt w rd l c = (c, l, out)
  | [], c, _ => ⟨_, rfl⟩
  | oldval :: rest, c, h => by
    rw [unexpandedElems, Bool.and_eq_true] at h
    obtain ⟨out, hv, hr⟩ := evalValue_unexpanded rt w rd oldval c h.1
    obtain ⟨out2, he⟩ := evalElems_unexpanded rt w rd rest c h.2
    rw [ConfigParser.evalElems]
    cases out with
    | ok r =>
      rw [hr r rfl] at hv
      simp only [hv, he]
      exact ⟨_, rfl⟩
    | error e => simp only [hv]; exact ⟨_, rfl⟩
    | panic p => simp only [hv]; exact ⟨_, rfl⟩
    | outOfFuel => simp only [hv]; exact ⟨_, rfl⟩
end

/-- An expander does not write to the array it is called on: `evalValue` leaves
an expression array as it is. -/
theorem evalValue_expression_frame (rt : GoRuntime) (w : World) (rd : Reader)
    (xs : List Value) (c : ConfigParser) (h : isExpression xs = true) :
    (ConfigParser.evalValue rt w rd (.list xs) c).2.1 = .list xs := by
  cases xs with
  | nil => rfl
  | cons first more =>
    rw [isExpression] at h
    rw [ConfigParser.evalValue]
    cases hx : expanderOf first with
    | none => rw [hx] at h; exact absurd h (by simp)
    | some x => cases x <;> rfl

mutual
theorem evaluateEntry_frame (rt : GoRuntime) (w : World) (rd : Reader) :
    ∀ (ei : Value) (k : String) (seenKeys : List String) (c : ConfigParser),
      shallowEntry ei = true →
      (ConfigParser.evaluateEntry rt w rd true ei k seenKeys c).2.1 = ei
  | .list [], k, seenKeys, c, _ => rfl
  | .list (x :: xs), k, seenKeys, c, h => by
    have hv : (ConfigParser.evalValue rt w rd (.list (x :: xs)) c).2.1 = .list (x :: xs) := by
      rw [shallowEntry, Bool.or_eq_true] at h
      rcases h with h | h
      · exact evalValue_expression_frame rt w rd _ c h
      · cases hx : isExpression (x :: xs) with
        | true => exact evalValue_expression_frame rt w rd _ c hx
        | false =>
          obtain ⟨out, he, _⟩ := evalValue_unexpanded rt w rd (.list (x :: xs)) c
            (by rw [unexpandedValue, hx, h]; rfl)
          rw [he]
    rw [ConfigParser.evaluateEntry]
    rcases hev : ConfigParser.evalValue rt w rd (.list (x :: xs)) c with ⟨c1, inPlace, out⟩
    rw [hev] at hv
    cases out <;> simpa using hv
  | .object subval, k, seenKeys, c, h => by
    rw [shallowEntry] at h
    rw [ConfigParser.evaluateEntry]
    have := evaluateExpressions_frame rt w rd subval (seenKeys ++ [k]) c h
    rcases hev : ConfigParser.evaluateExpressions rt w rd true subval (seenKeys ++ [k]) c
      with ⟨c1, sub, out⟩
    rw [hev] at this
    simpa using this
  | .str _, k, seenKeys, c, _ => rfl
  | .bool _, k, seenKeys, c, _ => rfl
  | .number _, k, seenKeys, c, _ => rfl
  | .null, k, seenKeys, c, _ => rfl
  | .knownKeys _, k, seenKeys, c, _ => rfl
  | .errors _, k, seenKeys, c, _ => rfl
theorem evaluateExpressions_frame (rt : GoRuntime) (w : World) (rd : Reader) :
    ∀ (m : Obj) (seenKeys : List String) (c : ConfigParser), shallowFields m = true →
      (ConfigParser.evaluateExpressions rt w rd true m seenKeys c).2.1 = m
  | [], seenKeys, c, _ => rfl
  | (k, ei) :: rest, seenKeys, c, h => by
    rw [shallowFields, Bool.and_eq_true] at h
    have hv := evaluateEntry_frame rt w rd ei k seenKeys c h.1
    rw [ConfigParser.evaluateExpressions]
    rcases hev : ConfigParser.evaluateEntry rt w rd true ei k seenKeys c with ⟨c1, v, out⟩
    rw [hev] at hv
    simp only at hv
    subst hv
    cases out with
    | ok u =>
      simp only
      rw [evaluateExpressions_frame rt w rd rest seenKeys c1 h.2]
    | error e => rfl
    | panic p => rfl
    | outOfFuel => rfl
end

/-! ## When `CheckTypes` returns an error -/

mutual
theorem evaluateEntry_handled (rt : GoRuntime) (w : World) (rd : Reader) (testOnly : Bool) :
    ∀ (ei : Value) (k : String) (seenKeys : List String) (c c1 : ConfigParser) (v : Value),
      ConfigParser.evaluateEntry rt w rd testOnly ei k seenKeys c = (c1, v, .ok ()) →
      hasUnhandledEntry ei = false
  | .list _, _, _, _, _, _, _ => rfl
  | .object subval, k, seenKeys, c, c1, v, h => by
    rw [ConfigParser.evaluateEntry] at h
    rw [hasUnhandledEntry]
    rcases hev : ConfigParser.evaluateExpressions rt w rd testOnly subval (seenKeys ++ [k]) c
      with ⟨c2, sub, out⟩
    rw [hev] at h
    simp only [Prod.mk.injEq] at h
    rw [h.2.2] at hev
    exact evaluateExpressions_handled rt w rd testOnly subval _ c c2 sub hev
  | .str _, _, _, _, _, _, _ => rfl
  | .bool _, _, _, _, _, _, _ => rfl
  | .number _, _, _, _, _, _, _ => rfl
  | .null, k, seenKeys, c, c1, v, h => by simp [ConfigParser.evaluateEntry] at h
  | .knownKeys _, k, seenKeys, c, c1, v, h => by simp [ConfigParser.evaluateEntry] at h
  | .errors _, k, seenKeys, c, c1, v, h => by simp [ConfigParser.evaluateEntry] at h
theorem evaluateExpressions_handled (rt : GoRuntime) (w : World) (rd : Reader)
    (testOnly : Bool) :
    ∀ (m : Obj) (seenKeys : List String) (c c1 : ConfigParser) (m1 : Obj),
      ConfigParser.evaluateExpressions rt w rd testOnly m seenKeys c = (c1, m1, .ok ()) →
      hasUnhandledFields m = false
  | [], _, _, _, _, _ => rfl
  | (k, ei) :: rest, seenKeys, c, c1, m1, h => by
    rw [ConfigParser.evaluateExpressions] at h
    rw [hasUnhandledFields, Bool.or_eq_false_iff]
    split at h <;> rename_i heq
    · simp only [Prod.mk.injEq] at h
      exact ⟨evaluateEntry_handled rt w rd testOnly ei k seenKeys c _ _ heq,
        evaluateExpressions_handled rt w rd testOnly rest seenKeys _ _ _
          (Prod.ext rfl (Prod.ext rfl h.2.2))⟩
    all_goals cases h
end

mutual
theorem evaluateEntry_quiet (rt : GoRuntime) (w : World) (rd : Reader) (testOnly : Bool) :
    ∀ (ei : Value) (k : String) (seenKeys : List String) (c : ConfigParser),
      quietEntry ei = true →
      ∃ out, ConfigParser.evaluateEntry rt w rd testOnly ei k seenKeys c = (c, ei, out) ∧
        (hasUnhandledEntry ei = false → out = .ok ()) ∧
        (hasUnhandledEntry ei = true → ∃ e, out = .error e)
  | .list [], k, seenKeys, c, _ => ⟨_, rfl, fun _ => rfl, fun h => nomatch h⟩
  | .list (x :: xs), k, seenKeys, c, h => by
    rw [quietEntry] at h
    refine ⟨.ok (), ?_, fun _ => rfl, fun h => nomatch h⟩
    rw [ConfigParser.evaluateEntry]
    simp only [evalValue_plain rt w rd (.list (x :: xs)) c h, ite_self]
  | .object subval, k, seenKeys, c, h => by
    rw [quietEntry] at h
    obtain ⟨out, he, h1, h2⟩ :=
      evaluateExpressions_quiet rt w rd testOnly subval (seenKeys ++ [k]) c h
    refine ⟨out, ?_, h1, h2⟩
    rw [ConfigParser.evaluateEntry]
    simp only [he]
  | .str _, k, seenKeys, c, _ => ⟨_, rfl, fun _ => rfl, fun h => nomatch h⟩
  | .bool _, k, seenKeys, c, _ => ⟨_, rfl, fun _ => rfl, fun h => nomatch h⟩
  | .number _, k, seenKeys, c, _ => ⟨_, rfl, fun _ => rfl, fun h => nomatch h⟩
  | .null, k, seenKeys, c, _ => ⟨_, rfl, (fun h => nomatch h), fun _ => ⟨_, rfl⟩⟩
  | .knownKeys _, k, seenKeys, c, _ => ⟨_, rfl, (fun h => nomatch h), fun _ => ⟨_, rfl⟩⟩
  | .errors _, k, seenKeys, c, _ => ⟨_, rfl, (fun h => nomatch h), fun _ => ⟨_, rfl⟩⟩
theorem evaluateExpressions_quiet (rt : GoRuntime) (w : World) (rd : Reader)
    (testOnly : Bool) :
    ∀ (m : Obj) (seenKeys : List String) (c : ConfigParser), quietFields m = true →
      ∃ out, ConfigParser.evaluateExpressions rt w rd testOnly m seenKeys c = (c, m, out) ∧
        (hasUnhandledFields m = false → out = .ok ()) ∧
        (hasUnhandledFields m = true → ∃ e, out = .error e)
  | [], seenKeys, c, _ => ⟨_, rfl, fun _ => rfl, fun h => nomatch h⟩
  | (k, ei) :: rest, seenKeys, c, h => by
    rw [quietFields, Bool.and_eq_true] at h
    obtain ⟨out, hv, h1, h2⟩ := evaluateEntry_quiet rt w rd testOnly ei k seenKeys c h.1
    obtain ⟨out2, he, h3, h4⟩ := evaluateExpressions_quiet rt w rd testOnly rest seenKeys c h.2
    rw [ConfigParser.evaluateExpressions, hasUnhandledFields]
    cases hu : hasUnhandledEntry ei with
    | false =>
      rw [h1 hu] at hv
      simp only [hv, he, Bool.false_or]
      exact ⟨out2, rfl, h3, h4⟩
    | true =>
      obtain ⟨e, rfl⟩ := h2 hu
      simp only [hv, Bool.true_or]
      exact ⟨_, rfl, (fun h => nomatch h), fun _ => ⟨e, rfl⟩⟩
end

/-- C21, as the code has it.  When every expression array the walk meets is
the value of an object key, none being an element of another array,
`CheckTypes` leaves the document as it is, at every depth.  It returns without
error only if no object key, of the document or of an object reached through
the values of object keys, has a value its `switch` does not handle (null);
and on a document in which the walk meets no expression array and no empty
array inside an array it returns an error exactly when there is such a key,
and then leaves parser and document as they are. -/
theorem check_types_frame (rt : GoRuntime) (w : World) (fuel : Nat) (c : ConfigParser)
    (m : Obj) :
    (shallowFields m = true → (ConfigParser.CheckTypes rt w fuel c m).2.1 = m) ∧
    ((ConfigParser.CheckTypes rt w fuel c m).2.2 = .ok () → hasUnhandledFields m = false) ∧
    (quietFields m = true →
      (hasUnhandledFields m = false → ConfigParser.CheckTypes rt w fuel c m = (c, m, .ok ())) ∧
      (hasUnhandledFields m = true →
        ∃ e, ConfigParser.CheckTypes rt w fuel c m = (c, m, .error e))) := by
  unfold ConfigParser.CheckTypes
  refine ⟨fun h => evaluateExpressions_frame rt w _ m [] c h, fun h => ?_, fun h => ?_⟩
  · rcases hev : ConfigParser.evaluateExpressions rt w (ConfigParser.recursiveReadJSON rt w fuel)
      true m [] c with ⟨c1, m1, out⟩
    rw [hev] at h
    simp only at h
    rw [h] at hev
    exact evaluateExpressions_handled rt w _ true m [] c c1 m1 hev
  · obtain ⟨out, he, h1, h2⟩ := evaluateExpressions_quiet rt w
      (ConfigParser.recursiveReadJSON rt w fuel) true m [] c h
    refine ⟨fun hu => ?_, fun hu => ?_⟩
    · rw [he, h1 hu]
    · obtain ⟨e, rfl⟩ := h2 hu
      exact ⟨e, he⟩

/-- C21 fails as stated.  An `_env` expression that is an element of an array
is replaced by its value although `CheckTypes` only tests: `evalValue` writes
to the array in place.  The error does not depend on the document alone: the
same `_env` expression passes where its variable is set and fails where it is
not.  And a key whose value is null, in an object that is an element of an
array, is not reported. -/
theorem check_types_counterexample :
    ConfigParser.CheckTypes linux64 walkWorld 1 ⟨none, []⟩
        [("k", .list [.list [.str "_env", .str "${TEST_BAR}"]])] =
      (⟨none, []⟩, [("k", .list [.str "bar"])], .ok ()) ∧
    ConfigParser.CheckTypes linux64 walkWorld 1 ⟨none, []⟩
        [("k", .list [.str "_env", .str "${TEST_BAR}"])] =
      (⟨none, []⟩, [("k", .list [.str "_env", .str "${TEST_BAR}"])], .ok ()) ∧
    ConfigParser.CheckTypes linux64 loopWorld 1 ⟨none, []⟩
        [("k", .list [.str "_env", .str "${TEST_BAR}"])] =
      (⟨none, []⟩, [("k", .list [.str "_env", .str "${TEST_BAR}"])],
        .error "k: value error couldn't expand environment variable \"TEST_BAR\"") ∧
    ConfigParser.CheckTypes linux64 walkWorld 1 ⟨none, []⟩
        [("k", .list [.object [("x", .null)]])] =
      (⟨none, []⟩, [("k", .list [.object [("x", .null)]])], .ok ()) ∧
    ConfigParser.CheckTypes linux64 walkWorld 1 ⟨none, []⟩ [("x", .null)] =
      (⟨none, []⟩, [("x", .null)], .error "x: unhandled type <nil>") :=
  ⟨rfl, rfl, rfl, rfl, rfl⟩

theorem check_types_frame_witness :
    shallowFields [("k", .list [.str "_env", .str "${TEST_BAR}"]),
      ("l", .list [.str "a", .list [.null]]), ("o", .object [("n", .number 1)])] = true ∧
    (ConfigParser.CheckTypes linux64 walkWorld 1 ⟨none, []⟩
      [("k", .list [.str "_env", .str "${TEST_BAR}"]),
        ("l", .list [.str "a", .list [.null]]), ("o", .object [("n", .number 1)])]).2.1 =
      [("k", .list [.str "_env", .str "${TEST_BAR}"]),
        ("l", .list [.str "a", .list [.null]]), ("o", .object [("n", .number 1)])] :=
  ⟨rfl, (check_types_frame linux64 walkWorld 1 ⟨none, []⟩
    [("k", .list [.str "_env", .str "${TEST_BAR}"]),
      ("l", .list [.str "a", .list [.null]]), ("o", .object [("n", .number 1)])]).1 rfl⟩

/-! ## Validate, called again -/

theorem plainKeys_appendAll {α : Type} (f : α → String) (p : String → Bool) :
    ∀ (l : List α) {jc jc1 : Obj},
      l.foldlM (fun o k => Obj.appendError o (f k)) jc = some jc1 →
      (keys jc1).filter (fun x => p x && !hasUnderscorePrefix x) =
        (keys jc).filter (fun x => p x && !hasUnderscorePrefix x)
  | [], jc, jc1, h => by
    simp only [List.foldlM_nil, Option.pure_def, Option.some.injEq] at h
    subst h
    rfl
  | a :: l, jc, jc1, h => by
    simp only [List.foldlM_cons, Option.bind_eq_bind] at h
    cases h2 : jc.appendError (f a) with
    | none => simp [h2] at h
    | some jc2 =>
      simp only [h2, Option.some_bind] at h
      rw [plainKeys_appendAll f p l h, plainKeys_appendError h2]

/-- One call of `Validate` on an object whose bookkeeping entries are well
formed: it returns, the error log gains one error per unknown key, the
bookkeeping stays well formed and the unknown keys stay the same; the error
returned is read off the new log. -/
theorem Validate_step (rt : GoRuntime) {jc : Obj} {unknown : List String}
    (hwf : jc.wellFormed = true) (hu : jc.UnknownKeys = some unknown) :
    ∃ jc1 r, jc.Validate rt = some (jc1, r) ∧ jc1.wellFormed = true ∧
      jc1.errorLog = jc.errorLog ++ unknown.map (fun k => "Unknown key " ++ rt.quote k) ∧
      jc1.UnknownKeys = some unknown ∧
      (∀ e, jc1.errorLog = [e] → r = some e) ∧
      (∀ e1 e2 rest, jc1.errorLog = e1 :: e2 :: rest →
        r = some (errorfNoOperands rt ("Multiple errors: " ++ Join (e1 :: e2 :: rest) ", "))) := by
  obtain ⟨jc1, hf, hwf1⟩ := appendAll_isSome (fun k => "Unknown key " ++ rt.quote k) unknown hwf
  obtain ⟨hlog, hsame⟩ := appendAll_some _ _ hf
  have hks : jc1.knownSet = jc.knownSet := knownSet_congr (hsame _ (by decide))
  have hu1 : jc1.UnknownKeys = some unknown := by
    rw [UnknownKeys_eq (wellFormed_known hwf1), hks,
      plainKeys_appendAll _ (fun k => !(decide (k ∈ jc.knownSet))) unknown hf,
      ← UnknownKeys_eq (wellFormed_known hwf), hu]
  rcases wellFormed_errors hwf1 with ⟨hn, he⟩ | ⟨hs, he⟩
  · refine ⟨jc1, none, ?_, hwf1, hlog, hu1, fun e h => ?_, fun e1 e2 rest h => ?_⟩
    · unfold Obj.Validate
      simp only [hu, hf, hn]
    · rw [he] at h; cases h
    · rw [he] at h; cases h
  · cases hl : jc1.errorLog with
    | nil => exact absurd hl he
    | cons e rest =>
      cases rest with
      | nil =>
        refine ⟨jc1, some e, ?_, hwf1, hl ▸ hlog, hu1, fun e0 h => ?_, fun e1 e2 rest h => ?_⟩
        · unfold Obj.Validate
          simp only [hu, hf, hs, hl]
        · rw [hl] at h; cases h; rfl
        · rw [hl] at h; cases h
      | cons e2 rest =>
        refine ⟨jc1, some (errorfNoOperands rt
          ("Multiple errors: " ++ Join (e :: e2 :: rest) ", ")), ?_, hwf1, hl ▸ hlog, hu1,
          fun e0 h => ?_, fun e1 e3 rest1 h => ?_⟩
        · unfold Obj.Validate
          simp only [hu, hf, hs, hl]
        · rw [hl] at h; cases h
        · rw [hl] at h; cases h; rfl

/-- C22, as the code has it.  `Validate` is not idempotent: it appends its
unknown-key errors to the error log on every call.  On an object whose
bookkeeping entries are well formed, with an empty error log and exactly one
unknown key `k`, the first `Validate` returns the single error
`Unknown key "k"` and leaves it in the log; a second `Validate` on the same
object appends it again, so the log lists the key twice, and returns another
result: when the quoted key contains no percent sign, the error
`Multiple errors: Unknown key "k", Unknown key "k"`. -/
theorem validate_twice (rt : GoRuntime) (jc : Obj) (k : String)
    (hwf : jc.wellFormed = true) (hlog : jc.errorLog = [])
    (hu : jc.UnknownKeys = some [k]) :
    ∃ jc1 jc2 r2,
      jc.Validate rt = some (jc1, some ("Unknown key " ++ rt.quote k)) ∧
      jc1.errorLog = ["Unknown key " ++ rt.quote k] ∧
      jc1.Validate rt = some (jc2, some r2) ∧
      jc2.errorLog = ["Unknown key " ++ rt.quote k, "Unknown key " ++ rt.quote k] ∧
      jc1.Validate rt ≠ jc.Validate rt ∧
      ('%' ∉ (rt.quote k).data →
        r2 = "Multiple errors: Unknown key " ++ rt.quote k ++ ", Unknown key " ++ rt.quote k) := by
  obtain ⟨jc1, r1, hv1, hwf1, hl1, hu1, hone1, _⟩ := Validate_step rt hwf hu
  rw [hlog] at hl1
  simp only [List.nil_append, List.map_cons, List.map_nil] at hl1
  obtain ⟨jc2, r2, hv2, _, hl2, _, _, htwo2⟩ := Validate_step rt hwf1 hu1
  rw [hl1] at hl2
  simp only [List.map_cons, List.map_nil, List.singleton_append] at hl2
  have hr1 := hone1 _ hl1
  have hr2 := htwo2 _ _ _ hl2
  subst hr1
  subst hr2
  refine ⟨jc1, jc2, _, hv1, hl1, hv2, hl2, fun heq => ?_, fun hp => ?_⟩
  · rw [hv1, hv2] at heq
    simp only [Option.some.injEq, Prod.mk.injEq] at heq
    have := congrArg Obj.errorLog heq.1
    rw [hl1, hl2] at this
    simp at this
  · have hmsg : ∀ m ∈ ["Unknown key " ++ rt.quote k, "Unknown key " ++ rt.quote k],
        '%' ∉ m.data := by
      intro m hm
      simp only [List.mem_cons, List.mem_singleton, List.not_mem_nil, or_false, or_self] at hm
      subst hm
      simp only [String.data_append, List.mem_append, not_or]
      exact ⟨by decide, hp⟩
    rw [errorfNoOperands_plain rt _ hmsg]
    have a1 : ∀ x : String,
        "Multiple errors: " ++ ("Unknown key " ++ x) = "Multiple errors: Unknown key " ++ x :=
      fun x => by rw [← String.append_assoc]; rfl
    have a2 : ∀ x : String, ", " ++ ("Unknown key " ++ x) = ", Unknown key " ++ x :=
      fun x => by rw [← String.append_assoc]; rfl
    simp only [Join, String.append_assoc, a1, a2]

/-- C22 fails as stated.  A document that has the key `_errors` with an empty
array has no error in its log and exactly one unknown key, yet the first
`Validate` panics in `appendError`.  And when the key contains a verb the
second `Validate` does not return the text that lists the key twice:
`fmt.Errorf` is given the joined text as its format. -/
theorem validate_twice_counterexample :
    Obj.errorLog [("_errors", .list []), ("k", .number 1)] = [] ∧
    Obj.UnknownKeys [("_errors", .list []), ("k", .number 1)] = some ["k"] ∧
    Obj.Validate linux64 [("_errors", .list []), ("k", .number 1)] = none ∧
    (∃ jc1, Obj.Validate linux64 [("a%d", .number 1)] =
        some (jc1, some "Unknown key \"a%d\"") ∧
      (Obj.Validate linux64 jc1).map Prod.snd = some (some
        "Multiple errors: Unknown key \"a%!d(MISSING)\", Unknown key \"a%!d(MISSING)\"")) :=
  ⟨rfl, rfl, rfl, _, rfl, by decide⟩

theorem validate_twice_witness :
    Obj.wellFormed [("k", .number 1), ("_comment", .str "x")] = true ∧
    Obj.errorLog [("k", .number 1), ("_comment", .str "x")] = [] ∧
    Obj.UnknownKeys [("k", .number 1), ("_comment", .str "x")] = some ["k"] ∧
    (∃ jc1 jc2,
      Obj.Validate linux64 [("k", .number 1), ("_comment", .str "x")] =
        some (jc1, some "Unknown key \"k\"") ∧
      Obj.Validate linux64 jc1 =
        some (jc2, some "Multiple errors: Unknown key \"k\", Unknown key \"k\"")) := by
  refine ⟨rfl, rfl, rfl, ?_⟩
  obtain ⟨jc1, jc2, r2, h1, _, h2, _, _, hr⟩ :=
    validate_twice linux64 [("k", .number 1), ("_comment", .str "x")] "k" rfl rfl rfl
  refine ⟨jc1, jc2, h1, ?_⟩
  rw [h2, hr (by decide)]
  rfl
end Jsoncfgo
